import Mathlib

/-!
# Verification of the exchange matching engine core

A shallow embedding of the matching-engine core of the repository
(`src/order.rs`, `src/trade.rs`, `src/orderbook.rs`, `src/engine.rs`,
`src/utils.rs`) together with proofs of the specification claims.

Modelling conventions:
* `rust_decimal::Decimal` (exact fixed-point decimal) is modelled by `ℚ`:
  all the operations the code uses (comparison, `min`, subtraction, sum,
  zero test) are exact on both.
* `Uuid` is modelled by `Nat`; ids are opaque tokens, only compared.
* `BTreeMap<Decimal, VecDeque<Uuid>>` is modelled by an association list
  `List (ℚ × List Nat)` whose keys are kept strictly ascending (the
  representation invariant the Rust `BTreeMap` maintains by construction).
* `HashMap<Uuid, Order>` (and `HashMap<String, OrderBook>`) are modelled by
  association lists with distinct keys; `insert` replaces, `remove` deletes.
* Clock reads (`timestamp`) and freshly drawn `trade_id`s are omitted: they
  are nondeterministic environment inputs that no verified claim mentions.
* The two `.expect(..)` panics inside `OrderBook::process_level` are
  modelled by `Option`: a `none` result is a panic.  All theorems show the
  panic is unreachable from well-formed books.
-/

set_option linter.unusedVariables false

namespace Exchange

/-- `utils.rs` `Side`. -/
inductive Side where
  | Buy
  | Sell
deriving DecidableEq, Repr

/-- `utils.rs` `OrderType`. -/
inductive OrderType where
  | Market
  | Limit
deriving DecidableEq, Repr

/-- `utils.rs` `OrderStatus`. -/
inductive OrderStatus where
  | New
  | PartiallyFilled
  | Filled
  | Canceled
deriving DecidableEq, Repr

/-- `utils.rs` `MatchingEngineError`. -/
inductive MatchingEngineError where
  | MarketNotFound (symbol : String)
  | OrderNotFound (order_id : Nat)
  | InvalidOrderPrice
deriving DecidableEq, Repr

/-- `order.rs` `Order` (timestamp omitted, see header). -/
structure Order where
  order_id : Nat
  instrument : String
  side : Side
  order_type : OrderType
  status : OrderStatus
  price : Option ℚ
  quantity : ℚ
  remaining_quantity : ℚ
deriving DecidableEq, Repr

/-- `Order::is_filled`: `self.remaining_quantity.is_zero()`. -/
def Order.is_filled (o : Order) : Bool :=
  o.remaining_quantity = 0

/-- `Order::fill`. -/
def Order.fill (o : Order) (qty : ℚ) : Order :=
  let rem := if qty > o.remaining_quantity then 0 else o.remaining_quantity - qty
  { o with
    remaining_quantity := rem
    status := if rem = 0 then OrderStatus.Filled else OrderStatus.PartiallyFilled }

/-- `trade.rs` `Trade` (trade_id and timestamp omitted, see header). -/
structure Trade where
  instrument : String
  price : ℚ
  quantity : ℚ
  buy_order_id : Nat
  sell_order_id : Nat
  taker_side : Side
deriving DecidableEq, Repr

/-- `utils.rs` `PriceLevel`. -/
structure PriceLevel where
  price : ℚ
  volume : ℚ
deriving DecidableEq, Repr

/-- `utils.rs` `OrderBookDisplay`. -/
structure OrderBookDisplay where
  bids : List PriceLevel
  asks : List PriceLevel
deriving DecidableEq, Repr

/-! ## The id index: `HashMap<Uuid, Order>` as an association list -/

/-- The `orders` field of `OrderBook`: `HashMap<Uuid, Order>`. -/
abbrev OrdersMap := List (Nat × Order)

/-- `HashMap::get`. -/
def omFind (m : OrdersMap) (id : Nat) : Option Order :=
  (m.find? (fun e => e.1 = id)).map (·.2)

/-- `HashMap::insert`: replace the entry if the key is present, else add it. -/
def omInsert (m : OrdersMap) (id : Nat) (o : Order) : OrdersMap :=
  if (m.find? (fun e => e.1 = id)).isSome then
    m.map (fun e => if e.1 = id then (id, o) else e)
  else
    m ++ [(id, o)]

/-- `HashMap::remove` (the removed value is read through `omFind` first). -/
def omErase (m : OrdersMap) (id : Nat) : OrdersMap :=
  m.filter (fun e => e.1 ≠ id)

/-! ## One side of the book: `BTreeMap<Decimal, VecDeque<Uuid>>` -/

/-- One side of the book; keys kept strictly ascending. -/
abbrev HalfBook := List (ℚ × List Nat)

/-- `BTreeMap::get`. -/
def hbFind (hb : HalfBook) (p : ℚ) : Option (List Nat) :=
  (hb.find? (fun e => e.1 = p)).map (·.2)

/-- Replace the queue stored at key `p` (a `get_mut` write-back). -/
def hbSet (hb : HalfBook) (p : ℚ) (q : List Nat) : HalfBook :=
  hb.map (fun e => if e.1 = p then (p, q) else e)

/-- `BTreeMap::remove`. -/
def hbErase (hb : HalfBook) (p : ℚ) : HalfBook :=
  hb.filter (fun e => e.1 ≠ p)

/-- `book_side.entry(price).or_default().push_back(order_id)`:
append `id` to the queue at `price`, inserting the key in sorted position
if absent. -/
def hbPush (hb : HalfBook) (p : ℚ) (id : Nat) : HalfBook :=
  match hb with
  | [] => [(p, [id])]
  | (q, ids) :: rest =>
    if p < q then (p, [id]) :: (q, ids) :: rest
    else if p = q then (q, ids ++ [id]) :: rest
    else (q, ids) :: hbPush rest p id

/-! ## `OrderBook` and its operations (`orderbook.rs`) -/

/-- `orderbook.rs` `OrderBook`. -/
structure OrderBook where
  instrument : String
  bids : HalfBook
  asks : HalfBook
  orders : OrdersMap
deriving DecidableEq, Repr

/-- `OrderBook::new`. -/
def OrderBook.new (instrument : String) : OrderBook :=
  { instrument := instrument, bids := [], asks := [], orders := [] }

/-- The inner `while let` loop of `OrderBook::process_level`
(orderbook.rs lines 89-121), recursing along the level's queue; the
surrounding book is represented by the id index `orders` plus the queue.

Returns `none` where the source panics (`orders.get_mut(..).expect(..)` on
an id missing from the index).  In the branch where the resting order is
not fully filled, `trade_qty = incoming.remaining_quantity` holds (it is
`min` of the two remainders and strictly below the resting remainder), so
the incoming order is filled and the source loop exits at its next
`incoming.is_filled()` check; the recursion therefore returns directly. -/
def process_queue (instr : String) (orders : OrdersMap) (incoming : Order)
    (price : ℚ) : List Nat → Option (OrdersMap × Order × List Nat × List Trade)
  | [] => some (orders, incoming, [], [])
  | resting_id :: restq =>
    if incoming.is_filled then some (orders, incoming, resting_id :: restq, [])
    else
      match omFind orders resting_id with
      | none => none
      | some resting =>
        let trade_qty := min incoming.remaining_quantity resting.remaining_quantity
        let incoming' := incoming.fill trade_qty
        let resting' := resting.fill trade_qty
        let ids : Nat × Nat :=
          if incoming.side = Side.Buy then (incoming.order_id, resting.order_id)
          else (resting.order_id, incoming.order_id)
        let t : Trade :=
          { instrument := instr, price := price, quantity := trade_qty
            buy_order_id := ids.1, sell_order_id := ids.2, taker_side := incoming.side }
        if resting'.is_filled then
          match process_queue instr (omErase orders resting_id) incoming' price restq with
          | none => none
          | some (orders₂, incoming₂, q₂, ts) => some (orders₂, incoming₂, q₂, t :: ts)
        else
          some (omInsert orders resting_id resting', incoming', resting_id :: restq, [t])

/-- `OrderBook::process_level` restricted to the opposite half-book and the
id index (the only parts of the book it touches); includes the trailing
empty-level cleanup (orderbook.rs lines 123-127). -/
def level_step (instr : String) (orders : OrdersMap) (incoming : Order)
    (price : ℚ) (opp : HalfBook) :
    Option (OrdersMap × HalfBook × Order × List Trade) :=
  match hbFind opp price with
  | none => some (orders, opp, incoming, [])
  | some queue =>
    match process_queue instr orders incoming price queue with
    | none => none
    | some (orders', incoming', queue', ts) =>
      some (orders',
            if queue'.isEmpty then hbErase opp price else hbSet opp price queue',
            incoming', ts)

/-- `OrderBook::process_level`: pick the opposite half-book by the incoming
side and run `level_step` on it. -/
def OrderBook.process_level (b : OrderBook) (incoming : Order) (price : ℚ) :
    Option (OrderBook × Order × List Trade) :=
  match incoming.side with
  | Side.Buy =>
    (level_step b.instrument b.orders incoming price b.asks).map
      (fun r => ({ b with orders := r.1, asks := r.2.1 }, r.2.2.1, r.2.2.2))
  | Side.Sell =>
    (level_step b.instrument b.orders incoming price b.bids).map
      (fun r => ({ b with orders := r.1, bids := r.2.1 }, r.2.2.1, r.2.2.2))

/-- The scan inside `OrderBook::get_matchable_prices`: walk the opposite
side's levels best-price first, skip empty queues (`continue`), collect a
crossing price, and stop (`break`) at the first non-crossing price when the
incoming order carries a limit.  `cross p lp` is `p <= lp` for a buy and
`p >= lp` for a sell. -/
def matchable_scan (limit : Option ℚ) (cross : ℚ → ℚ → Bool) :
    List (ℚ × List Nat) → List ℚ
  | [] => []
  | (price, queue) :: rest =>
    if queue.isEmpty then matchable_scan limit cross rest
    else
      match limit with
      | some lp =>
        if cross price lp then price :: matchable_scan limit cross rest else []
      | none => price :: matchable_scan limit cross rest

/-- `OrderBook::get_matchable_prices`: asks ascending for a buy, bids
descending (`iter().rev()`) for a sell. -/
def OrderBook.get_matchable_prices (b : OrderBook) (incoming : Order) : List ℚ :=
  match incoming.side with
  | Side.Buy => matchable_scan incoming.price (fun p lp => p ≤ lp) b.asks
  | Side.Sell => matchable_scan incoming.price (fun p lp => lp ≤ p) b.bids.reverse

/-- The `for price in prices_to_process` loop of `OrderBook::match_order`,
restricted to the opposite half-book and the id index (the incoming side
is fixed for the whole loop). -/
def match_loop (instr : String) (orders : OrdersMap) (incoming : Order)
    (opp : HalfBook) : List ℚ → Option (OrdersMap × HalfBook × Order × List Trade)
  | [] => some (orders, opp, incoming, [])
  | price :: rest =>
    if incoming.is_filled then some (orders, opp, incoming, [])
    else
      match level_step instr orders incoming price opp with
      | none => none
      | some (orders', opp', incoming', ts) =>
        match match_loop instr orders' incoming' opp' rest with
        | none => none
        | some (orders₂, opp₂, incoming₂, ts₂) =>
          some (orders₂, opp₂, incoming₂, ts ++ ts₂)

/-- `OrderBook::match_order`: compute the matchable prices once, then run
the level loop over the opposite half-book. -/
def OrderBook.match_order (b : OrderBook) (incoming : Order) :
    Option (OrderBook × Order × List Trade) :=
  match incoming.side with
  | Side.Buy =>
    (match_loop b.instrument b.orders incoming b.asks
        (b.get_matchable_prices incoming)).map
      (fun r => ({ b with orders := r.1, asks := r.2.1 }, r.2.2.1, r.2.2.2))
  | Side.Sell =>
    (match_loop b.instrument b.orders incoming b.bids
        (b.get_matchable_prices incoming)).map
      (fun r => ({ b with orders := r.1, bids := r.2.1 }, r.2.2.1, r.2.2.2))

/-- `OrderBook::add_order`. -/
def OrderBook.add_order (b : OrderBook) (order : Order) :
    Option (OrderBook × List Trade) :=
  (b.match_order order).map (fun r =>
    let b' := r.1
    let order' := r.2.1
    let trades := r.2.2
    if order'.is_filled = false ∧ order'.order_type = OrderType.Limit then
      match order'.price with
      | some price =>
        match order'.side with
        | Side.Buy =>
          ({ b' with bids := hbPush b'.bids price order'.order_id
                     orders := omInsert b'.orders order'.order_id order' }, trades)
        | Side.Sell =>
          ({ b' with asks := hbPush b'.asks price order'.order_id
                     orders := omInsert b'.orders order'.order_id order' }, trades)
      | none => (b', trades)
    else (b', trades))

/-- The queue scrub inside `OrderBook::cancel_order` (orderbook.rs lines
51-58): locate the price queue by the cancelled order's price, remove the
id from it (`retain`), and drop the map entry if the queue empties. -/
def scrub (price? : Option ℚ) (order_id : Nat) (hb : HalfBook) : HalfBook :=
  match price? with
  | none => hb
  | some price =>
    match hbFind hb price with
    | none => hb
    | some queue =>
      let queue' := queue.filter (fun id => id ≠ order_id)
      if queue'.isEmpty then hbErase hb price else hbSet hb price queue'

/-- `OrderBook::cancel_order`. -/
def OrderBook.cancel_order (b : OrderBook) (order_id : Nat) :
    Except MatchingEngineError (OrderBook × Order) :=
  match omFind b.orders order_id with
  | none => Except.error (MatchingEngineError.OrderNotFound order_id)
  | some order_to_cancel =>
    let orders' := omErase b.orders order_id
    let b' :=
      match order_to_cancel.side with
      | Side.Buy =>
        { b with bids := scrub order_to_cancel.price order_id b.bids
                 orders := orders' }
      | Side.Sell =>
        { b with asks := scrub order_to_cancel.price order_id b.asks
                 orders := orders' }
    Except.ok (b', { order_to_cancel with status := OrderStatus.Canceled })

/-- The per-level volume sum in `OrderBook::display`
(`queue.iter().map(|id| self.orders.get(id).unwrap().remaining_quantity).sum()`);
`none` models the `unwrap` panic. -/
def levelVolume (orders : OrdersMap) (queue : List Nat) : Option ℚ :=
  (queue.mapM (fun id => (omFind orders id).map (·.remaining_quantity))).map
    (fun l => l.sum)

/-- `OrderBook::display`: bids best-first (descending), asks best-first
(ascending), zero-volume levels filtered out. -/
def OrderBook.display (b : OrderBook) : Option OrderBookDisplay := do
  let bids ← b.bids.reverse.mapM (fun e =>
    (levelVolume b.orders e.2).map (fun v => PriceLevel.mk e.1 v))
  let asks ← b.asks.mapM (fun e =>
    (levelVolume b.orders e.2).map (fun v => PriceLevel.mk e.1 v))
  pure { bids := bids.filter (fun l => l.volume ≠ 0)
         asks := asks.filter (fun l => l.volume ≠ 0) }

/-! ## `MatchingEngine` (`engine.rs`) -/

/-- The `books` map: `HashMap<String, OrderBook>` as an association list. -/
abbrev BooksMap := List (String × OrderBook)

/-- `HashMap::get` on the books map. -/
def bmFind (m : BooksMap) (s : String) : Option OrderBook :=
  (m.find? (fun e => e.1 = s)).map (·.2)

/-- `HashMap::insert` on the books map. -/
def bmInsert (m : BooksMap) (s : String) (bk : OrderBook) : BooksMap :=
  if (m.find? (fun e => e.1 = s)).isSome then
    m.map (fun e => if e.1 = s then (s, bk) else e)
  else
    m ++ [(s, bk)]

/-- `engine.rs` `MatchingEngine`. -/
structure MatchingEngine where
  books : BooksMap
deriving DecidableEq, Repr

/-- `MatchingEngine::new`. -/
def MatchingEngine.new : MatchingEngine := { books := [] }

/-- `MatchingEngine::add_market`. -/
def MatchingEngine.add_market (e : MatchingEngine) (instrument : String) :
    MatchingEngine :=
  { books := bmInsert e.books instrument (OrderBook.new instrument) }

/-- `MatchingEngine::process_order` (logging and the returned log-duration
omitted; they do not touch the books).  The outer `Option` is the panic of
`OrderBook::add_order`; the `Except` is the returned `Result`.  The engine
state is returned in every non-panicking case: the error paths return it
untouched, exactly as the source's early returns do. -/
def MatchingEngine.process_order (e : MatchingEngine) (order : Order) :
    Option (MatchingEngine × Except MatchingEngineError (List Trade)) :=
  if order.order_type = OrderType.Market ∧ order.price.isSome then
    some (e, Except.error MatchingEngineError.InvalidOrderPrice)
  else if order.order_type = OrderType.Limit ∧ order.price.isNone then
    some (e, Except.error MatchingEngineError.InvalidOrderPrice)
  else
    match bmFind e.books order.instrument with
    | some book =>
      match book.add_order order with
      | none => none
      | some (book', trades) =>
        some ({ books := bmInsert e.books order.instrument book' }, Except.ok trades)
    | none => some (e, Except.error (MatchingEngineError.MarketNotFound order.instrument))

/-- `MatchingEngine::cancel_order_by_id`. -/
def MatchingEngine.cancel_order_by_id (e : MatchingEngine) (order_id : Nat)
    (instrument : String) :
    Except MatchingEngineError (MatchingEngine × Order) :=
  match bmFind e.books instrument with
  | some book =>
    match book.cancel_order order_id with
    | Except.error err => Except.error err
    | Except.ok (book', o) =>
      Except.ok ({ books := bmInsert e.books instrument book' }, o)
  | none => Except.error (MatchingEngineError.MarketNotFound instrument)

/-! ## Well-formedness of a book

The representation invariants that the Rust collection types maintain by
construction (`BTreeMap` keys strictly ascending, `HashMap` keys distinct)
together with the book invariants of the specification (§3): every queued
id is indexed with matching side and price, every indexed order is an
unfilled limit order sitting in exactly one queue, and no price map entry
holds an empty queue. -/

/-- Keys of a half-book are strictly ascending (the `BTreeMap` invariant). -/
def hbSorted (hb : HalfBook) : Prop :=
  (hb.map (·.1)).Pairwise (· < ·)

/-- No price-map entry holds an empty queue (spec §3, invariant (c)). -/
def hbNoEmpty (hb : HalfBook) : Prop :=
  ∀ e ∈ hb, e.2 ≠ []

/-- The id `id` is indexed with side `s` and price `p`. -/
def agreeAt (orders : OrdersMap) (s : Side) (p : ℚ) (id : Nat) : Prop :=
  match omFind orders id with
  | some o => o.side = s ∧ o.price = some p
  | none => False

instance (orders : OrdersMap) (s : Side) (p : ℚ) (id : Nat) :
    Decidable (agreeAt orders s p id) :=
  match h : omFind orders id with
  | some o =>
    decidable_of_iff (o.side = s ∧ o.price = some p) (by unfold agreeAt; rw [h])
  | none => isFalse (by unfold agreeAt; rw [h]; exact not_false

)

/-- Every id in a queue of `hb` is indexed with that side and that queue's
price (spec §3, invariant (a)). -/
def sideAgrees (orders : OrdersMap) (s : Side) (hb : HalfBook) : Prop :=
  ∀ e ∈ hb, ∀ id ∈ e.2, agreeAt orders s e.1 id

/-- Keys of the id index are distinct (the `HashMap` invariant). -/
def omKeysNodup (m : OrdersMap) : Prop :=
  (m.map (·.1)).Nodup

/-- Every indexed order records its own key as `order_id`, is a limit
order, and has a non-zero remaining quantity. -/
def ordersConsistent (m : OrdersMap) : Prop :=
  ∀ e ∈ m, e.2.order_id = e.1 ∧ e.2.order_type = OrderType.Limit ∧
    e.2.remaining_quantity ≠ 0

/-- All ids resting in the queues of a book, bids then asks. -/
def queueIds (b : OrderBook) : List Nat :=
  ((b.bids.map (·.2)).flatten) ++ ((b.asks.map (·.2)).flatten)

/-- Well-formed book. Its conjuncts include the three spec invariants:
(a) `sideAgrees` on both sides, (b) `queueIds`-nodup plus index coverage
(each indexed order rests in exactly one queue), (c) `hbNoEmpty`. -/
def WF (b : OrderBook) : Prop :=
  hbSorted b.bids ∧ hbSorted b.asks ∧
  hbNoEmpty b.bids ∧ hbNoEmpty b.asks ∧
  sideAgrees b.orders Side.Buy b.bids ∧ sideAgrees b.orders Side.Sell b.asks ∧
  omKeysNodup b.orders ∧ ordersConsistent b.orders ∧
  (queueIds b).Nodup ∧ (∀ e ∈ b.orders, e.1 ∈ queueIds b)

instance (b : OrderBook) : Decidable (WF b) := by
  unfold WF hbSorted hbNoEmpty sideAgrees omKeysNodup ordersConsistent
  infer_instance

/-! ## Concrete example data used by the claim witnesses -/

/-- A resting sell limit order, 5 at 101. -/
def exSell1 : Order :=
  { order_id := 1, instrument := "X", side := Side.Sell,
    order_type := OrderType.Limit, status := OrderStatus.New,
    price := some 101, quantity := 5, remaining_quantity := 5 }

/-- A resting sell limit order, 10 at 102. -/
def exSell2 : Order :=
  { order_id := 2, instrument := "X", side := Side.Sell,
    order_type := OrderType.Limit, status := OrderStatus.New,
    price := some 102, quantity := 10, remaining_quantity := 10 }

/-- A book with two ask levels and an empty bid side. -/
def exBook : OrderBook :=
  { instrument := "X", bids := [],
    asks := [(101, [1]), (102, [2])],
    orders := [(1, exSell1), (2, exSell2)] }

/-- An aggressive buy limit order, 7 at 102: walks both ask levels. -/
def exBuy : Order :=
  { order_id := 3, instrument := "X", side := Side.Buy,
    order_type := OrderType.Limit, status := OrderStatus.New,
    price := some 102, quantity := 7, remaining_quantity := 7 }

/-- A buy market order for 7. -/
def exMarketBuy : Order :=
  { order_id := 4, instrument := "X", side := Side.Buy,
    order_type := OrderType.Market, status := OrderStatus.New,
    price := none, quantity := 7, remaining_quantity := 7 }

/-- A non-crossing buy limit order, 4 at 50. -/
def exBuyLow : Order :=
  { order_id := 5, instrument := "X", side := Side.Buy,
    order_type := OrderType.Limit, status := OrderStatus.New,
    price := some 50, quantity := 4, remaining_quantity := 4 }

/-- A zero-quantity order. -/
def exZero : Order :=
  { order_id := 6, instrument := "X", side := Side.Buy,
    order_type := OrderType.Limit, status := OrderStatus.New,
    price := some 50, quantity := 0, remaining_quantity := 0 }

/-- A market order that wrongly carries a price. -/
def exBadMarket : Order :=
  { order_id := 7, instrument := "NOVEL", side := Side.Buy,
    order_type := OrderType.Market, status := OrderStatus.New,
    price := some 1, quantity := 1, remaining_quantity := 1 }

/-- A well-formed limit order on an unregistered instrument. -/
def exForeignLimit : Order :=
  { order_id := 8, instrument := "NOVEL", side := Side.Buy,
    order_type := OrderType.Limit, status := OrderStatus.New,
    price := some 5, quantity := 1, remaining_quantity := 1 }

/-- An engine with the single registered instrument `"X"` whose book is
`exBook`. -/
def exEngine : MatchingEngine := { books := [("X", exBook)] }

/-- `exSell2` after losing 2 units. -/
def exSell2Filled : Order :=
  { order_id := 2, instrument := "X", side := Side.Sell,
    order_type := OrderType.Limit, status := OrderStatus.PartiallyFilled,
    price := some 102, quantity := 10, remaining_quantity := 8 }

/-- The book left after `exBook.add_order exBuy` (and after
`exBook.add_order exMarketBuy`): level 101 consumed, order 2 partially
filled. -/
def exBookAfterBuy : OrderBook :=
  { instrument := "X", bids := [], asks := [(102, [2])],
    orders := [(2, exSell2Filled)] }

/-- The trades produced by `exBook.add_order exBuy`. -/
def exTrades : List Trade :=
  [{ instrument := "X", price := 101, quantity := 5, buy_order_id := 3,
     sell_order_id := 1, taker_side := Side.Buy },
   { instrument := "X", price := 102, quantity := 2, buy_order_id := 3,
     sell_order_id := 2, taker_side := Side.Buy }]

/-- The trades produced by `exBook.add_order exMarketBuy`. -/
def exTradesM : List Trade :=
  [{ instrument := "X", price := 101, quantity := 5, buy_order_id := 4,
     sell_order_id := 1, taker_side := Side.Buy },
   { instrument := "X", price := 102, quantity := 2, buy_order_id := 4,
     sell_order_id := 2, taker_side := Side.Buy }]

/-- The book left after `exBook.add_order exBuyLow`: the non-crossing
order rests at a new bid level. -/
def exBookRested : OrderBook :=
  { instrument := "X", bids := [(50, [5])],
    asks := [(101, [1]), (102, [2])],
    orders := [(1, exSell1), (2, exSell2), (5, exBuyLow)] }

/-- The book left after `exBook.cancel_order 1`: level 101 dropped. -/
def exBookAfterCancel : OrderBook :=
  { instrument := "X", bids := [], asks := [(102, [2])],
    orders := [(2, exSell2)] }

/-- The cancelled form of `exSell1`. -/
def exCancelled : Order :=
  { order_id := 1, instrument := "X", side := Side.Sell,
    order_type := OrderType.Limit, status := OrderStatus.Canceled,
    price := some 101, quantity := 5, remaining_quantity := 5 }

/-! ## Lemmas about the id-index model -/

theorem omFind_erase_self (m : OrdersMap) (id : Nat) :
    omFind (omErase m id) id = none := by
  unfold omFind omErase
  rw [Option.map_eq_none', List.find?_eq_none]
  intro e he
  simp only [List.mem_filter, decide_eq_true_eq] at he
  simpa using he.2

theorem omFind_erase_ne (m : OrdersMap) {id id' : Nat} (h : id' ≠ id) :
    omFind (omErase m id') id = omFind m id := by
  unfold omFind omErase
  induction m with
  | nil => rfl
  | cons e rest ih =>
    by_cases hk : e.1 = id'
    · have hnot : ¬ (e.1 = id) := by rw [hk]; exact h
      rw [List.filter_cons_of_neg (by simp [hk]),
        List.find?_cons_of_neg _ (by simp [hnot])]
      exact ih
    · rw [List.filter_cons_of_pos (by simp [hk])]
      by_cases hid : e.1 = id
      · rw [List.find?_cons_of_pos _ (by simp [hid]),
          List.find?_cons_of_pos _ (by simp [hid])]
      · rw [List.find?_cons_of_neg _ (by simp [hid]),
          List.find?_cons_of_neg _ (by simp [hid])]
        exact ih

theorem find?_replace_self {α β : Type} [DecidableEq α] (m : List (α × β))
    (id : α) (o : β)
    (hs : (List.find? (fun e => decide (e.1 = id)) m).isSome) :
    List.find? (fun e => decide (e.1 = id))
      (m.map (fun e => if e.1 = id then (id, o) else e)) = some (id, o) := by
  induction m with
  | nil => simp at hs
  | cons e rest ih =>
    by_cases hk : e.1 = id
    · simp [hk]
    · rw [List.find?_cons_of_neg _ (by simp [hk])] at hs
      rw [List.map_cons, if_neg hk, List.find?_cons_of_neg _ (by simp [hk])]
      exact ih hs

theorem find?_replace_ne {α β : Type} [DecidableEq α] (m : List (α × β))
    {id id' : α} (o : β) (h : id ≠ id') :
    List.find? (fun e => decide (e.1 = id'))
      (m.map (fun e => if e.1 = id then (id, o) else e)) =
    List.find? (fun e => decide (e.1 = id')) m := by
  induction m with
  | nil => rfl
  | cons e rest ih =>
    by_cases hk : e.1 = id
    · have h2 : ¬ (e.1 = id') := by rw [hk]; exact h
      simp only [List.map_cons, if_pos hk]
      rw [List.find?_cons_of_neg _ (by simp [h]),
        List.find?_cons_of_neg _ (by simp [h2])]
      exact ih
    · by_cases h2 : e.1 = id'
      · simp only [List.map_cons, if_neg hk]
        rw [List.find?_cons_of_pos _ (by simp [h2]),
          List.find?_cons_of_pos _ (by simp [h2])]
      · simp only [List.map_cons, if_neg hk]
        rw [List.find?_cons_of_neg _ (by simp [h2]),
          List.find?_cons_of_neg _ (by simp [h2])]
        exact ih

theorem omFind_insert_self (m : OrdersMap) (id : Nat) (o : Order) :
    omFind (omInsert m id o) id = some o := by
  unfold omFind omInsert
  by_cases hs : (List.find? (fun e => decide (e.1 = id)) m).isSome
  · rw [if_pos hs, find?_replace_self m id o hs]; rfl
  · rw [if_neg hs, List.find?_append]
    rw [Option.not_isSome_iff_eq_none] at hs
    simp [hs]

theorem omFind_insert_ne (m : OrdersMap) {id id' : Nat} (o : Order)
    (h : id ≠ id') : omFind (omInsert m id o) id' = omFind m id' := by
  unfold omFind omInsert
  by_cases hs : (List.find? (fun e => decide (e.1 = id)) m).isSome
  · rw [if_pos hs, find?_replace_ne m o h]
  · rw [if_neg hs, List.find?_append]
    match hm : List.find? (fun e => decide (e.1 = id')) m with
    | some e => simp [hm]
    | none => simp [hm, h]

theorem omFind_mem {m : OrdersMap} {id : Nat} {o : Order}
    (h : omFind m id = some o) : (id, o) ∈ m := by
  unfold omFind at h
  rw [Option.map_eq_some'] at h
  obtain ⟨e, he, heo⟩ := h
  have hmem := List.mem_of_find?_eq_some he
  have hkey : e.1 = id := by simpa using List.find?_some he
  have : e = (id, o) := by
    cases e; simp_all
  exact this ▸ hmem

theorem mem_omFind {m : OrdersMap} (hnd : omKeysNodup m) {id : Nat} {o : Order}
    (h : (id, o) ∈ m) : omFind m id = some o := by
  unfold omFind
  induction m with
  | nil => simp at h
  | cons e rest ih =>
    rw [List.mem_cons] at h
    rcases h with h | h
    · simp [← h]
    · have hkey : e.1 ≠ id := by
        intro hc
        have : id ∈ rest.map (·.1) := List.mem_map_of_mem _ h
        rw [omKeysNodup, List.map_cons, List.nodup_cons, hc] at hnd
        exact hnd.1 this
      rw [List.find?_cons_of_neg _ (by simpa using hkey)]
      exact ih (List.Nodup.of_cons hnd) h

theorem mem_of_mem_omErase {m : OrdersMap} {id : Nat} {e : Nat × Order}
    (h : e ∈ omErase m id) : e ∈ m :=
  List.mem_of_mem_filter h

theorem mem_of_mem_omInsert {m : OrdersMap} {id : Nat} {o : Order}
    {e : Nat × Order} (h : e ∈ omInsert m id o) : e = (id, o) ∨ e ∈ m := by
  unfold omInsert at h
  by_cases hs : (List.find? (fun e => decide (e.1 = id)) m).isSome
  · rw [if_pos hs] at h
    obtain ⟨a, ha, hae⟩ := List.mem_map.mp h
    by_cases hk : a.1 = id
    · left; rw [if_pos hk] at hae; exact hae.symm
    · right; rw [if_neg hk] at hae; exact hae ▸ ha
  · rw [if_neg hs] at h
    rcases List.mem_append.mp h with h | h
    · right; exact h
    · left; simpa using h

theorem omKeysNodup_erase {m : OrdersMap} (h : omKeysNodup m) (id : Nat) :
    omKeysNodup (omErase m id) := by
  unfold omKeysNodup omErase at *
  exact List.Nodup.sublist ((List.filter_sublist m).map _) h

theorem omKeysNodup_insert {m : OrdersMap} (h : omKeysNodup m) (id : Nat)
    (o : Order) : omKeysNodup (omInsert m id o) := by
  unfold omKeysNodup omInsert at *
  by_cases hs : (List.find? (fun e => decide (e.1 = id)) m).isSome
  · rw [if_pos hs]
    have : (m.map (fun e => if e.1 = id then (id, o) else e)).map (·.1) = m.map (·.1) := by
      rw [List.map_map]
      apply List.map_congr_left
      intro e he
      by_cases hk : e.1 = id <;> simp [hk]
    rw [this]; exact h
  · rw [if_neg hs]
    rw [List.map_append, List.nodup_append]
    refine ⟨h, by simp, ?_⟩
    intro a ha
    simp only [List.map_cons, List.map_nil, List.mem_singleton]
    intro hc
    rw [hc] at ha
    rw [Option.not_isSome_iff_eq_none, List.find?_eq_none] at hs
    obtain ⟨e, he, hek⟩ := List.mem_map.mp ha
    exact hs e he (by simpa using hek)

/-! ## Lemmas about the half-book model -/

theorem hbFind_mem {hb : HalfBook} {p : ℚ} {q : List Nat}
    (h : hbFind hb p = some q) : (p, q) ∈ hb := by
  unfold hbFind at h
  rw [Option.map_eq_some'] at h
  obtain ⟨e, he, heq⟩ := h
  have hmem := List.mem_of_find?_eq_some he
  have hkey : e.1 = p := by simpa using List.find?_some he
  have : e = (p, q) := by cases e; simp_all
  exact this ▸ hmem

theorem hbFind_eq_none {hb : HalfBook} {p : ℚ}
    (h : ∀ e ∈ hb, e.1 ≠ p) : hbFind hb p = none := by
  unfold hbFind
  rw [Option.map_eq_none', List.find?_eq_none]
  intro e he
  simpa using h e he

theorem hbFind_erase_self (hb : HalfBook) (p : ℚ) :
    hbFind (hbErase hb p) p = none := by
  apply hbFind_eq_none
  intro e he
  simp only [hbErase, List.mem_filter, decide_eq_true_eq] at he
  exact he.2

theorem hbFind_erase_ne (hb : HalfBook) {p p' : ℚ} (h : p' ≠ p) :
    hbFind (hbErase hb p') p = hbFind hb p := by
  unfold hbFind hbErase
  induction hb with
  | nil => rfl
  | cons e rest ih =>
    by_cases hk : e.1 = p'
    · have hnot : ¬ (e.1 = p) := by rw [hk]; exact h
      rw [List.filter_cons_of_neg (by simp [hk]),
        List.find?_cons_of_neg _ (by simp [hnot])]
      exact ih
    · rw [List.filter_cons_of_pos (by simp [hk])]
      by_cases hp : e.1 = p
      · rw [List.find?_cons_of_pos _ (by simp [hp]),
          List.find?_cons_of_pos _ (by simp [hp])]
      · rw [List.find?_cons_of_neg _ (by simp [hp]),
          List.find?_cons_of_neg _ (by simp [hp])]
        exact ih

theorem hbFind_set_self {hb : HalfBook} {p : ℚ} {q₀ : List Nat}
    (h : hbFind hb p = some q₀) (q : List Nat) :
    hbFind (hbSet hb p q) p = some q := by
  unfold hbFind hbSet
  have hs : (List.find? (fun e => decide (e.1 = p)) hb).isSome := by
    unfold hbFind at h
    rcases Option.map_eq_some'.mp h with ⟨e, he, -⟩
    simp [he]
  rw [find?_replace_self hb p q hs]
  rfl

theorem hbFind_set_ne (hb : HalfBook) {p p' : ℚ} (q : List Nat) (h : p' ≠ p) :
    hbFind (hbSet hb p' q) p = hbFind hb p := by
  unfold hbFind hbSet
  rw [find?_replace_ne hb q h]

theorem hbSet_of_find_none {hb : HalfBook} {p : ℚ} (h : hbFind hb p = none)
    (q : List Nat) : hbSet hb p q = hb := by
  unfold hbFind at h
  rw [Option.map_eq_none', List.find?_eq_none] at h
  unfold hbSet
  conv_rhs => rw [← List.map_id hb]
  apply List.map_congr_left
  intro e he
  rw [if_neg (by simpa using h e he)]
  rfl

theorem hbFind_push_ne (hb : HalfBook) {p p' : ℚ} (id : Nat) (h : p' ≠ p) :
    hbFind (hbPush hb p' id) p = hbFind hb p := by
  induction hb with
  | nil =>
    unfold hbPush hbFind
    rw [List.find?_cons_of_neg _ (by simp [h])]
  | cons e rest ih =>
    obtain ⟨k, ids⟩ := e
    unfold hbPush
    by_cases h1 : p' < k
    · rw [if_pos h1]
      unfold hbFind
      rw [List.find?_cons_of_neg _ (by simp [h])]
    · rw [if_neg h1]
      by_cases h2 : p' = k
      · rw [if_pos h2]
        unfold hbFind
        have hk : ¬ ((k, ids ++ [id]).1 = p) := by simpa using (h2 ▸ h)
        have hk' : ¬ ((k, ids).1 = p) := by simpa using (h2 ▸ h)
        rw [List.find?_cons_of_neg _ (by simpa using hk),
          List.find?_cons_of_neg _ (by simpa using hk')]
      · rw [if_neg h2]
        unfold hbFind at ih ⊢
        by_cases hk : k = p
        · rw [List.find?_cons_of_pos _ (by simp [hk]),
            List.find?_cons_of_pos _ (by simp [hk])]
        · rw [List.find?_cons_of_neg _ (by simp [hk]),
            List.find?_cons_of_neg _ (by simp [hk])]
          exact ih

theorem mem_keys_push {hb : HalfBook} {p x : ℚ} {id : Nat}
    (h : x ∈ (hbPush hb p id).map (·.1)) : x = p ∨ x ∈ hb.map (·.1) := by
  induction hb with
  | nil => simpa [hbPush] using h
  | cons e rest ih =>
    obtain ⟨k, ids⟩ := e
    unfold hbPush at h
    by_cases h1 : p < k
    · rw [if_pos h1] at h
      simp only [List.map_cons, List.mem_cons] at h ⊢
      tauto
    · rw [if_neg h1] at h
      by_cases h2 : p = k
      · rw [if_pos h2] at h
        simp only [List.map_cons, List.mem_cons] at h ⊢
        tauto
      · rw [if_neg h2] at h
        simp only [List.map_cons, List.mem_cons] at h ⊢
        rcases h with h | h
        · tauto
        · rcases ih h with h | h <;> tauto

theorem hbSorted_push {hb : HalfBook} (hs : hbSorted hb) (p : ℚ) (id : Nat) :
    hbSorted (hbPush hb p id) := by
  induction hb with
  | nil => simp [hbPush, hbSorted]
  | cons e rest ih =>
    obtain ⟨k, ids⟩ := e
    unfold hbSorted at hs ⊢
    rw [List.map_cons, List.pairwise_cons] at hs
    unfold hbPush
    by_cases h1 : p < k
    · rw [if_pos h1]
      simp only [List.map_cons, List.pairwise_cons, List.mem_cons]
      refine ⟨?_, hs⟩
      rintro x (rfl | hx)
      · exact h1
      · exact lt_trans h1 (hs.1 x hx)
    · rw [if_neg h1]
      by_cases h2 : p = k
      · rw [if_pos h2]
        simp only [List.map_cons, List.pairwise_cons]
        exact hs
      · rw [if_neg h2]
        simp only [List.map_cons, List.pairwise_cons]
        constructor
        · intro x hx
          rcases mem_keys_push hx with rfl | hx
          · rcases lt_trichotomy x k with h | h | h
            · exact absurd h h1
            · exact absurd h h2
            · exact h
          · exact hs.1 x hx
        · exact ih hs.2

theorem hbSorted_set {hb : HalfBook} (hs : hbSorted hb) (p : ℚ)
    (q : List Nat) : hbSorted (hbSet hb p q) := by
  unfold hbSorted hbSet at *
  have : (hb.map (fun e => if e.1 = p then (p, q) else e)).map (·.1) = hb.map (·.1) := by
    rw [List.map_map]
    apply List.map_congr_left
    intro e he
    by_cases hk : e.1 = p <;> simp [hk]
  rw [this]
  exact hs

theorem hbSorted_erase {hb : HalfBook} (hs : hbSorted hb) (p : ℚ) :
    hbSorted (hbErase hb p) := by
  unfold hbSorted hbErase at *
  exact List.Pairwise.sublist ((List.filter_sublist hb).map _) hs

theorem hbSorted_keysNodup {hb : HalfBook} (hs : hbSorted hb) :
    (hb.map (·.1)).Nodup :=
  hs.imp (fun h => ne_of_lt h)

theorem mem_of_mem_hbErase {hb : HalfBook} {p : ℚ} {e : ℚ × List Nat}
    (h : e ∈ hbErase hb p) : e ∈ hb :=
  List.mem_of_mem_filter h

theorem mem_hbSet {hb : HalfBook} {p : ℚ} {q : List Nat} {e : ℚ × List Nat}
    (h : e ∈ hbSet hb p q) : e = (p, q) ∨ e ∈ hb := by
  obtain ⟨a, ha, hae⟩ := List.mem_map.mp h
  by_cases hk : a.1 = p
  · left; rw [if_pos hk] at hae; exact hae.symm
  · right; rw [if_neg hk] at hae; exact hae ▸ ha

theorem mem_hbPush {hb : HalfBook} {p : ℚ} {id : Nat} {e : ℚ × List Nat}
    (h : e ∈ hbPush hb p id) :
    e = (p, [id]) ∨ (∃ ids, (p, ids) ∈ hb ∧ e = (p, ids ++ [id])) ∨ e ∈ hb := by
  induction hb with
  | nil => exact Or.inl (by simpa [hbPush] using h)
  | cons he rest ih =>
    obtain ⟨k, ids⟩ := he
    unfold hbPush at h
    by_cases h1 : p < k
    · rw [if_pos h1] at h
      rcases List.mem_cons.mp h with h | h
      · exact Or.inl h
      · exact Or.inr (Or.inr h)
    · rw [if_neg h1] at h
      by_cases h2 : p = k
      · rw [if_pos h2] at h
        rcases List.mem_cons.mp h with h | h
        · subst h2
          exact Or.inr (Or.inl ⟨ids, List.mem_cons_self _ _, by rw [h]⟩)
        · exact Or.inr (Or.inr (List.mem_cons_of_mem _ h))
      · rw [if_neg h2] at h
        rcases List.mem_cons.mp h with h | h
        · exact Or.inr (Or.inr (h ▸ List.mem_cons_self _ _))
        · rcases ih h with h | h | h
          · exact Or.inl h
          · obtain ⟨ids', hm, he⟩ := h
            exact Or.inr (Or.inl ⟨ids', List.mem_cons_of_mem _ hm, he⟩)
          · exact Or.inr (Or.inr (List.mem_cons_of_mem _ h))

theorem hbFind_push_self {hb : HalfBook} (hs : hbSorted hb) (p : ℚ) (id : Nat) :
    hbFind (hbPush hb p id) p = some ((hbFind hb p).getD [] ++ [id]) := by
  induction hb with
  | nil => simp [hbPush, hbFind]
  | cons e rest ih =>
    obtain ⟨k, ids⟩ := e
    unfold hbSorted at hs
    rw [List.map_cons, List.pairwise_cons] at hs
    unfold hbPush
    by_cases h1 : p < k
    · rw [if_pos h1]
      have hne : hbFind ((k, ids) :: rest) p = none := by
        apply hbFind_eq_none
        intro e he
        rcases List.mem_cons.mp he with rfl | he
        · exact fun hc => absurd (hc ▸ h1) (lt_irrefl _)
        · have : k < e.1 := hs.1 e.1 (List.mem_map_of_mem _ he)
          exact fun hc => absurd (hc ▸ lt_trans h1 this) (lt_irrefl _)
      rw [hne]
      unfold hbFind
      rw [List.find?_cons_of_pos _ (by simp)]
      rfl
    · rw [if_neg h1]
      by_cases h2 : p = k
      · rw [if_pos h2]
        unfold hbFind
        rw [List.find?_cons_of_pos _ (by simp [h2.symm]),
          List.find?_cons_of_pos _ (by simp [h2.symm])]
        subst h2
        rfl
      · rw [if_neg h2]
        have hk : ¬ (k = p) := fun hc => h2 hc.symm
        unfold hbFind at ih ⊢
        rw [List.find?_cons_of_neg _ (by simp [hk]),
          List.find?_cons_of_neg _ (by simp [hk])]
        exact ih hs.2

/-- The resting-id lists of a half-book, best price first for asks. -/
def hbIds (hb : HalfBook) : List Nat :=
  (hb.map (·.2)).flatten

/-- Decomposition of the flattened ids around the queue at key `p`:
replacing or erasing that queue rewrites exactly its segment. -/
theorem hb_decomp {hb : HalfBook} (hnd : (hb.map (·.1)).Nodup) {p : ℚ}
    {q : List Nat} (hf : hbFind hb p = some q) :
    ∃ L R, hbIds hb = L ++ q ++ R ∧
      (∀ q', hbIds (hbSet hb p q') = L ++ q' ++ R) ∧
      hbIds (hbErase hb p) = L ++ R := by
  induction hb with
  | nil => simp [hbFind] at hf
  | cons e rest ih =>
    obtain ⟨k, ids⟩ := e
    rw [List.map_cons, List.nodup_cons] at hnd
    by_cases hk : k = p
    · subst hk
      have hq : ids = q := by
        unfold hbFind at hf
        rw [List.find?_cons_of_pos _ (by simp)] at hf
        simpa using hf
      subst hq
      refine ⟨[], hbIds rest, by simp [hbIds], ?_, ?_⟩
      · intro q'
        have hrest : hbSet rest k q' = rest := by
          apply hbSet_of_find_none
          apply hbFind_eq_none
          intro e he hc
          have hm : e.1 ∈ rest.map (·.1) := List.mem_map_of_mem _ he
          rw [hc] at hm
          exact hnd.1 hm
        unfold hbSet at hrest ⊢
        rw [List.map_cons, if_pos rfl, hrest]
        simp [hbIds]
      · have hrest : List.filter (fun e => decide (e.1 ≠ k)) rest = rest := by
          rw [List.filter_eq_self]
          intro e he
          simp only [decide_eq_true_eq]
          intro hc
          have hm : e.1 ∈ rest.map (·.1) := List.mem_map_of_mem _ he
          rw [hc] at hm
          exact hnd.1 hm
        unfold hbErase hbIds
        rw [List.filter_cons_of_neg (by simp), hrest]
        simp
    · have hf' : hbFind rest p = some q := by
        unfold hbFind at hf ⊢
        rwa [List.find?_cons_of_neg _ (by simp [hk])] at hf
      obtain ⟨L, R, h1, h2, h3⟩ := ih hnd.2 hf'
      refine ⟨ids ++ L, R, ?_, ?_, ?_⟩
      · simp only [hbIds, List.map_cons, List.flatten_cons] at h1 ⊢
        rw [h1]; simp
      · intro q'
        unfold hbSet at h2 ⊢
        simp only [hbIds, List.map_cons, List.flatten_cons, if_neg hk] at h2 ⊢
        rw [h2 q']; simp
      · unfold hbErase at h3 ⊢
        simp only [hbIds, List.map_cons, List.flatten_cons] at h3 ⊢
        rw [List.filter_cons_of_pos (by simp [hk])]
        simp only [List.map_cons, List.flatten_cons]
        rw [h3]; simp

/-- Pushing onto an absent key inserts exactly `[id]` somewhere in the
flattened ids. -/
theorem hb_push_flatten_none {hb : HalfBook} {p : ℚ}
    (hf : hbFind hb p = none) (id : Nat) :
    ∃ L R, hbIds hb = L ++ R ∧ hbIds (hbPush hb p id) = L ++ [id] ++ R := by
  induction hb with
  | nil => exact ⟨[], [], rfl, by simp [hbIds, hbPush]⟩
  | cons e rest ih =>
    obtain ⟨k, ids⟩ := e
    have hk : ¬ (k = p) := by
      intro hc
      unfold hbFind at hf
      rw [List.find?_cons_of_pos _ (by simp [hc])] at hf
      exact Option.noConfusion hf
    have hf' : hbFind rest p = none := by
      unfold hbFind at hf ⊢
      rwa [List.find?_cons_of_neg _ (by simp [hk])] at hf
    unfold hbPush
    by_cases h1 : p < k
    · rw [if_pos h1]
      exact ⟨[], ids ++ hbIds rest, by simp [hbIds], by simp [hbIds]⟩
    · rw [if_neg h1, if_neg (fun hc => hk hc.symm)]
      obtain ⟨L, R, h2, h3⟩ := ih hf'
      refine ⟨ids ++ L, R, ?_, ?_⟩
      · simp only [hbIds, List.map_cons, List.flatten_cons] at h2 ⊢
        rw [h2]; simp
      · simp only [hbIds, List.map_cons, List.flatten_cons] at h3 ⊢
        rw [h3]; simp

/-- Pushing onto a present key appends `id` to that key's queue segment. -/
theorem hb_push_flatten_some {hb : HalfBook} (hs : hbSorted hb) {p : ℚ}
    {q : List Nat} (hf : hbFind hb p = some q) (id : Nat) :
    ∃ L R, hbIds hb = L ++ q ++ R ∧
      hbIds (hbPush hb p id) = L ++ (q ++ [id]) ++ R := by
  induction hb with
  | nil => simp [hbFind] at hf
  | cons e rest ih =>
    obtain ⟨k, ids⟩ := e
    unfold hbSorted at hs
    rw [List.map_cons, List.pairwise_cons] at hs
    by_cases hk : k = p
    · subst hk
      have hq : ids = q := by
        unfold hbFind at hf
        rw [List.find?_cons_of_pos _ (by simp)] at hf
        simpa using hf
      subst hq
      unfold hbPush
      rw [if_neg (lt_irrefl k), if_pos rfl]
      exact ⟨[], hbIds rest, by simp [hbIds], by simp [hbIds]⟩
    · have hf' : hbFind rest p = some q := by
        unfold hbFind at hf ⊢
        rwa [List.find?_cons_of_neg _ (by simp [hk])] at hf
      have hpk : ¬ (p < k) := by
        intro hc
        have := hs.1 p (List.mem_map_of_mem _ (hbFind_mem hf'))
        exact absurd (lt_trans hc this) (lt_irrefl _)
      obtain ⟨L, R, h2, h3⟩ := ih hs.2 hf'
      unfold hbPush
      rw [if_neg hpk, if_neg (fun hc => hk hc.symm)]
      refine ⟨ids ++ L, R, ?_, ?_⟩
      · simp only [hbIds, List.map_cons, List.flatten_cons] at h2 ⊢
        rw [h2]; simp
      · simp only [hbIds, List.map_cons, List.flatten_cons] at h3 ⊢
        rw [h3]; simp

/-! ## Lemmas about `Order.fill` -/

theorem fill_order_id (o : Order) (q : ℚ) : (o.fill q).order_id = o.order_id := rfl

theorem fill_side (o : Order) (q : ℚ) : (o.fill q).side = o.side := rfl

theorem fill_price (o : Order) (q : ℚ) : (o.fill q).price = o.price := rfl

theorem fill_order_type (o : Order) (q : ℚ) : (o.fill q).order_type = o.order_type := rfl

theorem fill_quantity (o : Order) (q : ℚ) : (o.fill q).quantity = o.quantity := rfl

theorem fill_instrument (o : Order) (q : ℚ) : (o.fill q).instrument = o.instrument := rfl

/-- Filling by at most the remaining quantity subtracts exactly. -/
theorem fill_remaining {o : Order} {q : ℚ} (h : q ≤ o.remaining_quantity) :
    (o.fill q).remaining_quantity = o.remaining_quantity - q := by
  unfold Order.fill
  rw [if_neg (not_lt.mpr h)]

theorem is_filled_iff (o : Order) : o.is_filled = true ↔ o.remaining_quantity = 0 := by
  unfold Order.is_filled
  exact decide_eq_true_iff

theorem is_filled_false_iff (o : Order) :
    o.is_filled = false ↔ o.remaining_quantity ≠ 0 := by
  unfold Order.is_filled
  simp

/-! ## Lemmas about the inner matching loop (`process_queue`) -/

/-- The id of the resting (maker) order of a trade: the side opposite the
taker. -/
def makerOf (t : Trade) : Nat :=
  match t.taker_side with
  | Side.Buy => t.sell_order_id
  | Side.Sell => t.buy_order_id

/-- The loop does not panic when every queued id is indexed. -/
theorem pq_some {instr : String} {price : ℚ} :
    ∀ {queue : List Nat} {orders : OrdersMap} {incoming : Order},
      queue.Nodup → (∀ id ∈ queue, (omFind orders id).isSome) →
      (process_queue instr orders incoming price queue).isSome := by
  intro queue
  induction queue with
  | nil => intro orders incoming _ _; simp [process_queue]
  | cons resting_id restq ih =>
    intro orders incoming hnd hq
    rw [List.nodup_cons] at hnd
    by_cases hf : incoming.is_filled
    · simp [process_queue, hf]
    · obtain ⟨resting, hr⟩ := Option.isSome_iff_exists.mp
        (hq resting_id (List.mem_cons_self _ _))
      simp only [process_queue, if_neg hf, hr]
      set trade_qty := min incoming.remaining_quantity resting.remaining_quantity
      by_cases hrf : (resting.fill trade_qty).is_filled
      · have hrec : (process_queue instr (omErase orders resting_id)
            (incoming.fill trade_qty) price restq).isSome = true := by
          apply ih hnd.2
          intro id hid
          rw [omFind_erase_ne orders (fun hc => hnd.1 (by rw [hc]; exact hid))]
          exact hq id (List.mem_cons_of_mem _ hid)
        rw [if_pos hrf]
        obtain ⟨r, hrr⟩ := Option.isSome_iff_exists.mp hrec
        obtain ⟨o2, i2, q2, ts2⟩ := r
        rw [hrr]
        simp
      · rw [if_neg hrf]
        simp

/-- Ids outside the queue keep their index entry. -/
theorem pq_unchanged {instr : String} {price : ℚ} :
    ∀ {queue : List Nat} {orders : OrdersMap} {incoming : Order}
      {orders' : OrdersMap} {incoming' : Order} {queue' : List Nat}
      {ts : List Trade},
      process_queue instr orders incoming price queue =
        some (orders', incoming', queue', ts) →
      ∀ id, id ∉ queue → omFind orders' id = omFind orders id := by
  intro queue
  induction queue with
  | nil =>
    intro orders incoming orders' incoming' queue' ts hpq id _
    simp only [process_queue, Option.some_inj, Prod.mk.injEq] at hpq
    rw [← hpq.1]
  | cons resting_id restq ih =>
    intro orders incoming orders' incoming' queue' ts hpq id hid
    rw [List.mem_cons, not_or] at hid
    by_cases hf : incoming.is_filled
    · simp only [process_queue, if_pos hf, Option.some_inj, Prod.mk.injEq] at hpq
      rw [← hpq.1]
    · simp only [process_queue, if_neg hf] at hpq
      cases hr : omFind orders resting_id with
      | none => simp [hr] at hpq
      | some resting =>
        simp only [hr] at hpq
        set trade_qty := min incoming.remaining_quantity resting.remaining_quantity
        by_cases hrf : (resting.fill trade_qty).is_filled
        · rw [if_pos hrf] at hpq
          cases hrec : process_queue instr (omErase orders resting_id)
              (incoming.fill trade_qty) price restq with
          | none => simp [hrec] at hpq
          | some r =>
            obtain ⟨o2, i2, q2, ts2⟩ := r
            simp only [hrec] at hpq
            simp only [Option.some_inj, Prod.mk.injEq] at hpq
            obtain ⟨ho, hi, hqr, hts⟩ := hpq
            rw [← ho, ih hrec id hid.2,
              omFind_erase_ne orders (Ne.symm hid.1)]
        · rw [if_neg hrf] at hpq
          simp only [Option.some_inj, Prod.mk.injEq] at hpq
          rw [← hpq.1]
          exact omFind_insert_ne orders _ (Ne.symm hid.1)

/-- Field values of every produced trade. -/
theorem pq_fields {instr : String} {price : ℚ} :
    ∀ {queue : List Nat} {orders : OrdersMap} {incoming : Order}
      {orders' : OrdersMap} {incoming' : Order} {queue' : List Nat}
      {ts : List Trade},
      process_queue instr orders incoming price queue =
        some (orders', incoming', queue', ts) →
      ∀ t ∈ ts, t.instrument = instr ∧ t.price = price ∧
        t.taker_side = incoming.side ∧
        (incoming.side = Side.Buy → t.buy_order_id = incoming.order_id) ∧
        (incoming.side = Side.Sell → t.sell_order_id = incoming.order_id) := by
  intro queue
  induction queue with
  | nil =>
    intro orders incoming orders' incoming' queue' ts hpq t ht
    simp only [process_queue, Option.some_inj, Prod.mk.injEq] at hpq
    rw [← hpq.2.2.2] at ht
    simp at ht
  | cons resting_id restq ih =>
    intro orders incoming orders' incoming' queue' ts hpq t ht
    by_cases hf : incoming.is_filled
    · simp only [process_queue, if_pos hf, Option.some_inj, Prod.mk.injEq] at hpq
      rw [← hpq.2.2.2] at ht
      simp at ht
    · simp only [process_queue, if_neg hf] at hpq
      cases hr : omFind orders resting_id with
      | none => simp [hr] at hpq
      | some resting =>
        simp only [hr] at hpq
        set trade_qty := min incoming.remaining_quantity resting.remaining_quantity
        by_cases hrf : (resting.fill trade_qty).is_filled
        · rw [if_pos hrf] at hpq
          cases hrec : process_queue instr (omErase orders resting_id)
              (incoming.fill trade_qty) price restq with
          | none => simp [hrec] at hpq
          | some r =>
            obtain ⟨o2, i2, q2, ts2⟩ := r
            simp only [hrec] at hpq
            simp only [Option.some_inj, Prod.mk.injEq] at hpq
            rw [← hpq.2.2.2] at ht
            rcases List.mem_cons.mp ht with rfl | ht
            · refine ⟨rfl, rfl, rfl, ?_, ?_⟩ <;> intro hside <;> simp [hside]
            · have := ih hrec t ht
              rwa [fill_side] at this
        · rw [if_neg hrf] at hpq
          simp only [Option.some_inj, Prod.mk.injEq] at hpq
          rw [← hpq.2.2.2] at ht
          rcases List.mem_cons.mp ht with rfl | ht
          · refine ⟨rfl, rfl, rfl, ?_, ?_⟩ <;> intro hside <;> simp [hside]
          · simp at ht

/-- The incoming order keeps its identity fields and its remaining quantity
drops by exactly the sum of the trade quantities. -/
theorem pq_incoming {instr : String} {price : ℚ} :
    ∀ {queue : List Nat} {orders : OrdersMap} {incoming : Order}
      {orders' : OrdersMap} {incoming' : Order} {queue' : List Nat}
      {ts : List Trade},
      process_queue instr orders incoming price queue =
        some (orders', incoming', queue', ts) →
      incoming'.order_id = incoming.order_id ∧
      incoming'.side = incoming.side ∧
      incoming'.price = incoming.price ∧
      incoming'.order_type = incoming.order_type ∧
      incoming'.quantity = incoming.quantity ∧
      incoming'.remaining_quantity =
        incoming.remaining_quantity - (ts.map (·.quantity)).sum := by
  intro queue
  induction queue with
  | nil =>
    intro orders incoming orders' incoming' queue' ts hpq
    simp only [process_queue, Option.some_inj, Prod.mk.injEq] at hpq
    rw [← hpq.2.1, ← hpq.2.2.2]
    simp
  | cons resting_id restq ih =>
    intro orders incoming orders' incoming' queue' ts hpq
    by_cases hf : incoming.is_filled
    · simp only [process_queue, if_pos hf, Option.some_inj, Prod.mk.injEq] at hpq
      rw [← hpq.2.1, ← hpq.2.2.2]
      simp
    · simp only [process_queue, if_neg hf] at hpq
      cases hr : omFind orders resting_id with
      | none => simp [hr] at hpq
      | some resting =>
        simp only [hr] at hpq
        set trade_qty := min incoming.remaining_quantity resting.remaining_quantity
          with hqty
        have hle : trade_qty ≤ incoming.remaining_quantity := min_le_left _ _
        by_cases hrf : (resting.fill trade_qty).is_filled
        · rw [if_pos hrf] at hpq
          cases hrec : process_queue instr (omErase orders resting_id)
              (incoming.fill trade_qty) price restq with
          | none => simp [hrec] at hpq
          | some r =>
            obtain ⟨o2, i2, q2, ts2⟩ := r
            simp only [hrec] at hpq
            simp only [Option.some_inj, Prod.mk.injEq] at hpq
            obtain ⟨ho, hi, hqr, hts⟩ := hpq
            obtain ⟨e1, e2, e3, e4, e5, e6⟩ := ih hrec
            subst hi hts
            refine ⟨by rw [e1, fill_order_id], by rw [e2, fill_side],
              by rw [e3, fill_price], by rw [e4, fill_order_type],
              by rw [e5, fill_quantity], ?_⟩
            rw [e6, fill_remaining hle]
            simp only [List.map_cons, List.sum_cons]
            ring
        · rw [if_neg hrf] at hpq
          simp only [Option.some_inj, Prod.mk.injEq] at hpq
          rw [← hpq.2.1, ← hpq.2.2.2]
          refine ⟨fill_order_id _ _, fill_side _ _, fill_price _ _,
            fill_order_type _ _, fill_quantity _ _, ?_⟩
          rw [fill_remaining hle]
          simp

theorem hid_erase {orders : OrdersMap}
    (hid : ∀ id o, omFind orders id = some o → o.order_id = id) (rid : Nat) :
    ∀ id o, omFind (omErase orders rid) id = some o → o.order_id = id := by
  intro id o h
  by_cases hc : id = rid
  · subst hc
    rw [omFind_erase_self] at h
    exact Option.noConfusion h
  · rw [omFind_erase_ne orders (Ne.symm hc)] at h
    exact hid id o h

/-- Makers are consumed from the head of the queue, in order: the maker ids
of the trades are exactly the first `ts.length` queue entries. -/
theorem pq_makers {instr : String} {price : ℚ} :
    ∀ {queue : List Nat} {orders : OrdersMap} {incoming : Order}
      {orders' : OrdersMap} {incoming' : Order} {queue' : List Nat}
      {ts : List Trade},
      process_queue instr orders incoming price queue =
        some (orders', incoming', queue', ts) →
      (∀ id o, omFind orders id = some o → o.order_id = id) →
      ts.map makerOf = queue.take ts.length := by
  intro queue
  induction queue with
  | nil =>
    intro orders incoming orders' incoming' queue' ts hpq hid
    simp only [process_queue, Option.some_inj, Prod.mk.injEq] at hpq
    rw [← hpq.2.2.2]
    simp
  | cons resting_id restq ih =>
    intro orders incoming orders' incoming' queue' ts hpq hid
    by_cases hf : incoming.is_filled
    · simp only [process_queue, if_pos hf, Option.some_inj, Prod.mk.injEq] at hpq
      rw [← hpq.2.2.2]
      simp
    · simp only [process_queue, if_neg hf] at hpq
      cases hr : omFind orders resting_id with
      | none => simp [hr] at hpq
      | some resting =>
        simp only [hr] at hpq
        set trade_qty := min incoming.remaining_quantity resting.remaining_quantity
        have hmk : ∀ ts2 : List Trade,
            List.map makerOf
              ({ instrument := instr, price := price, quantity := trade_qty,
                 buy_order_id := (if incoming.side = Side.Buy then
                     (incoming.order_id, resting.order_id)
                   else (resting.order_id, incoming.order_id)).1,
                 sell_order_id := (if incoming.side = Side.Buy then
                     (incoming.order_id, resting.order_id)
                   else (resting.order_id, incoming.order_id)).2,
                 taker_side := incoming.side : Trade} :: ts2) =
            resting_id :: List.map makerOf ts2 := by
          intro ts2
          have hrid : resting.order_id = resting_id := hid _ _ hr
          cases hside : incoming.side <;> simp [makerOf, hside, hrid]
        by_cases hrf : (resting.fill trade_qty).is_filled
        · rw [if_pos hrf] at hpq
          cases hrec : process_queue instr (omErase orders resting_id)
              (incoming.fill trade_qty) price restq with
          | none => simp [hrec] at hpq
          | some r =>
            obtain ⟨o2, i2, q2, ts2⟩ := r
            simp only [hrec] at hpq
            simp only [Option.some_inj, Prod.mk.injEq] at hpq
            rw [← hpq.2.2.2, hmk, ih hrec (hid_erase hid resting_id)]
            simp
        · rw [if_neg hrf] at hpq
          simp only [Option.some_inj, Prod.mk.injEq] at hpq
          rw [← hpq.2.2.2, hmk]
          simp

/-- Before each trade the incoming order still has a non-zero remainder:
matching stops as soon as it is filled. -/
theorem pq_nonzero {instr : String} {price : ℚ} :
    ∀ {queue : List Nat} {orders : OrdersMap} {incoming : Order}
      {orders' : OrdersMap} {incoming' : Order} {queue' : List Nat}
      {ts : List Trade},
      process_queue instr orders incoming price queue =
        some (orders', incoming', queue', ts) →
      ∀ i, i < ts.length →
        incoming.remaining_quantity - ((ts.take i).map (·.quantity)).sum ≠ 0 := by
  intro queue
  induction queue with
  | nil =>
    intro orders incoming orders' incoming' queue' ts hpq i hi
    simp only [process_queue, Option.some_inj, Prod.mk.injEq] at hpq
    rw [← hpq.2.2.2] at hi
    simp at hi
  | cons resting_id restq ih =>
    intro orders incoming orders' incoming' queue' ts hpq i hi
    by_cases hf : incoming.is_filled
    · simp only [process_queue, if_pos hf, Option.some_inj, Prod.mk.injEq] at hpq
      rw [← hpq.2.2.2] at hi
      simp at hi
    · have hnz : incoming.remaining_quantity ≠ 0 := (is_filled_false_iff _).mp
        (Bool.not_eq_true _ ▸ hf)
      simp only [process_queue, if_neg hf] at hpq
      cases hr : omFind orders resting_id with
      | none => simp [hr] at hpq
      | some resting =>
        simp only [hr] at hpq
        set trade_qty := min incoming.remaining_quantity resting.remaining_quantity
        have hle : trade_qty ≤ incoming.remaining_quantity := min_le_left _ _
        by_cases hrf : (resting.fill trade_qty).is_filled
        · rw [if_pos hrf] at hpq
          cases hrec : process_queue instr (omErase orders resting_id)
              (incoming.fill trade_qty) price restq with
          | none => simp [hrec] at hpq
          | some r =>
            obtain ⟨o2, i2, q2, ts2⟩ := r
            simp only [hrec] at hpq
            simp only [Option.some_inj, Prod.mk.injEq] at hpq
            rw [← hpq.2.2.2] at hi ⊢
            cases i with
            | zero => simpa using hnz
            | succ j =>
              have hj : j < ts2.length := by simpa using hi
              have := ih hrec j hj
              rw [fill_remaining hle] at this
              simp only [List.take_succ_cons, List.map_cons, List.sum_cons]
              intro hc
              apply this
              rw [← hc]
              ring
        · rw [if_neg hrf] at hpq
          simp only [Option.some_inj, Prod.mk.injEq] at hpq
          rw [← hpq.2.2.2] at hi ⊢
          cases i with
          | zero => simpa using hnz
          | succ j => simp at hi

/-- When the resting order of a step is not fully consumed, the trade
quantity was the incoming remainder, so the incoming order is filled. -/
theorem partial_resting_fills_incoming {incoming resting : Order}
    (hrf : ¬ (resting.fill
        (min incoming.remaining_quantity resting.remaining_quantity)).is_filled = true) :
    (incoming.fill
        (min incoming.remaining_quantity resting.remaining_quantity)).is_filled = true := by
  set q := min incoming.remaining_quantity resting.remaining_quantity with hq
  have hqb : q ≤ resting.remaining_quantity := min_le_right _ _
  have hqa : q ≤ incoming.remaining_quantity := min_le_left _ _
  rw [is_filled_iff, fill_remaining hqb] at hrf
  push_neg at hrf
  have hne : q ≠ resting.remaining_quantity := fun hc => hrf (by rw [hc]; ring)
  have hqeq : q = incoming.remaining_quantity := by
    rcases le_total incoming.remaining_quantity resting.remaining_quantity with h | h
    · rw [hq, min_eq_left h]
    · exact absurd (hq ▸ min_eq_right h) hne
  rw [is_filled_iff, fill_remaining hqa, hqeq]
  ring

/-- State decomposition of the inner loop: the queue splits as a fully
erased prefix plus the returned remainder; surviving queue members keep an
index entry with unchanged identity fields and non-zero remainder; and the
loop stops only with the incoming order filled or the queue exhausted. -/
theorem pq_state {instr : String} {price : ℚ} :
    ∀ {queue : List Nat} {orders : OrdersMap} {incoming : Order}
      {orders' : OrdersMap} {incoming' : Order} {queue' : List Nat}
      {ts : List Trade},
      process_queue instr orders incoming price queue =
        some (orders', incoming', queue', ts) →
      queue.Nodup →
      (∀ id ∈ queue, (omFind orders id).isSome) →
      ∃ pre, queue = pre ++ queue' ∧
        (∀ id ∈ pre, omFind orders' id = none) ∧
        (∀ id ∈ queue', ∃ o o₂, omFind orders id = some o ∧
          omFind orders' id = some o₂ ∧
          o₂.order_id = o.order_id ∧ o₂.side = o.side ∧ o₂.price = o.price ∧
          o₂.order_type = o.order_type ∧ o₂.quantity = o.quantity ∧
          (o.remaining_quantity ≠ 0 → o₂.remaining_quantity ≠ 0)) ∧
        (incoming'.is_filled = true ∨ queue' = []) := by
  intro queue
  induction queue with
  | nil =>
    intro orders incoming orders' incoming' queue' ts hpq hnd hq
    simp only [process_queue, Option.some_inj, Prod.mk.injEq] at hpq
    obtain ⟨ho, hi, hqr, hts⟩ := hpq
    refine ⟨[], by rw [← hqr]; rfl, by simp, ?_, Or.inr hqr.symm⟩
    intro id hid
    rw [← hqr] at hid
    simp at hid
  | cons resting_id restq ih =>
    intro orders incoming orders' incoming' queue' ts hpq hnd hq
    rw [List.nodup_cons] at hnd
    by_cases hf : incoming.is_filled
    · simp only [process_queue, if_pos hf, Option.some_inj, Prod.mk.injEq] at hpq
      obtain ⟨ho, hi, hqr, hts⟩ := hpq
      refine ⟨[], by rw [← hqr]; rfl, by simp, ?_, Or.inl (by rw [← hi]; exact hf)⟩
      intro id hid
      rw [← hqr] at hid
      obtain ⟨o, hor⟩ := Option.isSome_iff_exists.mp (hq id hid)
      exact ⟨o, o, hor, by rw [← ho]; exact hor, rfl, rfl, rfl, rfl, rfl, fun h => h⟩
    · simp only [process_queue, if_neg hf] at hpq
      cases hr : omFind orders resting_id with
      | none => simp [hr] at hpq
      | some resting =>
        simp only [hr] at hpq
        set trade_qty := min incoming.remaining_quantity resting.remaining_quantity
          with hqty
        by_cases hrf : (resting.fill trade_qty).is_filled
        · rw [if_pos hrf] at hpq
          cases hrec : process_queue instr (omErase orders resting_id)
              (incoming.fill trade_qty) price restq with
          | none => simp [hrec] at hpq
          | some r =>
            obtain ⟨o2, i2, q2, ts2⟩ := r
            simp only [hrec] at hpq
            simp only [Option.some_inj, Prod.mk.injEq] at hpq
            obtain ⟨ho, hi, hqr, hts⟩ := hpq
            subst ho
            subst hi
            subst hqr
            have hq2 : ∀ id ∈ restq, (omFind (omErase orders resting_id) id).isSome := by
              intro id hid
              rw [omFind_erase_ne orders (fun hc => hnd.1 (by rw [hc]; exact hid))]
              exact hq id (List.mem_cons_of_mem _ hid)
            obtain ⟨pre₂, hsplit, hpre₂, hsurv₂, hstop₂⟩ := ih hrec hnd.2 hq2
            refine ⟨resting_id :: pre₂, by rw [hsplit]; rfl, ?_, ?_, ?_⟩
            · intro id hid
              rcases List.mem_cons.mp hid with rfl | hid
              · have hout : id ∉ restq := hnd.1
                rw [pq_unchanged hrec id hout, omFind_erase_self]
              · exact hpre₂ id hid
            · intro id hid
              obtain ⟨o, oo2, h1, h2, h3⟩ := hsurv₂ id hid
              have hmem : id ∈ restq := by
                rw [hsplit]
                exact List.mem_append_right _ hid
              rw [omFind_erase_ne orders
                (fun hc => hnd.1 (by rw [hc]; exact hmem))] at h1
              exact ⟨o, oo2, h1, h2, h3⟩
            · exact hstop₂
        · rw [if_neg hrf] at hpq
          simp only [Option.some_inj, Prod.mk.injEq] at hpq
          obtain ⟨ho, hi, hqr, hts⟩ := hpq
          refine ⟨[], by rw [← hqr]; rfl, by simp, ?_, ?_⟩
          · intro id hid
            rw [← hqr] at hid
            rcases List.mem_cons.mp hid with rfl | hid
            · refine ⟨resting, resting.fill trade_qty, hr, ?_, fill_order_id _ _,
                fill_side _ _, fill_price _ _, fill_order_type _ _,
                fill_quantity _ _, ?_⟩
              · rw [← ho]
                exact omFind_insert_self orders id _
              · intro h
                exact (is_filled_false_iff _).mp (Bool.not_eq_true _ ▸ hrf)
            · have hne : id ≠ resting_id := fun hc => hnd.1 (hc ▸ hid)
              obtain ⟨o, hor⟩ := Option.isSome_iff_exists.mp
                (hq id (List.mem_cons_of_mem _ hid))
              refine ⟨o, o, hor, ?_, rfl, rfl, rfl, rfl, rfl, fun h => h⟩
              rw [← ho, omFind_insert_ne orders _ (Ne.symm hne)]
              exact hor
          · left
            rw [← hi]
            exact partial_resting_fills_incoming hrf

/-- Each trade's quantity is the `min` of the incoming remainder at that
moment (the original remainder less the earlier trade quantities) and the
maker's remaining quantity, read from the pre-match index; the maker's
index entry is erased at the end of the loop exactly when the trade took
its whole remainder. -/
theorem pq_quantities {instr : String} {price : ℚ} :
    ∀ {queue : List Nat} {orders : OrdersMap} {incoming : Order}
      {orders' : OrdersMap} {incoming' : Order} {queue' : List Nat}
      {ts : List Trade},
      process_queue instr orders incoming price queue =
        some (orders', incoming', queue', ts) →
      queue.Nodup →
      (∀ id o, omFind orders id = some o → o.order_id = id) →
      ∀ i (hi : i < ts.length), ∃ maker,
        omFind orders (makerOf (ts.get ⟨i, hi⟩)) = some maker ∧
        (ts.get ⟨i, hi⟩).quantity =
          min (incoming.remaining_quantity - ((ts.take i).map (·.quantity)).sum)
            maker.remaining_quantity ∧
        ((ts.get ⟨i, hi⟩).quantity = maker.remaining_quantity ↔
          omFind orders' (makerOf (ts.get ⟨i, hi⟩)) = none) := by
  intro queue
  induction queue with
  | nil =>
    intro orders incoming orders' incoming' queue' ts hpq hnd hid i hi
    simp only [process_queue, Option.some_inj, Prod.mk.injEq] at hpq
    rw [← hpq.2.2.2] at hi
    simp at hi
  | cons resting_id restq ih =>
    intro orders incoming orders' incoming' queue' ts hpq hnd hid i hi
    rw [List.nodup_cons] at hnd
    by_cases hf : incoming.is_filled
    · simp only [process_queue, if_pos hf, Option.some_inj, Prod.mk.injEq] at hpq
      rw [← hpq.2.2.2] at hi
      simp at hi
    · simp only [process_queue, if_neg hf] at hpq
      cases hr : omFind orders resting_id with
      | none => simp [hr] at hpq
      | some resting =>
        simp only [hr] at hpq
        set trade_qty := min incoming.remaining_quantity resting.remaining_quantity
          with hqty
        have hridmk : resting.order_id = resting_id := hid _ _ hr
        have hmk : makerOf
            { instrument := instr, price := price, quantity := trade_qty,
              buy_order_id := (if incoming.side = Side.Buy then
                  (incoming.order_id, resting.order_id)
                else (resting.order_id, incoming.order_id)).1,
              sell_order_id := (if incoming.side = Side.Buy then
                  (incoming.order_id, resting.order_id)
                else (resting.order_id, incoming.order_id)).2,
              taker_side := incoming.side } = resting_id := by
          cases hside : incoming.side <;> simp [makerOf, hside, hridmk]
        by_cases hrf : (resting.fill trade_qty).is_filled
        · rw [if_pos hrf] at hpq
          cases hrec : process_queue instr (omErase orders resting_id)
              (incoming.fill trade_qty) price restq with
          | none => simp [hrec] at hpq
          | some r =>
            obtain ⟨o2, i2, q2, ts2⟩ := r
            simp only [hrec] at hpq
            simp only [Option.some_inj, Prod.mk.injEq] at hpq
            obtain ⟨ho, hi2, hqr, hts⟩ := hpq
            subst ho
            subst hi2
            subst hqr
            subst hts
            cases i with
            | zero =>
              refine ⟨resting, ?_, ?_, ?_⟩
              · simpa [List.get, hmk] using hr
              · simp [List.get, hqty]
              · have hfull : trade_qty = resting.remaining_quantity := by
                  rw [is_filled_iff, fill_remaining (min_le_right _ _)] at hrf
                  rw [hqty]
                  linarith [sub_eq_zero.mp hrf]
                have hgone : omFind o2 resting_id = none := by
                  rw [pq_unchanged hrec resting_id hnd.1, omFind_erase_self]
                simp only [List.get, hmk]
                exact iff_of_true hfull hgone
            | succ j =>
              have hj : j < ts2.length := by simpa using hi
              obtain ⟨maker, m1, m2, m3⟩ :=
                ih hrec hnd.2 (hid_erase hid resting_id) j hj
              have hmem : makerOf (ts2.get ⟨j, hj⟩) ∈ restq := by
                have hmap := pq_makers hrec (hid_erase hid resting_id)
                have hm : makerOf (ts2.get ⟨j, hj⟩) ∈ List.map makerOf ts2 :=
                  List.mem_map_of_mem _ (List.get_mem ts2 j hj)
                rw [hmap] at hm
                exact List.mem_of_mem_take hm
              have hne : makerOf (ts2.get ⟨j, hj⟩) ≠ resting_id :=
                fun hc => hnd.1 (hc ▸ hmem)
              rw [fill_remaining (min_le_left _ _)] at m2
              simp only [List.get_cons_succ, List.take_succ_cons, List.map_cons,
                List.sum_cons]
              refine ⟨maker, ?_, ?_, ?_⟩
              · rwa [omFind_erase_ne orders (Ne.symm hne)] at m1
              · rw [m2]
                congr 1
                ring
              · exact m3
        · rw [if_neg hrf] at hpq
          simp only [Option.some_inj, Prod.mk.injEq] at hpq
          obtain ⟨ho, hi2, hqr, hts⟩ := hpq
          subst ho
          subst hi2
          subst hqr
          subst hts
          cases i with
          | zero =>
            refine ⟨resting, ?_, ?_, ?_⟩
            · simpa [List.get, hmk] using hr
            · simp [List.get, hqty]
            · have hnfull : ¬ trade_qty = resting.remaining_quantity := by
                rw [is_filled_iff, fill_remaining (min_le_right _ _)] at hrf
                intro hc
                apply hrf
                rw [← hqty, hc]
                ring
              have hkept : ¬ omFind (omInsert orders resting_id
                  (resting.fill trade_qty)) resting_id = none := by
                rw [omFind_insert_self]
                simp
              simp only [List.get, hmk]
              exact iff_of_false hnfull hkept
          | succ j => simp at hi

/-- Erasing and replacing inside the loop preserve the index consistency
facts and key distinctness. -/
theorem pq_consistent {instr : String} {price : ℚ} :
    ∀ {queue : List Nat} {orders : OrdersMap} {incoming : Order}
      {orders' : OrdersMap} {incoming' : Order} {queue' : List Nat}
      {ts : List Trade},
      process_queue instr orders incoming price queue =
        some (orders', incoming', queue', ts) →
      omKeysNodup orders → ordersConsistent orders →
      omKeysNodup orders' ∧ ordersConsistent orders' := by
  intro queue
  induction queue with
  | nil =>
    intro orders incoming orders' incoming' queue' ts hpq hk hc
    simp only [process_queue, Option.some_inj, Prod.mk.injEq] at hpq
    rw [← hpq.1]
    exact ⟨hk, hc⟩
  | cons resting_id restq ih =>
    intro orders incoming orders' incoming' queue' ts hpq hk hc
    by_cases hf : incoming.is_filled
    · simp only [process_queue, if_pos hf, Option.some_inj, Prod.mk.injEq] at hpq
      rw [← hpq.1]
      exact ⟨hk, hc⟩
    · simp only [process_queue, if_neg hf] at hpq
      cases hr : omFind orders resting_id with
      | none => simp [hr] at hpq
      | some resting =>
        simp only [hr] at hpq
        set trade_qty := min incoming.remaining_quantity resting.remaining_quantity
        by_cases hrf : (resting.fill trade_qty).is_filled
        · rw [if_pos hrf] at hpq
          cases hrec : process_queue instr (omErase orders resting_id)
              (incoming.fill trade_qty) price restq with
          | none => simp [hrec] at hpq
          | some r =>
            obtain ⟨o2, i2, q2, ts2⟩ := r
            simp only [hrec] at hpq
            simp only [Option.some_inj, Prod.mk.injEq] at hpq
            rw [← hpq.1]
            refine ih hrec (omKeysNodup_erase hk resting_id) ?_
            intro e he
            exact hc e (mem_of_mem_omErase he)
        · rw [if_neg hrf] at hpq
          simp only [Option.some_inj, Prod.mk.injEq] at hpq
          rw [← hpq.1]
          constructor
          · exact omKeysNodup_insert hk resting_id _
          · intro e he
            rcases mem_of_mem_omInsert he with rfl | he
            · have hrm := hc _ (omFind_mem hr)
              refine ⟨?_, ?_, ?_⟩
              · rw [fill_order_id]
                exact hrm.1
              · rw [fill_order_type]
                exact hrm.2.1
              · exact (is_filled_false_iff _).mp (Bool.not_eq_true _ ▸ hrf)
            · exact hc e he

theorem consistent_find {m : OrdersMap} (hc : ordersConsistent m) {id : Nat}
    {o : Order} (h : omFind m id = some o) :
    o.order_id = id ∧ o.order_type = OrderType.Limit ∧
      o.remaining_quantity ≠ 0 := by
  simpa using hc _ (omFind_mem h)

theorem consistent_id {m : OrdersMap} (hc : ordersConsistent m) :
    ∀ id o, omFind m id = some o → o.order_id = id :=
  fun _ _ h => (consistent_find hc h).1

theorem mem_hbIds {hb : HalfBook} {e : ℚ × List Nat} {id : Nat}
    (he : e ∈ hb) (hid : id ∈ e.2) : id ∈ hbIds hb :=
  List.mem_flatten.mpr ⟨e.2, List.mem_map_of_mem _ he, hid⟩

theorem nodup_mid {L M R : List Nat} (h : (L ++ M ++ R).Nodup) {id : Nat}
    (hLR : id ∈ L ++ R) : id ∉ M := by
  intro hM
  rcases List.mem_append.mp hLR with hL | hR
  · rw [List.append_assoc] at h
    rcases List.nodup_append.mp h with ⟨-, -, hdisj⟩
    exact hdisj hL (List.mem_append_left _ hM)
  · rcases List.nodup_append.mp h with ⟨-, hnr, hdisj⟩
    exact hdisj (List.mem_append_right _ hM) hR

theorem nodup_of_mid {L M R : List Nat} (h : (L ++ M ++ R).Nodup) : M.Nodup :=
  ((List.nodup_append.mp ((List.nodup_append.mp
    (List.append_assoc L M R ▸ h)).2.1)).1)

theorem mem_hbFind {hb : HalfBook} (hnd : (hb.map (·.1)).Nodup) {p : ℚ}
    {q : List Nat} (h : (p, q) ∈ hb) : hbFind hb p = some q := by
  unfold hbFind
  induction hb with
  | nil => simp at h
  | cons e rest ih =>
    rw [List.mem_cons] at h
    rw [List.map_cons, List.nodup_cons] at hnd
    rcases h with h | h
    · simp [← h]
    · have hkey : e.1 ≠ p := by
        intro hc
        apply hnd.1
        have : p ∈ rest.map (·.1) := List.mem_map_of_mem _ h
        rwa [hc]
      rw [List.find?_cons_of_neg _ (by simpa using hkey)]
      exact ih hnd.2 h

theorem agreeAt_elim {orders : OrdersMap} {s : Side} {p : ℚ} {id : Nat}
    (h : agreeAt orders s p id) :
    ∃ o, omFind orders id = some o ∧ o.side = s ∧ o.price = some p := by
  unfold agreeAt at h
  cases hr : omFind orders id with
  | none => rw [hr] at h; exact h.elim
  | some o => rw [hr] at h; exact ⟨o, rfl, h⟩

theorem agreeAt_intro {orders : OrdersMap} {s : Side} {p : ℚ} {id : Nat}
    {o : Order} (h : omFind orders id = some o) (h1 : o.side = s)
    (h2 : o.price = some p) : agreeAt orders s p id := by
  unfold agreeAt
  rw [h]
  exact ⟨h1, h2⟩

theorem mem_hbSet_key {hb : HalfBook} {p : ℚ} {q : List Nat}
    {e : ℚ × List Nat} (h : e ∈ hbSet hb p q) :
    e = (p, q) ∨ (e ∈ hb ∧ e.1 ≠ p) := by
  obtain ⟨a, ha, hae⟩ := List.mem_map.mp h
  by_cases hk : a.1 = p
  · left; rw [if_pos hk] at hae; exact hae.symm
  · right; rw [if_neg hk] at hae; exact ⟨hae ▸ ha, hae ▸ hk⟩

theorem mem_hbErase_key {hb : HalfBook} {p : ℚ} {e : ℚ × List Nat}
    (h : e ∈ hbErase hb p) : e ∈ hb ∧ e.1 ≠ p := by
  unfold hbErase at h
  rw [List.mem_filter] at h
  exact ⟨h.1, by simpa using h.2⟩

/-! ## Lemmas about one price-level pass (`level_step`) -/

/-- Case analysis for `level_step`. -/
theorem ls_spec {instr : String} {orders : OrdersMap} {incoming : Order}
    {price : ℚ} {opp : HalfBook}
    {r : OrdersMap × HalfBook × Order × List Trade}
    (h : level_step instr orders incoming price opp = some r) :
    (hbFind opp price = none ∧ r = (orders, opp, incoming, [])) ∨
    (∃ queue orders' incoming' queue' ts,
      hbFind opp price = some queue ∧
      process_queue instr orders incoming price queue =
        some (orders', incoming', queue', ts) ∧
      r = (orders',
        if queue'.isEmpty then hbErase opp price else hbSet opp price queue',
        incoming', ts)) := by
  unfold level_step at h
  split at h
  next hf =>
    simp only [Option.some_inj] at h
    exact Or.inl ⟨hf, h.symm⟩
  next queue hf =>
    split at h
    next hpq => exact absurd h (by simp)
    next o1 i1 q1 ts1 hpq =>
      simp only [Option.some_inj] at h
      exact Or.inr ⟨queue, o1, i1, q1, ts1, hf, hpq, h.symm⟩

/-- Invariant preservation and state characterization of one level pass
over the opposite half-book. -/
theorem ls_master {instr : String} {orders : OrdersMap} {incoming : Order}
    {price : ℚ} {opp : HalfBook} {os : Side}
    {orders' : OrdersMap} {opp' : HalfBook} {incoming' : Order}
    {ts : List Trade}
    (hls : level_step instr orders incoming price opp =
      some (orders', opp', incoming', ts))
    (hsorted : hbSorted opp) (hne : hbNoEmpty opp)
    (hagree : sideAgrees orders os opp)
    (hkeys : omKeysNodup orders) (hcons : ordersConsistent orders)
    (hfnd : (hbIds opp).Nodup) :
    hbSorted opp' ∧ hbNoEmpty opp' ∧ sideAgrees orders' os opp' ∧
    omKeysNodup orders' ∧ ordersConsistent orders' ∧
    (hbIds opp').Sublist (hbIds opp) ∧
    (∀ id, id ∉ hbIds opp → omFind orders' id = omFind orders id) ∧
    (∀ id, id ∈ hbIds opp → id ∉ hbIds opp' → omFind orders' id = none) ∧
    (∀ id, id ∈ hbIds opp' → ∃ o o₂, omFind orders id = some o ∧
      omFind orders' id = some o₂ ∧
      o₂.order_id = o.order_id ∧ o₂.side = o.side ∧ o₂.price = o.price ∧
      o₂.order_type = o.order_type ∧ o₂.quantity = o.quantity ∧
      o₂.remaining_quantity ≠ 0) ∧
    (∀ p', p' ≠ price → hbFind opp' p' = hbFind opp p') ∧
    (incoming'.is_filled = true ∨ hbFind opp' price = none) := by
  rcases ls_spec hls with ⟨hf, hr⟩ | ⟨queue, o1, i1, q1, ts1, hf, hpq, hr⟩
  · obtain ⟨ho, hopp, hinc, hts⟩ : orders' = orders ∧ opp' = opp ∧
        incoming' = incoming ∧ ts = [] := by
      rw [Prod.mk.injEq, Prod.mk.injEq, Prod.mk.injEq] at hr
      exact ⟨hr.1, hr.2.1, hr.2.2.1, hr.2.2.2⟩
    subst ho
    subst hopp
    subst hinc
    refine ⟨hsorted, hne, hagree, hkeys, hcons, List.Sublist.refl _,
      fun id _ => rfl, fun id h1 h2 => absurd h1 h2, ?_, fun p' _ => rfl,
      Or.inr hf⟩
    intro id hid
    obtain ⟨l, hl, hidl⟩ := List.mem_flatten.mp hid
    obtain ⟨e', he', rfl⟩ := List.mem_map.mp hl
    obtain ⟨o, hfind, h1, h2⟩ := agreeAt_elim (hagree e' he' id hidl)
    exact ⟨o, o, hfind, hfind, rfl, rfl, rfl, rfl, rfl,
      (consistent_find hcons hfind).2.2⟩
  · obtain ⟨ho, hopp, hinc, hts⟩ : orders' = o1 ∧
        opp' = (if q1.isEmpty then hbErase opp price else hbSet opp price q1) ∧
        incoming' = i1 ∧ ts = ts1 := by
      rw [Prod.mk.injEq, Prod.mk.injEq, Prod.mk.injEq] at hr
      exact ⟨hr.1, hr.2.1, hr.2.2.1, hr.2.2.2⟩
    subst ho
    subst hinc
    subst hts
    subst hopp
    have hkeysHB : (opp.map (·.1)).Nodup := hbSorted_keysNodup hsorted
    obtain ⟨L, R, hflat, hset, herase⟩ := hb_decomp hkeysHB hf
    have hqnd : queue.Nodup := nodup_of_mid (hflat ▸ hfnd)
    have hentry : (price, queue) ∈ opp := hbFind_mem hf
    have hqagree : ∀ id ∈ queue, agreeAt orders os price id :=
      fun id hid => hagree (price, queue) hentry id hid
    have hqsome : ∀ id ∈ queue, (omFind orders id).isSome := by
      intro id hid
      obtain ⟨o, hfind, -⟩ := agreeAt_elim (hqagree id hid)
      simp [hfind]
    obtain ⟨pre, hsplit, hpre, hsurv, hstop⟩ := pq_state hpq hqnd hqsome
    obtain ⟨hkeys', hcons'⟩ := pq_consistent hpq hkeys hcons
    have hunch : ∀ id, id ∉ queue → omFind orders' id = omFind orders id :=
      pq_unchanged hpq
    have hq1queue : ∀ id ∈ q1, id ∈ queue := by
      intro id hid
      rw [hsplit]
      exact List.mem_append_right _ hid
    have hLR : ∀ id, id ∈ L ++ R → id ∉ queue := by
      intro id hid
      exact nodup_mid (hflat ▸ hfnd) hid
    have hLRold : ∀ id, id ∈ L ++ R →
        ∃ e, e ∈ hbErase opp price ∧ id ∈ e.2 := by
      intro id hid
      have : id ∈ hbIds (hbErase opp price) := herase ▸ hid
      obtain ⟨l, hl, hidl⟩ := List.mem_flatten.mp this
      obtain ⟨e, he, rfl⟩ := List.mem_map.mp hl
      exact ⟨e, he, hidl⟩
    have hsurvOld : ∀ id, id ∈ L ++ R →
        ∃ o o₂, omFind orders id = some o ∧ omFind orders' id = some o₂ ∧
          o₂.order_id = o.order_id ∧ o₂.side = o.side ∧ o₂.price = o.price ∧
          o₂.order_type = o.order_type ∧ o₂.quantity = o.quantity ∧
          o₂.remaining_quantity ≠ 0 := by
      intro id hid
      obtain ⟨e, he, hide⟩ := hLRold id hid
      obtain ⟨o, hfind, -, -⟩ :=
        agreeAt_elim (hagree e (mem_hbErase_key he).1 id hide)
      rw [← hunch id (hLR id hid)] at hfind
      have horig : omFind orders id = some o := by
        rw [hunch id (hLR id hid)] at hfind
        exact hfind
      exact ⟨o, o, horig, hfind, rfl, rfl, rfl, rfl, rfl,
        (consistent_find hcons horig).2.2⟩
    have hsurvNew : ∀ id, id ∈ q1 →
        ∃ o o₂, omFind orders id = some o ∧ omFind orders' id = some o₂ ∧
          o₂.order_id = o.order_id ∧ o₂.side = o.side ∧ o₂.price = o.price ∧
          o₂.order_type = o.order_type ∧ o₂.quantity = o.quantity ∧
          o₂.remaining_quantity ≠ 0 := by
      intro id hid
      obtain ⟨o, o₂, h1, h2, h3, h4, h5, h6, h7, h8⟩ := hsurv id hid
      exact ⟨o, o₂, h1, h2, h3, h4, h5, h6, h7,
        h8 (consistent_find hcons h1).2.2⟩
    by_cases hq1e : q1.isEmpty
    · rw [if_pos hq1e]
      have hq1nil : q1 = [] := List.isEmpty_iff.mp hq1e
      subst hq1nil
      refine ⟨hbSorted_erase hsorted price,
        fun e he => hne e (mem_hbErase_key he).1, ?_, hkeys', hcons',
        ?_, ?_, ?_, ?_, fun p' hp' => hbFind_erase_ne opp (Ne.symm hp'), ?_⟩
      · intro e he id hid
        have hidLR : id ∈ L ++ R := by
          have : id ∈ hbIds (hbErase opp price) := mem_hbIds he hid
          rwa [herase] at this
        obtain ⟨o, hfind, h1, h2⟩ :=
          agreeAt_elim (hagree e (mem_hbErase_key he).1 id hid)
        exact agreeAt_intro (by rw [hunch id (hLR id hidLR)]; exact hfind) h1 h2
      · rw [herase, hflat, List.append_assoc]
        exact (List.sublist_append_right queue R).append_left L
      · intro id hid
        refine hunch id (fun hc => hid ?_)
        rw [hflat]
        exact List.mem_append_left _ (List.mem_append_right _ hc)
      · intro id hid hid'
        rw [herase] at hid'
        rw [hflat] at hid
        have hidq : id ∈ queue := by
          rcases List.mem_append.mp hid with h | h
          · rcases List.mem_append.mp h with h | h
            · exact absurd (List.mem_append_left _ h) hid'
            · exact h
          · exact absurd (List.mem_append_right _ h) hid'
        have : id ∈ pre := by
          rw [hsplit] at hidq
          simpa using hidq
        exact hpre id this
      · intro id hid
        rw [herase] at hid
        exact hsurvOld id hid
      · right
        exact hbFind_erase_self opp price
    · rw [if_neg hq1e]
      have hq1ne : q1 ≠ [] := fun hc => hq1e (by simp [hc])
      have hflat' : hbIds (hbSet opp price q1) = L ++ q1 ++ R := hset q1
      refine ⟨hbSorted_set hsorted price q1, ?_, ?_, hkeys', hcons',
        ?_, ?_, ?_, ?_, fun p' hp' => hbFind_set_ne opp q1 (Ne.symm hp'), ?_⟩
      · intro e he
        rcases mem_hbSet_key he with rfl | ⟨he', -⟩
        · simpa using hq1ne
        · exact hne e he'
      · intro e he id hid
        rcases mem_hbSet_key he with rfl | ⟨he', hkey⟩
        · obtain ⟨o, o₂, h1, h2, h3, h4, h5, h6, h7, h8⟩ :=
            hsurvNew id hid
          obtain ⟨o₀, hfind₀, hs, hp⟩ :=
            agreeAt_elim (hqagree id (hq1queue id hid))
          rw [hfind₀] at h1
          obtain rfl : o₀ = o := by injection h1
          exact agreeAt_intro h2 (h4.trans hs) (by simp only [h5]; exact hp)
        · have hidLR : id ∈ L ++ R := by
            have : id ∈ hbIds (hbErase opp price) :=
              mem_hbIds (by
                unfold hbErase
                rw [List.mem_filter]
                exact ⟨he', by simpa using hkey⟩) hid
            rwa [herase] at this
          obtain ⟨o, hfind, h1, h2⟩ := agreeAt_elim (hagree e he' id hid)
          exact agreeAt_intro (by rw [hunch id (hLR id hidLR)]; exact hfind) h1 h2
      · rw [hflat', hflat, List.append_assoc, List.append_assoc]
        refine List.Sublist.append_left ?_ L
        exact (List.IsSuffix.sublist ⟨pre, hsplit.symm⟩).append_right R
      · intro id hid
        refine hunch id (fun hc => hid ?_)
        rw [hflat]
        exact List.mem_append_left _ (List.mem_append_right _ hc)
      · intro id hid hid'
        rw [hflat'] at hid'
        rw [hflat] at hid
        have hidq : id ∈ queue := by
          rcases List.mem_append.mp hid with h | h
          · rcases List.mem_append.mp h with h | h
            · exact absurd (List.mem_append_left _ (List.mem_append_left _ h)) hid'
            · exact h
          · exact absurd (List.mem_append_right _ h) hid'
        have hpreMem : id ∈ pre := by
          rw [hsplit] at hidq
          rcases List.mem_append.mp hidq with h | h
          · exact h
          · exact absurd (List.mem_append_left _ (List.mem_append_right _ h)) hid'
        exact hpre id hpreMem
      · intro id hid
        rw [hflat'] at hid
        rcases List.mem_append.mp hid with h | h
        · rcases List.mem_append.mp h with h | h
          · exact hsurvOld id (List.mem_append_left _ h)
          · exact hsurvNew id h
        · exact hsurvOld id (List.mem_append_right _ h)
      · rcases hstop with h | h
        · exact Or.inl h
        · exact absurd h hq1ne

/-- The incoming order's identity fields survive a level pass, and its
remainder drops by the level's total traded quantity. -/
theorem ls_incoming {instr : String} {orders : OrdersMap} {incoming : Order}
    {price : ℚ} {opp : HalfBook} {orders' : OrdersMap} {opp' : HalfBook}
    {incoming' : Order} {ts : List Trade}
    (hls : level_step instr orders incoming price opp =
      some (orders', opp', incoming', ts)) :
    incoming'.order_id = incoming.order_id ∧
    incoming'.side = incoming.side ∧
    incoming'.price = incoming.price ∧
    incoming'.order_type = incoming.order_type ∧
    incoming'.quantity = incoming.quantity ∧
    incoming'.remaining_quantity =
      incoming.remaining_quantity - (ts.map (·.quantity)).sum := by
  rcases ls_spec hls with ⟨hf, hr⟩ | ⟨queue, o1, i1, q1, ts1, hf, hpq, hr⟩
  · obtain ⟨-, -, hinc, hts⟩ : orders' = orders ∧ opp' = opp ∧
        incoming' = incoming ∧ ts = [] := by
      rw [Prod.mk.injEq, Prod.mk.injEq, Prod.mk.injEq] at hr
      exact ⟨hr.1, hr.2.1, hr.2.2.1, hr.2.2.2⟩
    subst hinc
    subst hts
    simp
  · obtain ⟨-, -, hinc, hts⟩ : orders' = o1 ∧
        opp' = (if q1.isEmpty then hbErase opp price else hbSet opp price q1) ∧
        incoming' = i1 ∧ ts = ts1 := by
      rw [Prod.mk.injEq, Prod.mk.injEq, Prod.mk.injEq] at hr
      exact ⟨hr.1, hr.2.1, hr.2.2.1, hr.2.2.2⟩
    subst hinc
    subst hts
    exact pq_incoming hpq

/-- Trade field values produced by a level pass. -/
theorem ls_fields {instr : String} {orders : OrdersMap} {incoming : Order}
    {price : ℚ} {opp : HalfBook} {orders' : OrdersMap} {opp' : HalfBook}
    {incoming' : Order} {ts : List Trade}
    (hls : level_step instr orders incoming price opp =
      some (orders', opp', incoming', ts)) :
    ∀ t ∈ ts, t.instrument = instr ∧ t.price = price ∧
      t.taker_side = incoming.side ∧
      (incoming.side = Side.Buy → t.buy_order_id = incoming.order_id) ∧
      (incoming.side = Side.Sell → t.sell_order_id = incoming.order_id) := by
  rcases ls_spec hls with ⟨hf, hr⟩ | ⟨queue, o1, i1, q1, ts1, hf, hpq, hr⟩
  · obtain ⟨-, -, -, hts⟩ : orders' = orders ∧ opp' = opp ∧
        incoming' = incoming ∧ ts = [] := by
      rw [Prod.mk.injEq, Prod.mk.injEq, Prod.mk.injEq] at hr
      exact ⟨hr.1, hr.2.1, hr.2.2.1, hr.2.2.2⟩
    subst hts
    simp
  · obtain ⟨-, -, -, hts⟩ : orders' = o1 ∧
        opp' = (if q1.isEmpty then hbErase opp price else hbSet opp price q1) ∧
        incoming' = i1 ∧ ts = ts1 := by
      rw [Prod.mk.injEq, Prod.mk.injEq, Prod.mk.injEq] at hr
      exact ⟨hr.1, hr.2.1, hr.2.2.1, hr.2.2.2⟩
    subst hts
    exact pq_fields hpq

/-! ## Lemmas about the level loop (`match_loop`) -/

/-- Case analysis for `match_loop` on a non-empty price list. -/
theorem ml_spec {instr : String} {orders : OrdersMap} {incoming : Order}
    {opp : HalfBook} {price : ℚ} {rest : List ℚ}
    {r : OrdersMap × HalfBook × Order × List Trade}
    (h : match_loop instr orders incoming opp (price :: rest) = some r) :
    (incoming.is_filled = true ∧ r = (orders, opp, incoming, [])) ∨
    (incoming.is_filled = false ∧
      ∃ o1 opp1 i1 ts1 o2 opp2 i2 ts2,
        level_step instr orders incoming price opp = some (o1, opp1, i1, ts1) ∧
        match_loop instr o1 i1 opp1 rest = some (o2, opp2, i2, ts2) ∧
        r = (o2, opp2, i2, ts1 ++ ts2)) := by
  unfold match_loop at h
  by_cases hf : incoming.is_filled
  · rw [if_pos hf] at h
    simp only [Option.some_inj] at h
    exact Or.inl ⟨hf, h.symm⟩
  · rw [if_neg hf] at h
    cases hls : level_step instr orders incoming price opp with
    | none => simp [hls] at h
    | some lr =>
      obtain ⟨o1, opp1, i1, ts1⟩ := lr
      simp only [hls] at h
      cases hml : match_loop instr o1 i1 opp1 rest with
      | none => simp [hml] at h
      | some mr =>
        obtain ⟨o2, opp2, i2, ts2⟩ := mr
        simp only [hml] at h
        simp only [Option.some_inj] at h
        exact Or.inr ⟨Bool.not_eq_true _ ▸ hf,
          o1, opp1, i1, ts1, o2, opp2, i2, ts2, rfl, hml, h.symm⟩

/-- Invariant preservation and state characterization of the whole
level loop. -/
theorem ml_master {instr : String} (os : Side) :
    ∀ {prices : List ℚ} {orders : OrdersMap} {incoming : Order}
      {opp : HalfBook} {orders' : OrdersMap} {opp' : HalfBook}
      {incoming' : Order} {ts : List Trade},
      match_loop instr orders incoming opp prices =
        some (orders', opp', incoming', ts) →
      hbSorted opp → hbNoEmpty opp → sideAgrees orders os opp →
      omKeysNodup orders → ordersConsistent orders → (hbIds opp).Nodup →
      hbSorted opp' ∧ hbNoEmpty opp' ∧ sideAgrees orders' os opp' ∧
      omKeysNodup orders' ∧ ordersConsistent orders' ∧
      (hbIds opp').Sublist (hbIds opp) ∧
      (∀ id, id ∉ hbIds opp → omFind orders' id = omFind orders id) ∧
      (∀ id, id ∈ hbIds opp → id ∉ hbIds opp' → omFind orders' id = none) ∧
      (∀ id, id ∈ hbIds opp' → ∃ o o₂, omFind orders id = some o ∧
        omFind orders' id = some o₂ ∧
        o₂.order_id = o.order_id ∧ o₂.side = o.side ∧ o₂.price = o.price ∧
        o₂.order_type = o.order_type ∧ o₂.quantity = o.quantity ∧
        o₂.remaining_quantity ≠ 0) ∧
      (∀ p, p ∉ prices → hbFind opp' p = hbFind opp p) ∧
      (incoming'.order_id = incoming.order_id ∧
        incoming'.side = incoming.side ∧
        incoming'.price = incoming.price ∧
        incoming'.order_type = incoming.order_type ∧
        incoming'.quantity = incoming.quantity ∧
        incoming'.remaining_quantity =
          incoming.remaining_quantity - (ts.map (·.quantity)).sum) := by
  intro prices
  induction prices with
  | nil =>
    intro orders incoming opp orders' opp' incoming' ts hml
    intro hsorted hne hagree hkeys hcons hfnd
    obtain ⟨ho, hopp, hinc, hts⟩ : orders' = orders ∧ opp' = opp ∧
        incoming' = incoming ∧ ts = [] := by
      simp only [match_loop, Option.some_inj, Prod.mk.injEq] at hml
      exact ⟨hml.1.symm, hml.2.1.symm, hml.2.2.1.symm, hml.2.2.2.symm⟩
    subst ho
    subst hopp
    subst hinc
    subst hts
    refine ⟨hsorted, hne, hagree, hkeys, hcons, List.Sublist.refl _,
      fun id _ => rfl, fun id h1 h2 => absurd h1 h2, ?_, fun p _ => rfl,
      rfl, rfl, rfl, rfl, rfl, by simp⟩
    intro id hid
    obtain ⟨l, hl, hidl⟩ := List.mem_flatten.mp hid
    obtain ⟨e', he', rfl⟩ := List.mem_map.mp hl
    obtain ⟨o, hfind, h1, h2⟩ := agreeAt_elim (hagree e' he' id hidl)
    exact ⟨o, o, hfind, hfind, rfl, rfl, rfl, rfl, rfl,
      (consistent_find hcons hfind).2.2⟩
  | cons price rest ih =>
    intro orders incoming opp orders' opp' incoming' ts hml
    intro hsorted hne hagree hkeys hcons hfnd
    rcases ml_spec hml with ⟨hf, hr⟩ | ⟨hf, o1, opp1, i1, ts1, o2, opp2, i2,
      ts2, hls, hml2, hr⟩
    · obtain ⟨ho, hopp, hinc, hts⟩ : orders' = orders ∧ opp' = opp ∧
          incoming' = incoming ∧ ts = [] := by
        rw [Prod.mk.injEq, Prod.mk.injEq, Prod.mk.injEq] at hr
        exact ⟨hr.1, hr.2.1, hr.2.2.1, hr.2.2.2⟩
      subst ho
      subst hopp
      subst hinc
      subst hts
      refine ⟨hsorted, hne, hagree, hkeys, hcons, List.Sublist.refl _,
        fun id _ => rfl, fun id h1 h2 => absurd h1 h2, ?_, fun p _ => rfl,
        rfl, rfl, rfl, rfl, rfl, by simp⟩
      intro id hid
      obtain ⟨l, hl, hidl⟩ := List.mem_flatten.mp hid
      obtain ⟨e', he', rfl⟩ := List.mem_map.mp hl
      obtain ⟨o, hfind, h1, h2⟩ := agreeAt_elim (hagree e' he' id hidl)
      exact ⟨o, o, hfind, hfind, rfl, rfl, rfl, rfl, rfl,
        (consistent_find hcons hfind).2.2⟩
    · obtain ⟨ho, hopp, hinc, hts⟩ : orders' = o2 ∧ opp' = opp2 ∧
          incoming' = i2 ∧ ts = ts1 ++ ts2 := by
        rw [Prod.mk.injEq, Prod.mk.injEq, Prod.mk.injEq] at hr
        exact ⟨hr.1, hr.2.1, hr.2.2.1, hr.2.2.2⟩
      subst ho
      subst hopp
      subst hinc
      subst hts
      obtain ⟨l1, l2, l3, l4, l5, l6, l7, l8, l9, l10, l11⟩ :=
        ls_master hls hsorted hne hagree hkeys hcons hfnd
      have hfnd1 : (hbIds opp1).Nodup := List.Nodup.sublist l6 hfnd
      obtain ⟨m1, m2, m3, m4, m5, m6, m7, m8, m9, m10, m11⟩ :=
        ih hml2 l1 l2 l3 l4 l5 hfnd1
      obtain ⟨k1, k2, k3, k4, k5, k6⟩ := ls_incoming hls
      refine ⟨m1, m2, m3, m4, m5, m6.trans l6, ?_, ?_, ?_, ?_, ?_⟩
      · intro id hid
        rw [m7 id (fun hc => hid (l6.subset hc)), l7 id hid]
      · intro id hid hid'
        by_cases h1 : id ∈ hbIds opp1
        · exact m8 id h1 hid'
        · rw [m7 id h1]
          exact l8 id hid h1
      · intro id hid
        obtain ⟨o₁, o₂, n1, n2, n3, n4, n5, n6, n7, n8⟩ := m9 id hid
        obtain ⟨o₀, o₁', p1, p2, p3, p4, p5, p6, p7, p8⟩ :=
          l9 id (m6.subset hid)
        rw [p2] at n1
        obtain rfl : o₁' = o₁ := by injection n1
        exact ⟨o₀, o₂, p1, n2, n3.trans p3, n4.trans p4, n5.trans p5,
          n6.trans p6, n7.trans p7, n8⟩
      · intro p hp
        rw [List.mem_cons, not_or] at hp
        rw [m10 p hp.2, l10 p hp.1]
      · refine ⟨k1 ▸ m11.1, k2 ▸ m11.2.1, k3 ▸ m11.2.2.1,
          k4 ▸ m11.2.2.2.1, k5 ▸ m11.2.2.2.2.1, ?_⟩
        rw [m11.2.2.2.2.2, k6]
        simp only [List.map_append, List.sum_append]
        ring

/-! ## Book-level lemmas (`match_order`, `add_order`, `cancel_order`) -/

theorem queueIds_eq (b : OrderBook) :
    queueIds b = hbIds b.bids ++ hbIds b.asks := rfl

/-- Case analysis for `OrderBook.match_order`. -/
theorem mo_spec {b : OrderBook} {incoming : Order} {b' : OrderBook}
    {incoming' : Order} {ts : List Trade}
    (h : b.match_order incoming = some (b', incoming', ts)) :
    (incoming.side = Side.Buy ∧ ∃ orders' opp',
      match_loop b.instrument b.orders incoming b.asks
        (b.get_matchable_prices incoming) = some (orders', opp', incoming', ts) ∧
      b' = { b with orders := orders', asks := opp' }) ∨
    (incoming.side = Side.Sell ∧ ∃ orders' opp',
      match_loop b.instrument b.orders incoming b.bids
        (b.get_matchable_prices incoming) = some (orders', opp', incoming', ts) ∧
      b' = { b with orders := orders', bids := opp' }) := by
  unfold OrderBook.match_order at h
  cases hside : incoming.side with
  | Buy =>
    rw [hside] at h
    cases hml : match_loop b.instrument b.orders incoming b.asks
        (b.get_matchable_prices incoming) with
    | none => simp [hml] at h
    | some r =>
      obtain ⟨o1, opp1, i1, ts1⟩ := r
      rw [hml] at h
      simp only [Option.map_some', Option.some_inj] at h
      obtain ⟨hb, hi, hts⟩ : ({ b with orders := o1, asks := opp1 } : OrderBook) = b' ∧
          i1 = incoming' ∧ ts1 = ts := by
        rw [Prod.mk.injEq, Prod.mk.injEq] at h
        exact ⟨h.1, h.2.1, h.2.2⟩
      subst hi
      subst hts
      exact Or.inl ⟨rfl, o1, opp1, rfl, hb.symm⟩
  | Sell =>
    rw [hside] at h
    cases hml : match_loop b.instrument b.orders incoming b.bids
        (b.get_matchable_prices incoming) with
    | none => simp [hml] at h
    | some r =>
      obtain ⟨o1, opp1, i1, ts1⟩ := r
      rw [hml] at h
      simp only [Option.map_some', Option.some_inj] at h
      obtain ⟨hb, hi, hts⟩ : ({ b with orders := o1, bids := opp1 } : OrderBook) = b' ∧
          i1 = incoming' ∧ ts1 = ts := by
        rw [Prod.mk.injEq, Prod.mk.injEq] at h
        exact ⟨h.1, h.2.1, h.2.2⟩
      subst hi
      subst hts
      exact Or.inr ⟨rfl, o1, opp1, rfl, hb.symm⟩

/-- `match_order` preserves well-formedness and leaves the incoming side's
half-book, the instrument, and all index entries of ids outside the
opposite half untouched. -/
theorem match_order_WF {b : OrderBook} {incoming : Order} {b' : OrderBook}
    {incoming' : Order} {ts : List Trade}
    (h : b.match_order incoming = some (b', incoming', ts)) (hwf : WF b) :
    WF b' ∧ b'.instrument = b.instrument ∧
    (∀ id, id ∉ queueIds b → omFind b'.orders id = omFind b.orders id) ∧
    (∀ id, id ∈ queueIds b' → id ∈ queueIds b) ∧
    (match incoming.side with
      | Side.Buy => b'.bids = b.bids
      | Side.Sell => b'.asks = b.asks) ∧
    incoming'.order_id = incoming.order_id ∧
    incoming'.side = incoming.side ∧
    incoming'.price = incoming.price ∧
    incoming'.order_type = incoming.order_type ∧
    incoming'.quantity = incoming.quantity ∧
    incoming'.remaining_quantity =
      incoming.remaining_quantity - (ts.map (·.quantity)).sum := by
  obtain ⟨w1, w2, w3, w4, w5, w6, w7, w8, w9, w10⟩ := hwf
  rw [queueIds_eq] at w9 w10
  have hdisj : ∀ id, id ∈ hbIds b.bids → id ∈ hbIds b.asks → False := by
    intro id h1 h2
    rcases List.nodup_append.mp w9 with ⟨-, -, hd⟩
    exact hd h1 h2
  rcases mo_spec h with ⟨hside, orders', opp', hml, hb⟩ |
    ⟨hside, orders', opp', hml, hb⟩
  · obtain ⟨m1, m2, m3, m4, m5, m6, m7, m8, m9, m10, m11⟩ :=
      ml_master Side.Sell hml w2 w4 w6 w7 w8
        (List.Nodup.sublist (List.sublist_append_right _ _) w9)
    subst hb
    refine ⟨⟨w1, m1, w3, m2, ?_, m3, m4, m5, ?_, ?_⟩, rfl, ?_, ?_, (by rw [hside]),
      m11.1, m11.2.1, m11.2.2.1, m11.2.2.2.1, m11.2.2.2.2.1,
      m11.2.2.2.2.2⟩
    · intro e he id hid
      have hnotopp : id ∉ hbIds b.asks :=
        fun hc => hdisj id (mem_hbIds he hid) hc
      obtain ⟨o, hfind, h1, h2⟩ := agreeAt_elim (w5 e he id hid)
      exact agreeAt_intro (by rw [m7 id hnotopp]; exact hfind) h1 h2
    · rw [queueIds_eq]
      rw [List.nodup_append]
      rcases List.nodup_append.mp w9 with ⟨h1, h2, h3⟩
      exact ⟨h1, List.Nodup.sublist m6 h2,
        fun a ha hb => h3 ha (m6.subset hb)⟩
    · intro e he
      rw [queueIds_eq]
      have hfind : omFind orders' e.1 = some e.2 := mem_omFind m4 he
      by_cases hc : e.1 ∈ hbIds b.asks
      · by_cases hc' : e.1 ∈ hbIds opp'
        · exact List.mem_append_right _ hc'
        · rw [m8 e.1 hc hc'] at hfind
          exact Option.noConfusion hfind
      · rw [m7 e.1 hc] at hfind
        have hmem := w10 _ (omFind_mem hfind)
        rcases List.mem_append.mp hmem with hm | hm
        · exact List.mem_append_left _ hm
        · exact absurd hm hc
    · intro id hid
      refine m7 id (fun hc => hid ?_)
      rw [queueIds_eq]
      exact List.mem_append_right _ hc
    · intro id hid
      rw [queueIds_eq] at hid ⊢
      rcases List.mem_append.mp hid with hm | hm
      · exact List.mem_append_left _ hm
      · exact List.mem_append_right _ (m6.subset hm)
  · obtain ⟨m1, m2, m3, m4, m5, m6, m7, m8, m9, m10, m11⟩ :=
      ml_master Side.Buy hml w1 w3 w5 w7 w8
        (List.Nodup.sublist (List.sublist_append_left _ _) w9)
    subst hb
    refine ⟨⟨m1, w2, m2, w4, m3, ?_, m4, m5, ?_, ?_⟩, rfl, ?_, ?_, (by rw [hside]),
      m11.1, m11.2.1, m11.2.2.1, m11.2.2.2.1, m11.2.2.2.2.1,
      m11.2.2.2.2.2⟩
    · intro e he id hid
      have hnotopp : id ∉ hbIds b.bids :=
        fun hc => hdisj id hc (mem_hbIds he hid)
      obtain ⟨o, hfind, h1, h2⟩ := agreeAt_elim (w6 e he id hid)
      exact agreeAt_intro (by rw [m7 id hnotopp]; exact hfind) h1 h2
    · rw [queueIds_eq]
      rw [List.nodup_append]
      rcases List.nodup_append.mp w9 with ⟨h1, h2, h3⟩
      exact ⟨List.Nodup.sublist m6 h1, h2,
        fun a ha hb => h3 (m6.subset ha) hb⟩
    · intro e he
      rw [queueIds_eq]
      have hfind : omFind orders' e.1 = some e.2 := mem_omFind m4 he
      by_cases hc : e.1 ∈ hbIds b.bids
      · by_cases hc' : e.1 ∈ hbIds opp'
        · exact List.mem_append_left _ hc'
        · rw [m8 e.1 hc hc'] at hfind
          exact Option.noConfusion hfind
      · rw [m7 e.1 hc] at hfind
        have hmem := w10 _ (omFind_mem hfind)
        rcases List.mem_append.mp hmem with hm | hm
        · exact absurd hm hc
        · exact List.mem_append_right _ hm
    · intro id hid
      refine m7 id (fun hc => hid ?_)
      rw [queueIds_eq]
      exact List.mem_append_left _ hc
    · intro id hid
      rw [queueIds_eq] at hid ⊢
      rcases List.mem_append.mp hid with hm | hm
      · exact List.mem_append_left _ (m6.subset hm)
      · exact List.mem_append_right _ hm

/-- An id absent from the index of a well-formed book rests in no queue. -/
theorem fresh_not_queued {b : OrderBook} (hwf : WF b) {id : Nat}
    (hfresh : omFind b.orders id = none) : id ∉ queueIds b := by
  obtain ⟨-, -, -, -, w5, w6, -, -, -, -⟩ := hwf
  intro hid
  rw [queueIds_eq] at hid
  rcases List.mem_append.mp hid with hm | hm
  · obtain ⟨l, hl, hidl⟩ := List.mem_flatten.mp hm
    obtain ⟨e, he, rfl⟩ := List.mem_map.mp hl
    obtain ⟨o, hfind, -⟩ := agreeAt_elim (w5 e he id hidl)
    rw [hfresh] at hfind
    exact Option.noConfusion hfind
  · obtain ⟨l, hl, hidl⟩ := List.mem_flatten.mp hm
    obtain ⟨e, he, rfl⟩ := List.mem_map.mp hl
    obtain ⟨o, hfind, -⟩ := agreeAt_elim (w6 e he id hidl)
    rw [hfresh] at hfind
    exact Option.noConfusion hfind

/-- Pushing an id onto a sorted half-book inserts it once into the
flattened ids, up to permutation. -/
theorem hbIds_push_perm {hb : HalfBook} (hs : hbSorted hb) (p : ℚ)
    (id : Nat) : (hbIds (hbPush hb p id)).Perm (id :: hbIds hb) := by
  cases hf : hbFind hb p with
  | none =>
    obtain ⟨L, R, h1, h2⟩ := hb_push_flatten_none hf id
    rw [h1, h2]
    have : L ++ [id] ++ R = L ++ id :: R := by simp
    rw [this]
    exact List.perm_middle
  | some q =>
    obtain ⟨L, R, h1, h2⟩ := hb_push_flatten_some hs hf id
    rw [h1, h2]
    have h3 : L ++ (q ++ [id]) ++ R = (L ++ q) ++ id :: R := by simp
    have h4 : L ++ q ++ R = (L ++ q) ++ R := by simp
    rw [h3, h4]
    exact List.perm_middle

/-- Case analysis for `OrderBook.add_order`: the match phase runs first and
the remainder rests only when the matched incoming order is an unfilled
limit order with a price. -/
theorem ao_spec {b : OrderBook} {order : Order} {b' : OrderBook}
    {ts : List Trade} (h : b.add_order order = some (b', ts)) :
    ∃ b₁ order', b.match_order order = some (b₁, order', ts) ∧
      ((order'.is_filled = false ∧ order'.order_type = OrderType.Limit ∧
        ∃ p, order'.price = some p ∧
          ((order'.side = Side.Buy ∧
            b' = { b₁ with bids := hbPush b₁.bids p order'.order_id
                           orders := omInsert b₁.orders order'.order_id order' }) ∨
           (order'.side = Side.Sell ∧
            b' = { b₁ with asks := hbPush b₁.asks p order'.order_id
                           orders := omInsert b₁.orders order'.order_id order' }))) ∨
       ((order'.is_filled = true ∨ order'.order_type = OrderType.Market) ∧
         b' = b₁) ∨
       (order'.is_filled = false ∧ order'.order_type = OrderType.Limit ∧
         order'.price = none ∧ b' = b₁)) := by
  unfold OrderBook.add_order at h
  cases hmo : b.match_order order with
  | none => simp [hmo] at h
  | some r =>
    obtain ⟨b₁, order', ts1⟩ := r
    rw [hmo] at h
    simp only [Option.map_some', Option.some_inj] at h
    by_cases hcond : order'.is_filled = false ∧ order'.order_type = OrderType.Limit
    · rw [if_pos hcond] at h
      cases hp : order'.price with
      | none =>
        simp only [hp] at h
        rw [Prod.mk.injEq] at h
        exact ⟨b₁, order', by rw [← h.2],
          Or.inr (Or.inr ⟨hcond.1, hcond.2, hp, h.1.symm⟩)⟩
      | some p =>
        simp only [hp] at h
        cases hside : order'.side with
        | Buy =>
          simp only [hside] at h
          rw [Prod.mk.injEq] at h
          exact ⟨b₁, order', by rw [← h.2],
            Or.inl ⟨hcond.1, hcond.2, p, hp, Or.inl ⟨hside, h.1.symm⟩⟩⟩
        | Sell =>
          simp only [hside] at h
          rw [Prod.mk.injEq] at h
          exact ⟨b₁, order', by rw [← h.2],
            Or.inl ⟨hcond.1, hcond.2, p, hp, Or.inr ⟨hside, h.1.symm⟩⟩⟩
    · rw [if_neg hcond] at h
      rw [Prod.mk.injEq] at h
      refine ⟨b₁, order', by rw [← h.2], Or.inr (Or.inl ⟨?_, h.1.symm⟩)⟩
      rw [not_and_or] at hcond
      rcases hcond with hc | hc
      · left
        cases hfl : order'.is_filled with
        | false => exact absurd hfl hc
        | true => rfl
      · right
        cases hot : order'.order_type with
        | Market => rfl
        | Limit => exact absurd hot hc

/-- `add_order` preserves well-formedness when the submitted id is fresh. -/
theorem add_order_WF {b : OrderBook} {order : Order} {b' : OrderBook}
    {ts : List Trade} (hwf : WF b)
    (hfresh : omFind b.orders order.order_id = none)
    (h : b.add_order order = some (b', ts)) : WF b' := by
  obtain ⟨b₁, order', hmo, hrest⟩ := ao_spec h
  obtain ⟨hwf₁, hinstr, hunch, hsub, hown, hoid, hoside, hoprice, hotype,
    hoqty, horem⟩ := match_order_WF hmo hwf
  have hfresh₁ : omFind b₁.orders order'.order_id = none := by
    rw [hoid, hunch _ (fresh_not_queued hwf hfresh)]
    exact hfresh
  have hnotq₁ : order'.order_id ∉ queueIds b₁ := fresh_not_queued hwf₁ hfresh₁
  rcases hrest with ⟨hnf, hlim, p, hp, hcase⟩ | ⟨-, rfl⟩ | ⟨-, -, -, rfl⟩
  · obtain ⟨v1, v2, v3, v4, v5, v6, v7, v8, v9, v10⟩ := hwf₁
    have hrem0 : order'.remaining_quantity ≠ 0 := (is_filled_false_iff _).mp hnf
    have hins_self := omFind_insert_self b₁.orders order'.order_id order'
    have hne_of_q : ∀ id, id ∈ queueIds b₁ → id ≠ order'.order_id :=
      fun id hq hc => hnotq₁ (hc ▸ hq)
    rcases hcase with ⟨hsideb, rfl⟩ | ⟨hsides, rfl⟩
    · rw [queueIds_eq] at hnotq₁ v9 v10 hne_of_q
      have hperm := hbIds_push_perm v1 p order'.order_id
      refine ⟨hbSorted_push v1 p _, v2, ?_, v4, ?_, ?_,
        omKeysNodup_insert v7 _ _, ?_, ?_, ?_⟩
      · intro e he
        rcases mem_hbPush he with rfl | ⟨ids, hm, rfl⟩ | he'
        · simp
        · simp
        · exact v3 e he'
      · intro e he id hid'
        rcases mem_hbPush he with rfl | ⟨ids, hm, rfl⟩ | he'
        · obtain rfl : id = order'.order_id := by simpa using hid'
          exact agreeAt_intro hins_self hsideb hp
        · rcases List.mem_append.mp hid' with hid' | hid'
          · have hne : id ≠ order'.order_id := hne_of_q id
              (List.mem_append_left _ (mem_hbIds hm hid'))
            obtain ⟨o, hfind, h1, h2⟩ := agreeAt_elim (v5 (p, ids) hm id hid')
            exact agreeAt_intro
              (by rw [omFind_insert_ne _ _ (Ne.symm hne)]; exact hfind) h1 h2
          · obtain rfl : id = order'.order_id := by simpa using hid'
            exact agreeAt_intro hins_self hsideb hp
        · have hne : id ≠ order'.order_id := hne_of_q id
            (List.mem_append_left _ (mem_hbIds he' hid'))
          obtain ⟨o, hfind, h1, h2⟩ := agreeAt_elim (v5 e he' id hid')
          exact agreeAt_intro
            (by rw [omFind_insert_ne _ _ (Ne.symm hne)]; exact hfind) h1 h2
      · intro e he id hid'
        have hne : id ≠ order'.order_id := hne_of_q id
          (List.mem_append_right _ (mem_hbIds he hid'))
        obtain ⟨o, hfind, h1, h2⟩ := agreeAt_elim (v6 e he id hid')
        exact agreeAt_intro
          (by rw [omFind_insert_ne _ _ (Ne.symm hne)]; exact hfind) h1 h2
      · intro e he
        rcases mem_of_mem_omInsert he with rfl | he'
        · exact ⟨rfl, hlim, hrem0⟩
        · exact v8 e he'
      · rw [queueIds_eq]
        have hperm2 : (hbIds (hbPush b₁.bids p order'.order_id) ++
            hbIds b₁.asks).Perm
            (order'.order_id :: (hbIds b₁.bids ++ hbIds b₁.asks)) :=
          hperm.append_right _
        rw [hperm2.nodup_iff, List.nodup_cons]
        exact ⟨hnotq₁, v9⟩
      · intro e he
        rw [queueIds_eq]
        rcases mem_of_mem_omInsert he with rfl | he'
        · refine List.mem_append_left _ ?_
          exact hperm.mem_iff.mpr (List.mem_cons_self _ _)
        · rcases List.mem_append.mp (v10 e he') with hm | hm
          · exact List.mem_append_left _
              (hperm.mem_iff.mpr (List.mem_cons_of_mem _ hm))
          · exact List.mem_append_right _ hm
    · rw [queueIds_eq] at hnotq₁ v9 v10 hne_of_q
      have hperm := hbIds_push_perm v2 p order'.order_id
      refine ⟨v1, hbSorted_push v2 p _, v3, ?_, ?_, ?_,
        omKeysNodup_insert v7 _ _, ?_, ?_, ?_⟩
      · intro e he
        rcases mem_hbPush he with rfl | ⟨ids, hm, rfl⟩ | he'
        · simp
        · simp
        · exact v4 e he'
      · intro e he id hid'
        have hne : id ≠ order'.order_id := hne_of_q id
          (List.mem_append_left _ (mem_hbIds he hid'))
        obtain ⟨o, hfind, h1, h2⟩ := agreeAt_elim (v5 e he id hid')
        exact agreeAt_intro
          (by rw [omFind_insert_ne _ _ (Ne.symm hne)]; exact hfind) h1 h2
      · intro e he id hid'
        rcases mem_hbPush he with rfl | ⟨ids, hm, rfl⟩ | he'
        · obtain rfl : id = order'.order_id := by simpa using hid'
          exact agreeAt_intro hins_self hsides hp
        · rcases List.mem_append.mp hid' with hid' | hid'
          · have hne : id ≠ order'.order_id := hne_of_q id
              (List.mem_append_right _ (mem_hbIds hm hid'))
            obtain ⟨o, hfind, h1, h2⟩ := agreeAt_elim (v6 (p, ids) hm id hid')
            exact agreeAt_intro
              (by rw [omFind_insert_ne _ _ (Ne.symm hne)]; exact hfind) h1 h2
          · obtain rfl : id = order'.order_id := by simpa using hid'
            exact agreeAt_intro hins_self hsides hp
        · have hne : id ≠ order'.order_id := hne_of_q id
            (List.mem_append_right _ (mem_hbIds he' hid'))
          obtain ⟨o, hfind, h1, h2⟩ := agreeAt_elim (v6 e he' id hid')
          exact agreeAt_intro
            (by rw [omFind_insert_ne _ _ (Ne.symm hne)]; exact hfind) h1 h2
      · intro e he
        rcases mem_of_mem_omInsert he with rfl | he'
        · exact ⟨rfl, hlim, hrem0⟩
        · exact v8 e he'
      · rw [queueIds_eq]
        have hperm2 : (hbIds b₁.bids ++
            hbIds (hbPush b₁.asks p order'.order_id)).Perm
            (order'.order_id :: (hbIds b₁.bids ++ hbIds b₁.asks)) :=
          (hperm.append_left _).trans List.perm_middle
        rw [hperm2.nodup_iff, List.nodup_cons]
        exact ⟨hnotq₁, v9⟩
      · intro e he
        rw [queueIds_eq]
        rcases mem_of_mem_omInsert he with rfl | he'
        · refine List.mem_append_right _ ?_
          exact hperm.mem_iff.mpr (List.mem_cons_self _ _)
        · rcases List.mem_append.mp (v10 e he') with hm | hm
          · exact List.mem_append_left _ hm
          · exact List.mem_append_right _
              (hperm.mem_iff.mpr (List.mem_cons_of_mem _ hm))
  · exact hwf₁
  · exact hwf₁

/-! ## Lemmas about `cancel_order` -/

theorem cancel_spec_none {b : OrderBook} {id : Nat}
    (h : omFind b.orders id = none) :
    b.cancel_order id = Except.error (MatchingEngineError.OrderNotFound id) := by
  unfold OrderBook.cancel_order
  rw [h]

theorem cancel_spec_some {b : OrderBook} {id : Nat} {o : Order}
    (h : omFind b.orders id = some o) :
    b.cancel_order id = Except.ok
      ((match o.side with
        | Side.Buy => { b with bids := scrub o.price id b.bids
                               orders := omErase b.orders id }
        | Side.Sell => { b with asks := scrub o.price id b.asks
                                orders := omErase b.orders id }),
       { o with status := OrderStatus.Canceled }) := by
  unfold OrderBook.cancel_order
  rw [h]

theorem scrub_no_price (id : Nat) (hb : HalfBook) : scrub none id hb = hb := rfl

theorem scrub_absent {hb : HalfBook} {p : ℚ} (hfe : hbFind hb p = none)
    (id : Nat) : scrub (some p) id hb = hb := by
  simp only [scrub, hfe]

theorem scrub_found {hb : HalfBook} {p : ℚ} {queue : List Nat}
    (hf : hbFind hb p = some queue) (id : Nat) :
    scrub (some p) id hb =
      if (queue.filter (fun i => i ≠ id)).isEmpty then hbErase hb p
      else hbSet hb p (queue.filter (fun i => i ≠ id)) := by
  simp only [scrub, hf]

/-- In a well-formed book, an indexed order rests in the queue at its own
side and price. -/
theorem cancelled_located {b : OrderBook} (hwf : WF b) {id : Nat} {o : Order}
    (h : omFind b.orders id = some o) :
    ∃ p queue, o.price = some p ∧ id ∈ queue ∧
      (match o.side with
        | Side.Buy => hbFind b.bids p = some queue
        | Side.Sell => hbFind b.asks p = some queue) := by
  obtain ⟨w1, w2, w3, w4, w5, w6, w7, w8, w9, w10⟩ := hwf
  have hmem := w10 _ (omFind_mem h)
  rw [queueIds_eq] at hmem
  rcases List.mem_append.mp hmem with hm | hm
  · obtain ⟨l, hl, hidl⟩ := List.mem_flatten.mp hm
    obtain ⟨e, he, rfl⟩ := List.mem_map.mp hl
    obtain ⟨o', hfind, hs, hp⟩ := agreeAt_elim (w5 e he id hidl)
    rw [h] at hfind
    obtain rfl : o = o' := by injection hfind
    refine ⟨e.1, e.2, hp, hidl, ?_⟩
    rw [hs]
    exact mem_hbFind (hbSorted_keysNodup w1) he
  · obtain ⟨l, hl, hidl⟩ := List.mem_flatten.mp hm
    obtain ⟨e, he, rfl⟩ := List.mem_map.mp hl
    obtain ⟨o', hfind, hs, hp⟩ := agreeAt_elim (w6 e he id hidl)
    rw [h] at hfind
    obtain rfl : o = o' := by injection hfind
    refine ⟨e.1, e.2, hp, hidl, ?_⟩
    rw [hs]
    exact mem_hbFind (hbSorted_keysNodup w2) he

/-- Effect of the cancel scrub on one side: structure invariants are kept
for the erased index, and exactly the cancelled id leaves the flattened
ids. -/
theorem scrub_WF_half {orders : OrdersMap} {own other : HalfBook}
    {sOwn sOther : Side} {id : Nat} {p : ℚ} {queue : List Nat}
    (w1 : hbSorted own) (w3 : hbNoEmpty own)
    (w5 : sideAgrees orders sOwn own) (w6 : sideAgrees orders sOther other)
    (w9 : (hbIds own ++ hbIds other).Nodup)
    (hloc : hbFind own p = some queue) (hidq : id ∈ queue) :
    hbSorted (scrub (some p) id own) ∧
    hbNoEmpty (scrub (some p) id own) ∧
    sideAgrees (omErase orders id) sOwn (scrub (some p) id own) ∧
    sideAgrees (omErase orders id) sOther other ∧
    (hbIds (scrub (some p) id own)).Sublist (hbIds own) ∧
    (∀ x, x ∈ hbIds own → x ≠ id → x ∈ hbIds (scrub (some p) id own)) := by
  have hownnd : (hbIds own).Nodup := (List.nodup_append.mp w9).1
  have hdisj : ∀ x, x ∈ hbIds own → x ∉ hbIds other :=
    fun x hx => (List.nodup_append.mp w9).2.2 hx
  have hkeysHB : (own.map (·.1)).Nodup := hbSorted_keysNodup w1
  obtain ⟨L, R, hflat, hset, herase⟩ := hb_decomp hkeysHB hloc
  set queue' := queue.filter (fun i => i ≠ id) with hq'
  have hscr := scrub_found hloc id
  have hq'sub : queue'.Sublist queue := List.filter_sublist queue
  have hq'ne : ∀ x ∈ queue', x ≠ id := by
    intro x hx
    have := List.of_mem_filter hx
    simpa using this
  have hq'mem : ∀ x ∈ queue, x ≠ id → x ∈ queue' := by
    intro x hx hne
    exact List.mem_filter.mpr ⟨hx, by simpa using hne⟩
  have hLRnotq : ∀ x, x ∈ L ++ R → x ∉ queue :=
    fun x hx => nodup_mid (hflat ▸ hownnd) hx
  have hqmem : ∀ x ∈ queue, x ∈ hbIds own := by
    intro x hx
    rw [hflat]
    exact List.mem_append_left _ (List.mem_append_right _ hx)
  have hidown : id ∈ hbIds own := hqmem id hidq
  have hagreeOther : sideAgrees (omErase orders id) sOther other := by
    intro e he x hx
    have hxother : x ∈ hbIds other := mem_hbIds he hx
    have hxne : x ≠ id := fun hc => hdisj id hidown (hc ▸ hxother)
    obtain ⟨o, hfind, h1, h2⟩ := agreeAt_elim (w6 e he x hx)
    exact agreeAt_intro
      (by rw [omFind_erase_ne orders (Ne.symm hxne)]; exact hfind) h1 h2
  have hagreeLR : ∀ x, x ∈ L ++ R → agreeAt (omErase orders id) sOwn p x →
      True := fun _ _ _ => trivial
  by_cases hqe : queue'.isEmpty
  · rw [hscr, if_pos hqe]
    have hq'nil : queue' = [] := List.isEmpty_iff.mp hqe
    refine ⟨hbSorted_erase w1 p, fun e he => w3 e (mem_hbErase_key he).1,
      ?_, hagreeOther, ?_, ?_⟩
    · intro e he x hx
      have hxLR : x ∈ L ++ R := by
        have : x ∈ hbIds (hbErase own p) := mem_hbIds he hx
        rwa [herase] at this
      have hxne : x ≠ id := by
        intro hc
        exact hLRnotq x hxLR (hc ▸ hidq)
      obtain ⟨o, hfind, h1, h2⟩ :=
        agreeAt_elim (w5 e (mem_hbErase_key he).1 x hx)
      exact agreeAt_intro
        (by rw [omFind_erase_ne orders (Ne.symm hxne)]; exact hfind) h1 h2
    · rw [herase, hflat, List.append_assoc]
      exact (List.sublist_append_right queue R).append_left L
    · intro x hx hxne
      rw [herase]
      rw [hflat] at hx
      rcases List.mem_append.mp hx with hx | hx
      · rcases List.mem_append.mp hx with hx | hx
        · exact List.mem_append_left _ hx
        · exfalso
          have : x ∈ queue' := hq'mem x hx hxne
          rw [hq'nil] at this
          simp at this
      · exact List.mem_append_right _ hx
  · rw [hscr, if_neg hqe]
    have hq'ne' : queue' ≠ [] := fun hc => hqe (by simp [hc])
    have hflat' : hbIds (hbSet own p queue') = L ++ queue' ++ R := hset queue'
    refine ⟨hbSorted_set w1 p queue', ?_, ?_, hagreeOther, ?_, ?_⟩
    · intro e he
      rcases mem_hbSet_key he with rfl | ⟨he', -⟩
      · exact hq'ne'
      · exact w3 e he'
    · intro e he x hx
      rcases mem_hbSet_key he with rfl | ⟨he', hkey⟩
      · have hxq : x ∈ queue := hq'sub.subset hx
        have hxne : x ≠ id := hq'ne x hx
        obtain ⟨o, hfind, h1, h2⟩ :=
          agreeAt_elim (w5 (p, queue) (hbFind_mem hloc) x hxq)
        exact agreeAt_intro
          (by rw [omFind_erase_ne orders (Ne.symm hxne)]; exact hfind) h1 h2
      · have hxLR : x ∈ L ++ R := by
          have : x ∈ hbIds (hbErase own p) := mem_hbIds (by
            unfold hbErase
            rw [List.mem_filter]
            exact ⟨he', by simpa using hkey⟩) hx
          rwa [herase] at this
        have hxne : x ≠ id := by
          intro hc
          exact hLRnotq x hxLR (hc ▸ hidq)
        obtain ⟨o, hfind, h1, h2⟩ := agreeAt_elim (w5 e he' x hx)
        exact agreeAt_intro
          (by rw [omFind_erase_ne orders (Ne.symm hxne)]; exact hfind) h1 h2
    · rw [hflat', hflat, List.append_assoc, List.append_assoc]
      exact (hq'sub.append_right R).append_left L
    · intro x hx hxne
      rw [hflat']
      rw [hflat] at hx
      rcases List.mem_append.mp hx with hx | hx
      · rcases List.mem_append.mp hx with hx | hx
        · exact List.mem_append_left _ (List.mem_append_left _ hx)
        · exact List.mem_append_left _
            (List.mem_append_right _ (hq'mem x hx hxne))
      · exact List.mem_append_right _ hx

/-- `cancel_order` preserves well-formedness. -/
theorem cancel_order_WF {b : OrderBook} {id : Nat} {b' : OrderBook}
    {co : Order} (hwf : WF b)
    (h : b.cancel_order id = Except.ok (b', co)) : WF b' := by
  cases hfind : omFind b.orders id with
  | none =>
    rw [cancel_spec_none hfind] at h
    exact Except.noConfusion h
  | some o =>
    rw [cancel_spec_some hfind] at h
    injection h with h2
    rw [Prod.mk.injEq] at h2
    obtain ⟨hb', hco⟩ := h2
    obtain ⟨p, queue, hp, hidq, hloc⟩ := cancelled_located hwf hfind
    obtain ⟨w1, w2, w3, w4, w5, w6, w7, w8, w9, w10⟩ := hwf
    rw [queueIds_eq] at w9 w10
    have herasekey : ∀ e, e ∈ omErase b.orders id → e ∈ b.orders ∧ e.1 ≠ id := by
      intro e he
      unfold omErase at he
      rw [List.mem_filter] at he
      exact ⟨he.1, by simpa using he.2⟩
    cases hside : o.side with
    | Buy =>
      simp only [hside] at hb'
      simp only [hp] at hb'
      rw [hside] at hloc
      subst hb'
      obtain ⟨s1, s2, s3, s4, s5, s6⟩ := scrub_WF_half w1 w3 w5 w6 w9 hloc hidq
      refine ⟨s1, w2, s2, w4, s3, s4, omKeysNodup_erase w7 id, ?_, ?_, ?_⟩
      · intro e he
        exact w8 e (mem_of_mem_omErase he)
      · rw [queueIds_eq]
        exact List.Nodup.sublist (s5.append_right _) w9
      · intro e he
        rw [queueIds_eq]
        obtain ⟨he', hkey⟩ := herasekey e he
        rcases List.mem_append.mp (w10 e he') with hm | hm
        · exact List.mem_append_left _ (s6 e.1 hm hkey)
        · exact List.mem_append_right _ hm
    | Sell =>
      simp only [hside] at hb'
      simp only [hp] at hb'
      rw [hside] at hloc
      subst hb'
      have w9' : (hbIds b.asks ++ hbIds b.bids).Nodup :=
        (List.perm_append_comm.nodup_iff).mp w9
      obtain ⟨s1, s2, s3, s4, s5, s6⟩ := scrub_WF_half w2 w4 w6 w5 w9' hloc hidq
      refine ⟨w1, s1, w3, s2, s4, s3, omKeysNodup_erase w7 id, ?_, ?_, ?_⟩
      · intro e he
        exact w8 e (mem_of_mem_omErase he)
      · rw [queueIds_eq]
        exact List.Nodup.sublist (s5.append_left _) w9
      · intro e he
        rw [queueIds_eq]
        obtain ⟨he', hkey⟩ := herasekey e he
        rcases List.mem_append.mp (w10 e he') with hm | hm
        · exact List.mem_append_left _ hm
        · exact List.mem_append_right _ (s6 e.1 hm hkey)

/-! ## Lemmas about the books map (`engine.rs`) -/

theorem bmFind_insert_self (m : BooksMap) (s : String) (bk : OrderBook) :
    bmFind (bmInsert m s bk) s = some bk := by
  unfold bmFind bmInsert
  by_cases hs : (List.find? (fun e => decide (e.1 = s)) m).isSome
  · rw [if_pos hs, find?_replace_self m s bk hs]; rfl
  · rw [if_neg hs, List.find?_append]
    rw [Option.not_isSome_iff_eq_none] at hs
    simp [hs]

theorem bmFind_insert_ne (m : BooksMap) {s s' : String} (bk : OrderBook)
    (h : s ≠ s') : bmFind (bmInsert m s bk) s' = bmFind m s' := by
  unfold bmFind bmInsert
  by_cases hs : (List.find? (fun e => decide (e.1 = s)) m).isSome
  · rw [if_pos hs, find?_replace_ne m bk h]
  · rw [if_neg hs, List.find?_append]
    match hm : List.find? (fun e => decide (e.1 = s')) m with
    | some e => simp [hm]
    | none => simp [hm, h]

/-! ## The claims -/

/-- Claim C9: an order whose remaining quantity is zero on arrival produces
no trades and leaves the book exactly as it was — it neither matches nor
rests, for LIMIT and MARKET orders alike (`match_order` checks
`is_filled`, i.e. `remaining_quantity == 0`, before each level, and the
resting branch of `add_order` requires `!is_filled`). -/
theorem spec_C9 (b : OrderBook) (o : Order) (h : o.remaining_quantity = 0) :
    b.add_order o = some (b, []) := by
  have hf : o.is_filled = true := by
    rw [is_filled_iff]
    exact h
  have hml : ∀ (opp : HalfBook) (prices : List ℚ),
      match_loop b.instrument b.orders o opp prices =
        some (b.orders, opp, o, []) := by
    intro opp prices
    cases prices with
    | nil => rfl
    | cons p rest =>
      unfold match_loop
      rw [if_pos hf]
  have hcond : ¬(o.is_filled = false ∧ o.order_type = OrderType.Limit) := by
    intro hc
    rw [hf] at hc
    exact Bool.noConfusion hc.1
  unfold OrderBook.add_order OrderBook.match_order
  cases hside : o.side
  case Buy =>
    simp only [hml, Option.map_some']
    rw [if_neg hcond]
  case Sell =>
    simp only [hml, Option.map_some']
    rw [if_neg hcond]

theorem spec_C9_witness :
    exZero.remaining_quantity = 0 ∧ exBook.add_order exZero = some (exBook, []) :=
  ⟨rfl, spec_C9 exBook exZero rfl⟩

/-- Claim C10: `MatchingEngine::add_market` installs a fresh empty book
under the given symbol — in particular, if the symbol was already
registered its book (resting orders and id index) is replaced by the empty
one — and the books of all other symbols are untouched. -/
theorem spec_C10 (e : MatchingEngine) (s : String) :
    bmFind (e.add_market s).books s = some (OrderBook.new s) ∧
    (OrderBook.new s).bids = [] ∧ (OrderBook.new s).asks = [] ∧
    (OrderBook.new s).orders = [] ∧
    ∀ s', s' ≠ s → bmFind (e.add_market s).books s' = bmFind e.books s' := by
  refine ⟨bmFind_insert_self e.books s _, rfl, rfl, rfl, ?_⟩
  intro s' hne
  exact bmFind_insert_ne e.books _ (Ne.symm hne)

/-- Claim C5 (amended): `process_order` validates the type/price
combination FIRST — a MARKET order with a price or a LIMIT order without
one is rejected with `InvalidOrderPrice`, engine untouched — and only an
order passing that validation is rejected with `MarketNotFound` when its
instrument has no registered book, again with the engine untouched and no
trades.  (The claim's unconditional "MarketNotFound for every order whose
instrument has no book" is false: a price-invalid order on an unknown
symbol gets `InvalidOrderPrice`, see the counterexample.) -/
theorem spec_C5 (e : MatchingEngine) (o : Order) :
    (o.order_type = OrderType.Market → o.price.isSome →
      e.process_order o =
        some (e, Except.error MatchingEngineError.InvalidOrderPrice)) ∧
    (o.order_type = OrderType.Limit → o.price.isNone →
      e.process_order o =
        some (e, Except.error MatchingEngineError.InvalidOrderPrice)) ∧
    (¬(o.order_type = OrderType.Market ∧ o.price.isSome) →
     ¬(o.order_type = OrderType.Limit ∧ o.price.isNone) →
     bmFind e.books o.instrument = none →
      e.process_order o =
        some (e, Except.error
          (MatchingEngineError.MarketNotFound o.instrument))) := by
  unfold MatchingEngine.process_order
  refine ⟨?_, ?_, ?_⟩
  · intro h1 h2
    rw [if_pos ⟨h1, h2⟩]
  · intro h1 h2
    have hn : ¬(o.order_type = OrderType.Market ∧ o.price.isSome = true) := by
      intro hc
      rw [h1] at hc
      exact OrderType.noConfusion hc.1
    rw [if_neg hn, if_pos ⟨h1, h2⟩]
  · intro h1 h2 h3
    rw [if_neg h1, if_neg h2]
    simp only [h3]

/-- Counterexample to the literal claim C5: a MARKET order that carries a
price and whose instrument has no registered book is answered with
`InvalidOrderPrice`, not with `MarketNotFound`. -/
theorem spec_C5_counterexample :
    bmFind MatchingEngine.new.books exBadMarket.instrument = none ∧
    MatchingEngine.new.process_order exBadMarket =
      some (MatchingEngine.new,
        Except.error MatchingEngineError.InvalidOrderPrice) ∧
    ∀ e' : MatchingEngine,
      MatchingEngine.new.process_order exBadMarket ≠
        some (e', Except.error
          (MatchingEngineError.MarketNotFound exBadMarket.instrument)) := by
  refine ⟨rfl, rfl, ?_⟩
  intro e' hc
  have h0 : MatchingEngine.new.process_order exBadMarket =
      some (MatchingEngine.new,
        Except.error MatchingEngineError.InvalidOrderPrice) := rfl
  rw [h0] at hc
  simp at hc

theorem spec_C5_witness :
    MatchingEngine.new.process_order exBadMarket =
      some (MatchingEngine.new,
        Except.error MatchingEngineError.InvalidOrderPrice) ∧
    MatchingEngine.new.process_order exForeignLimit =
      some (MatchingEngine.new,
        Except.error
          (MatchingEngineError.MarketNotFound exForeignLimit.instrument)) :=
  ⟨(spec_C5 MatchingEngine.new exBadMarket).1 rfl rfl,
   (spec_C5 MatchingEngine.new exForeignLimit).2.2 (by decide) (by decide) rfl⟩

/-- Claim C7: the book structural invariant `WF` — (a) every queued id is
indexed with the queue's side and price, (b) every indexed order is an
unfilled limit order resting in exactly one queue (keys distinct, queued
ids distinct, full index coverage), (c) no empty queue is stored — is
preserved by every `add_order` with a fresh id and by every successful
`cancel_order`. -/
theorem spec_C7 (b : OrderBook) (hwf : WF b) :
    (∀ (o : Order) (b' : OrderBook) (ts : List Trade),
      omFind b.orders o.order_id = none →
      b.add_order o = some (b', ts) → WF b') ∧
    (∀ (id : Nat) (b' : OrderBook) (co : Order),
      b.cancel_order id = Except.ok (b', co) → WF b') :=
  ⟨fun _ _ _ hfresh h => add_order_WF hwf hfresh h,
   fun _ _ _ h => cancel_order_WF hwf h⟩

theorem spec_C7_witness :
    WF exBook ∧ omFind exBook.orders 3 = none ∧
    exBook.add_order exBuy = some (exBookAfterBuy, exTrades) ∧
    WF exBookAfterBuy ∧
    exBook.cancel_order 1 = Except.ok (exBookAfterCancel, exCancelled) ∧
    WF exBookAfterCancel := by
  have hwf : WF exBook := by decide
  have hadd : exBook.add_order exBuy = some (exBookAfterBuy, exTrades) := by
    norm_num [OrderBook.add_order, OrderBook.match_order, match_loop, level_step,
      process_queue, OrderBook.get_matchable_prices, matchable_scan, hbFind,
      omFind, Order.fill, Order.is_filled, omErase, omInsert, hbErase, hbSet,
      hbPush, exBook, exBuy, exSell1, exSell2, exBookAfterBuy, exSell2Filled,
      exTrades, List.find?, List.filter]
  have hcan : exBook.cancel_order 1 =
      Except.ok (exBookAfterCancel, exCancelled) := rfl
  exact ⟨hwf, rfl, hadd,
    (spec_C7 exBook hwf).1 exBuy exBookAfterBuy exTrades rfl hadd,
    hcan,
    (spec_C7 exBook hwf).2 1 exBookAfterCancel exCancelled hcan⟩

/-- Claim C6: engine-level cancellation.  An unregistered symbol gives
`MarketNotFound`; with a registered well-formed book, the cancel fails
with `OrderNotFound` exactly when the id is not in the id index, and
otherwise the id is removed from the id index, removed (`retain`) from
the price queue located through the cancelled order's own side and price
— the level being dropped entirely if that queue empties — and the
removed order is returned with status `Canceled`. -/
theorem spec_C6 (e : MatchingEngine) (id : Nat) (s : String) :
    (bmFind e.books s = none →
      e.cancel_order_by_id id s =
        Except.error (MatchingEngineError.MarketNotFound s)) ∧
    (∀ b, bmFind e.books s = some b → WF b →
      ((omFind b.orders id = none ↔
        e.cancel_order_by_id id s =
          Except.error (MatchingEngineError.OrderNotFound id)) ∧
       (∀ o, omFind b.orders id = some o →
        ∃ p queue, o.price = some p ∧ id ∈ queue ∧
          (match o.side with
            | Side.Buy => hbFind b.bids p = some queue
            | Side.Sell => hbFind b.asks p = some queue) ∧
          e.cancel_order_by_id id s =
            Except.ok
              ({ books := bmInsert e.books s
                  (match o.side with
                    | Side.Buy =>
                      { b with
                        bids :=
                          if (queue.filter (fun i => i ≠ id)).isEmpty then
                            hbErase b.bids p
                          else hbSet b.bids p (queue.filter (fun i => i ≠ id))
                        orders := omErase b.orders id }
                    | Side.Sell =>
                      { b with
                        asks :=
                          if (queue.filter (fun i => i ≠ id)).isEmpty then
                            hbErase b.asks p
                          else hbSet b.asks p (queue.filter (fun i => i ≠ id))
                        orders := omErase b.orders id }) },
               { o with status := OrderStatus.Canceled })))) := by
  constructor
  · intro h
    unfold MatchingEngine.cancel_order_by_id
    simp only [h]
  · intro b hb hwf
    constructor
    · constructor
      · intro hn
        unfold MatchingEngine.cancel_order_by_id
        simp only [hb]
        rw [cancel_spec_none hn]
      · intro hc
        cases hfind : omFind b.orders id with
        | none => rfl
        | some o =>
          unfold MatchingEngine.cancel_order_by_id at hc
          simp only [hb] at hc
          rw [cancel_spec_some hfind] at hc
          exact Except.noConfusion hc
    · intro o ho
      obtain ⟨p, queue, hp, hidq, hloc⟩ := cancelled_located hwf ho
      refine ⟨p, queue, hp, hidq, hloc, ?_⟩
      unfold MatchingEngine.cancel_order_by_id
      simp only [hb]
      rw [cancel_spec_some ho]
      cases hside : o.side with
      | Buy =>
        rw [hside] at hloc
        simp only [hside, hp]
        rw [scrub_found hloc]
      | Sell =>
        rw [hside] at hloc
        simp only [hside, hp]
        rw [scrub_found hloc]

theorem spec_C6_witness :
    exEngine.cancel_order_by_id 7 "Y" =
      Except.error (MatchingEngineError.MarketNotFound "Y") ∧
    (omFind exBook.orders 99 = none ↔
      exEngine.cancel_order_by_id 99 "X" =
        Except.error (MatchingEngineError.OrderNotFound 99)) ∧
    (∃ p queue, exSell1.price = some p ∧ 1 ∈ queue ∧
      (match exSell1.side with
        | Side.Buy => hbFind exBook.bids p = some queue
        | Side.Sell => hbFind exBook.asks p = some queue) ∧
      exEngine.cancel_order_by_id 1 "X" =
        Except.ok
          ({ books := bmInsert exEngine.books "X"
              (match exSell1.side with
                | Side.Buy =>
                  { exBook with
                    bids :=
                      if (queue.filter (fun i => i ≠ 1)).isEmpty then
                        hbErase exBook.bids p
                      else hbSet exBook.bids p (queue.filter (fun i => i ≠ 1))
                    orders := omErase exBook.orders 1 }
                | Side.Sell =>
                  { exBook with
                    asks :=
                      if (queue.filter (fun i => i ≠ 1)).isEmpty then
                        hbErase exBook.asks p
                      else hbSet exBook.asks p (queue.filter (fun i => i ≠ 1))
                    orders := omErase exBook.orders 1 }) },
           { exSell1 with status := OrderStatus.Canceled })) :=
  ⟨(spec_C6 exEngine 7 "Y").1 rfl,
   ((spec_C6 exEngine 99 "X").2 exBook rfl (by decide)).1,
   ((spec_C6 exEngine 1 "X").2 exBook rfl (by decide)).2 exSell1 rfl⟩

/-- Claim C4: after the match phase, an incoming LIMIT order with a
remaining quantity appends its id to the TAIL of the queue at its limit
price on its own side and is recorded in the id index in its updated
state; an incoming MARKET order never rests — the book keeps no record
of it. -/
theorem spec_C4 (b : OrderBook) (o : Order) (b' : OrderBook) (ts : List Trade)
    (hwf : WF b) (hfresh : omFind b.orders o.order_id = none)
    (h : b.add_order o = some (b', ts)) :
    ∃ b₁ o', b.match_order o = some (b₁, o', ts) ∧
      o'.order_id = o.order_id ∧ o'.side = o.side ∧ o'.price = o.price ∧
      o'.order_type = o.order_type ∧
      o'.remaining_quantity =
        o.remaining_quantity - (ts.map (·.quantity)).sum ∧
      (o.order_type = OrderType.Limit → o'.remaining_quantity ≠ 0 →
        ∀ p, o.price = some p →
          omFind b'.orders o.order_id = some o' ∧
          (match o.side with
            | Side.Buy =>
              hbFind b'.bids p =
                some ((hbFind b₁.bids p).getD [] ++ [o.order_id]) ∧
              b'.asks = b₁.asks
            | Side.Sell =>
              hbFind b'.asks p =
                some ((hbFind b₁.asks p).getD [] ++ [o.order_id]) ∧
              b'.bids = b₁.bids)) ∧
      (o.order_type = OrderType.Market →
        b' = b₁ ∧ omFind b'.orders o.order_id = none ∧
        o.order_id ∉ queueIds b') := by
  obtain ⟨b₁, o', hmo, hrest⟩ := ao_spec h
  obtain ⟨hwf₁, hinstr, hunch, hsub, hown, hoid, hoside, hoprice, hotype,
    hoqty, horem⟩ := match_order_WF hmo hwf
  refine ⟨b₁, o', hmo, hoid, hoside, hoprice, hotype, horem, ?_, ?_⟩
  · intro hlim hrem p hp
    rcases hrest with ⟨hnf, hlim', p', hp', hcase⟩ | ⟨hdisj, rfl⟩ |
      ⟨hnf, hlim', hpn, rfl⟩
    · have hpp : p' = p := by
        rw [hoprice, hp] at hp'
        exact (Option.some.inj hp').symm
      rcases hcase with ⟨hsb, rfl⟩ | ⟨hss, rfl⟩
      · have hob : o.side = Side.Buy := hoside.symm.trans hsb
        refine ⟨?_, ?_⟩
        · show omFind (omInsert b₁.orders o'.order_id o') o.order_id = some o'
          rw [← hoid]
          exact omFind_insert_self b₁.orders o'.order_id o'
        · rw [hob]
          refine ⟨?_, rfl⟩
          show hbFind (hbPush b₁.bids p' o'.order_id) p =
            some ((hbFind b₁.bids p).getD [] ++ [o.order_id])
          rw [hpp, hbFind_push_self hwf₁.1 p o'.order_id, hoid]
      · have hos : o.side = Side.Sell := hoside.symm.trans hss
        refine ⟨?_, ?_⟩
        · show omFind (omInsert b₁.orders o'.order_id o') o.order_id = some o'
          rw [← hoid]
          exact omFind_insert_self b₁.orders o'.order_id o'
        · rw [hos]
          refine ⟨?_, rfl⟩
          show hbFind (hbPush b₁.asks p' o'.order_id) p =
            some ((hbFind b₁.asks p).getD [] ++ [o.order_id])
          rw [hpp, hbFind_push_self hwf₁.2.1 p o'.order_id, hoid]
    · rcases hdisj with hfil | hmk
      · exact absurd ((is_filled_iff _).mp hfil) hrem
      · rw [hotype, hlim] at hmk
        exact OrderType.noConfusion hmk
    · rw [hoprice, hp] at hpn
      exact Option.noConfusion hpn
  · intro hmkt
    rcases hrest with ⟨hnf, hlim', p', hp', hcase⟩ | ⟨hdisj, rfl⟩ |
      ⟨hnf, hlim', hpn, rfl⟩
    · rw [hotype, hmkt] at hlim'
      exact OrderType.noConfusion hlim'
    · refine ⟨rfl, ?_, ?_⟩
      · rw [hunch _ (fresh_not_queued hwf hfresh)]
        exact hfresh
      · intro hq
        exact fresh_not_queued hwf hfresh (hsub _ hq)
    · rw [hotype, hmkt] at hlim'
      exact OrderType.noConfusion hlim'

theorem spec_C4_witness :
    exBook.add_order exBuyLow = some (exBookRested, []) ∧
    omFind exBookRested.orders 5 = some exBuyLow ∧
    hbFind exBookRested.bids 50 = some [5] ∧
    exBook.add_order exMarketBuy = some (exBookAfterBuy, exTradesM) ∧
    omFind exBookAfterBuy.orders 4 = none ∧
    4 ∉ queueIds exBookAfterBuy := by
  have h2 : exBook.add_order exMarketBuy = some (exBookAfterBuy, exTradesM) := by
    norm_num [OrderBook.add_order, OrderBook.match_order, match_loop, level_step,
      process_queue, OrderBook.get_matchable_prices, matchable_scan, hbFind,
      omFind, Order.fill, Order.is_filled, omErase, omInsert, hbErase, hbSet,
      hbPush, exBook, exMarketBuy, exSell1, exSell2, exBookAfterBuy,
      exSell2Filled, exTradesM, List.find?, List.filter]
  obtain ⟨b₁, o', hmo, h1, h2', h3, h4, h5, h6, hmkt⟩ :=
    spec_C4 exBook exMarketBuy exBookAfterBuy exTradesM (by decide) rfl h2
  obtain ⟨-, hnone, hnq⟩ := hmkt rfl
  exact ⟨rfl, rfl, rfl, h2, hnone, hnq⟩

/-! ## Round-trip lemmas: undoing a fresh rest -/

theorem hbFind_cons_ne {q : ℚ} {ids : List Nat} {t : HalfBook} {p : ℚ}
    (h : q ≠ p) : hbFind ((q, ids) :: t) p = hbFind t p := by
  unfold hbFind
  rw [List.find?_cons_of_neg _ (by simp [h])]

theorem scrub_cons_ne {q p : ℚ} {ids : List Nat} {t : HalfBook} (id : Nat)
    (h : q ≠ p) :
    scrub (some p) id ((q, ids) :: t) = (q, ids) :: scrub (some p) id t := by
  cases hf : hbFind t p with
  | none =>
    have h1 : hbFind ((q, ids) :: t) p = none := by rw [hbFind_cons_ne h, hf]
    rw [scrub_absent h1 id, scrub_absent hf id]
  | some queue =>
    have h1 : hbFind ((q, ids) :: t) p = some queue := by
      rw [hbFind_cons_ne h, hf]
    rw [scrub_found h1 id, scrub_found hf id]
    by_cases he : (queue.filter (fun i => i ≠ id)).isEmpty
    · rw [if_pos he, if_pos he]
      unfold hbErase
      rw [List.filter_cons_of_pos (by simp [h])]
    · rw [if_neg he, if_neg he]
      unfold hbSet
      rw [List.map_cons, if_neg (by simpa using h)]

/-- Cancelling a freshly pushed id restores the half-book exactly. -/
theorem scrub_push_fresh {p : ℚ} {id : Nat} :
    ∀ {hb : HalfBook}, hbSorted hb → hbNoEmpty hb → id ∉ hbIds hb →
      scrub (some p) id (hbPush hb p id) = hb := by
  intro hb
  induction hb with
  | nil =>
    intro _ _ _
    show scrub (some p) id [(p, [id])] = []
    have h1 : hbFind [(p, [id])] p = some [id] := by
      unfold hbFind
      rw [List.find?_cons_of_pos _ (by simp)]
      rfl
    rw [scrub_found h1 id, if_pos (by simp)]
    unfold hbErase
    rw [List.filter_cons_of_neg (by simp)]
    rfl
  | cons e t ih =>
    obtain ⟨q, ids⟩ := e
    intro hs hne hid
    have hs2 := hs
    unfold hbSorted at hs2
    rw [List.map_cons, List.pairwise_cons] at hs2
    have hs' : hbSorted t := hs2.2
    have hne' : hbNoEmpty t := fun e he => hne e (List.mem_cons_of_mem _ he)
    have hid1 : id ∉ ids := fun hc => hid (List.mem_append_left _ hc)
    have hid2 : id ∉ hbIds t := fun hc => hid (List.mem_append_right _ hc)
    unfold hbPush
    by_cases h1 : p < q
    · rw [if_pos h1]
      have hfind : hbFind ((p, [id]) :: (q, ids) :: t) p = some [id] := by
        unfold hbFind
        rw [List.find?_cons_of_pos _ (by simp)]
        rfl
      rw [scrub_found hfind id, if_pos (by simp)]
      unfold hbErase
      rw [List.filter_cons_of_neg (by simp),
        List.filter_cons_of_pos (by
          simp only [decide_eq_true_eq]
          intro hc
          rw [hc] at h1
          exact lt_irrefl p h1),
        List.filter_eq_self.mpr ?_]
      intro e he
      simp only [decide_eq_true_eq]
      intro hc
      have hlt : q < e.1 := hs2.1 e.1 (List.mem_map_of_mem _ he)
      rw [hc] at hlt
      exact lt_asymm h1 hlt
    · rw [if_neg h1]
      by_cases h2 : p = q
      · rw [if_pos h2]
        subst h2
        have hfind : hbFind ((p, ids ++ [id]) :: t) p = some (ids ++ [id]) := by
          unfold hbFind
          rw [List.find?_cons_of_pos _ (by simp)]
          rfl
        rw [scrub_found hfind id]
        have hfq : (ids ++ [id]).filter (fun i => i ≠ id) = ids := by
          rw [List.filter_append]
          have e1 : ids.filter (fun i => decide (i ≠ id)) = ids := by
            rw [List.filter_eq_self]
            intro x hx
            simp only [decide_eq_true_eq]
            intro hc
            exact hid1 (hc ▸ hx)
          have e2 : [id].filter (fun i => decide (i ≠ id)) = [] := by simp
          rw [e1, e2, List.append_nil]
        rw [hfq]
        have hidsne : ids ≠ [] := hne (p, ids) (List.mem_cons_self _ _)
        rw [if_neg (by simpa [List.isEmpty_iff] using hidsne)]
        have hfn : hbFind t p = none := by
          apply hbFind_eq_none
          intro e he hc
          have hlt : p < e.1 := hs2.1 e.1 (List.mem_map_of_mem _ he)
          rw [hc] at hlt
          exact lt_irrefl p hlt
        show (if (p, ids ++ [id]).1 = p then (p, ids) else (p, ids ++ [id])) ::
            hbSet t p ids = (p, ids) :: t
        rw [if_pos rfl, hbSet_of_find_none hfn]
      · rw [if_neg h2]
        rw [scrub_cons_ne id (fun hc => h2 hc.symm), ih hs' hne' hid2]

/-- Erasing a freshly inserted key restores the id index exactly. -/
theorem omErase_insert_fresh {m : OrdersMap} {id : Nat} (o : Order)
    (h : omFind m id = none) : omErase (omInsert m id o) id = m := by
  have hf : List.find? (fun e => decide (e.1 = id)) m = none := by
    unfold omFind at h
    exact Option.map_eq_none'.mp h
  have hall : ∀ e ∈ m, e.1 ≠ id := by
    intro e he
    have := List.find?_eq_none.mp hf e he
    simpa using this
  unfold omInsert omErase
  rw [if_neg (by simp [hf]), List.filter_append,
    List.filter_eq_self.mpr (fun e he => by simpa using hall e he)]
  simp

/-- With no matchable prices, the match phase is the identity. -/
theorem mo_nil {b : OrderBook} {o : Order}
    (h : b.get_matchable_prices o = []) :
    b.match_order o = some (b, o, []) := by
  unfold OrderBook.match_order
  cases hside : o.side
  case Buy => simp only [h, match_loop, Option.map_some']
  case Sell => simp only [h, match_loop, Option.map_some']

/-- Claim C8: submitting a LIMIT order that crosses no resting price (the
matchable-price scan is empty, so no trades are produced) and then
cancelling it restores the book exactly — hence in particular its
`display` snapshot. -/
theorem spec_C8 (b : OrderBook) (o : Order) (hwf : WF b)
    (hlim : o.order_type = OrderType.Limit) (p : ℚ) (hp : o.price = some p)
    (hrem : o.remaining_quantity ≠ 0)
    (hfresh : omFind b.orders o.order_id = none)
    (hnc : b.get_matchable_prices o = []) :
    ∃ b', b.add_order o = some (b', []) ∧
      ∃ b'', b'.cancel_order o.order_id =
          Except.ok (b'', { o with status := OrderStatus.Canceled }) ∧
        b''.display = b.display ∧ b'' = b := by
  have hmo := mo_nil hnc
  have hnf : o.is_filled = false := (is_filled_false_iff o).mpr hrem
  have hnotq := fresh_not_queued hwf hfresh
  rw [queueIds_eq] at hnotq
  have hnb : o.order_id ∉ hbIds b.bids :=
    fun hc => hnotq (List.mem_append_left _ hc)
  have hna : o.order_id ∉ hbIds b.asks :=
    fun hc => hnotq (List.mem_append_right _ hc)
  cases hside : o.side with
  | Buy =>
    have hadd : b.add_order o = some
        ({ b with bids := hbPush b.bids p o.order_id
                  orders := omInsert b.orders o.order_id o }, []) := by
      unfold OrderBook.add_order
      rw [hmo]
      simp only [Option.map_some']
      rw [if_pos ⟨hnf, hlim⟩]
      simp only [hp, hside]
    refine ⟨_, hadd, b, ?_, rfl, rfl⟩
    have hfind : omFind ({ b with
        bids := hbPush b.bids p o.order_id
        orders := omInsert b.orders o.order_id o } : OrderBook).orders
        o.order_id = some o :=
      omFind_insert_self b.orders o.order_id o
    rw [cancel_spec_some hfind]
    simp only [hside, hp]
    rw [scrub_push_fresh hwf.1 hwf.2.2.1 hnb, omErase_insert_fresh o hfresh]
  | Sell =>
    have hadd : b.add_order o = some
        ({ b with asks := hbPush b.asks p o.order_id
                  orders := omInsert b.orders o.order_id o }, []) := by
      unfold OrderBook.add_order
      rw [hmo]
      simp only [Option.map_some']
      rw [if_pos ⟨hnf, hlim⟩]
      simp only [hp, hside]
    refine ⟨_, hadd, b, ?_, rfl, rfl⟩
    have hfind : omFind ({ b with
        asks := hbPush b.asks p o.order_id
        orders := omInsert b.orders o.order_id o } : OrderBook).orders
        o.order_id = some o :=
      omFind_insert_self b.orders o.order_id o
    rw [cancel_spec_some hfind]
    simp only [hside, hp]
    rw [scrub_push_fresh hwf.2.1 hwf.2.2.2.1 hna, omErase_insert_fresh o hfresh]

theorem spec_C8_witness :
    WF exBook ∧ exBook.get_matchable_prices exBuyLow = [] ∧
    (∃ b', exBook.add_order exBuyLow = some (b', []) ∧
      ∃ b'', b'.cancel_order exBuyLow.order_id =
          Except.ok (b'', { exBuyLow with status := OrderStatus.Canceled }) ∧
        b''.display = exBook.display ∧ b'' = exBook) :=
  ⟨by decide, by decide,
   spec_C8 exBook exBuyLow (by decide) rfl 50 rfl (by decide) rfl (by decide)⟩

/-! ## Trade-level lemmas for the level loop -/

/-- A filled incoming order stops the level loop immediately. -/
theorem ml_filled {instr : String} {orders : OrdersMap} {incoming : Order}
    {opp : HalfBook} {prices : List ℚ} {orders' : OrdersMap} {opp' : HalfBook}
    {incoming' : Order} {ts : List Trade}
    (h : match_loop instr orders incoming opp prices =
      some (orders', opp', incoming', ts))
    (hf : incoming.is_filled = true) :
    orders' = orders ∧ opp' = opp ∧ incoming' = incoming ∧ ts = [] := by
  cases prices with
  | nil =>
    simp only [match_loop, Option.some_inj, Prod.mk.injEq] at h
    exact ⟨h.1.symm, h.2.1.symm, h.2.2.1.symm, h.2.2.2.symm⟩
  | cons p rest =>
    unfold match_loop at h
    rw [if_pos hf] at h
    simp only [Option.some_inj, Prod.mk.injEq] at h
    exact ⟨h.1.symm, h.2.1.symm, h.2.2.1.symm, h.2.2.2.symm⟩

/-- Unless the incoming order ends the queue loop filled, every index entry
either survives unchanged or is erased (never modified in place). -/
theorem pq_orders_cases {instr : String} {price : ℚ} :
    ∀ {queue : List Nat} {orders : OrdersMap} {incoming : Order}
      {orders' : OrdersMap} {incoming' : Order} {queue' : List Nat}
      {ts : List Trade},
      process_queue instr orders incoming price queue =
        some (orders', incoming', queue', ts) →
      (∀ id, omFind orders' id = omFind orders id ∨ omFind orders' id = none) ∨
        incoming'.is_filled = true := by
  intro queue
  induction queue with
  | nil =>
    intro orders incoming orders' incoming' queue' ts hpq
    simp only [process_queue, Option.some_inj, Prod.mk.injEq] at hpq
    left
    intro id
    rw [← hpq.1]
    exact Or.inl rfl
  | cons resting_id restq ih =>
    intro orders incoming orders' incoming' queue' ts hpq
    by_cases hf : incoming.is_filled
    · simp only [process_queue, if_pos hf, Option.some_inj, Prod.mk.injEq] at hpq
      right
      rw [← hpq.2.1]
      exact hf
    · simp only [process_queue, if_neg hf] at hpq
      cases hr : omFind orders resting_id with
      | none => simp [hr] at hpq
      | some resting =>
        simp only [hr] at hpq
        set trade_qty := min incoming.remaining_quantity resting.remaining_quantity
        by_cases hrf : (resting.fill trade_qty).is_filled
        · rw [if_pos hrf] at hpq
          cases hrec : process_queue instr (omErase orders resting_id)
              (incoming.fill trade_qty) price restq with
          | none => simp [hrec] at hpq
          | some r =>
            obtain ⟨o2, i2, q2, ts2⟩ := r
            simp only [hrec, Option.some_inj, Prod.mk.injEq] at hpq
            obtain ⟨ho, hi, hq, hts⟩ := hpq
            rcases ih hrec with hsame | hfil
            · left
              intro id
              rw [← ho]
              by_cases hc : id = resting_id
              · subst hc
                rcases hsame id with heq | hnone
                · exact Or.inr (heq.trans (omFind_erase_self orders id))
                · exact Or.inr hnone
              · rcases hsame id with heq | hnone
                · rw [heq, omFind_erase_ne orders (Ne.symm hc)]
                  exact Or.inl rfl
                · exact Or.inr hnone
            · right
              rw [← hi]
              exact hfil
        · rw [if_neg hrf] at hpq
          simp only [Option.some_inj, Prod.mk.injEq] at hpq
          right
          rw [← hpq.2.1]
          exact partial_resting_fills_incoming hrf

/-- `pq_orders_cases` lifted to a level pass. -/
theorem ls_orders_cases {instr : String} {orders : OrdersMap} {incoming : Order}
    {price : ℚ} {opp : HalfBook} {orders' : OrdersMap} {opp' : HalfBook}
    {incoming' : Order} {ts : List Trade}
    (hls : level_step instr orders incoming price opp =
      some (orders', opp', incoming', ts)) :
    (∀ id, omFind orders' id = omFind orders id ∨ omFind orders' id = none) ∨
      incoming'.is_filled = true := by
  rcases ls_spec hls with ⟨hf, hr⟩ | ⟨queue, o1, i1, q1, ts1, hf, hpq, hr⟩
  · obtain ⟨ho, -, -, -⟩ : orders' = orders ∧ opp' = opp ∧
        incoming' = incoming ∧ ts = [] := by
      rw [Prod.mk.injEq, Prod.mk.injEq, Prod.mk.injEq] at hr
      exact ⟨hr.1, hr.2.1, hr.2.2.1, hr.2.2.2⟩
    subst ho
    left
    intro id
    exact Or.inl rfl
  · obtain ⟨ho, -, hinc, -⟩ : orders' = o1 ∧
        opp' = (if q1.isEmpty then hbErase opp price else hbSet opp price q1) ∧
        incoming' = i1 ∧ ts = ts1 := by
      rw [Prod.mk.injEq, Prod.mk.injEq, Prod.mk.injEq] at hr
      exact ⟨hr.1, hr.2.1, hr.2.2.1, hr.2.2.2⟩
    subst ho
    subst hinc
    exact pq_orders_cases hpq

/-- If the incoming order ends the queue loop unfilled, the whole queue was
consumed, one trade per resting order in order. -/
theorem pq_consume {instr : String} {price : ℚ} :
    ∀ {queue : List Nat} {orders : OrdersMap} {incoming : Order}
      {orders' : OrdersMap} {incoming' : Order} {queue' : List Nat}
      {ts : List Trade},
      process_queue instr orders incoming price queue =
        some (orders', incoming', queue', ts) →
      (∀ id o, omFind orders id = some o → o.order_id = id) →
      incoming'.is_filled = false →
      ts.map makerOf = queue := by
  intro queue
  induction queue with
  | nil =>
    intro orders incoming orders' incoming' queue' ts hpq hid hnf
    simp only [process_queue, Option.some_inj, Prod.mk.injEq] at hpq
    rw [← hpq.2.2.2]
    rfl
  | cons resting_id restq ih =>
    intro orders incoming orders' incoming' queue' ts hpq hid hnf
    by_cases hf : incoming.is_filled
    · simp only [process_queue, if_pos hf, Option.some_inj, Prod.mk.injEq] at hpq
      rw [← hpq.2.1, hf] at hnf
      exact Bool.noConfusion hnf
    · simp only [process_queue, if_neg hf] at hpq
      cases hr : omFind orders resting_id with
      | none => simp [hr] at hpq
      | some resting =>
        simp only [hr] at hpq
        set trade_qty := min incoming.remaining_quantity resting.remaining_quantity
        have hmk : ∀ ts2 : List Trade,
            List.map makerOf
              ({ instrument := instr, price := price, quantity := trade_qty,
                 buy_order_id := (if incoming.side = Side.Buy then
                     (incoming.order_id, resting.order_id)
                   else (resting.order_id, incoming.order_id)).1,
                 sell_order_id := (if incoming.side = Side.Buy then
                     (incoming.order_id, resting.order_id)
                   else (resting.order_id, incoming.order_id)).2,
                 taker_side := incoming.side : Trade} :: ts2) =
            resting_id :: List.map makerOf ts2 := by
          intro ts2
          have hrid : resting.order_id = resting_id := hid _ _ hr
          cases hside : incoming.side <;> simp [makerOf, hside, hrid]
        by_cases hrf : (resting.fill trade_qty).is_filled
        · rw [if_pos hrf] at hpq
          cases hrec : process_queue instr (omErase orders resting_id)
              (incoming.fill trade_qty) price restq with
          | none => simp [hrec] at hpq
          | some r =>
            obtain ⟨o2, i2, q2, ts2⟩ := r
            simp only [hrec, Option.some_inj, Prod.mk.injEq] at hpq
            rw [← hpq.2.2.2, hmk,
              ih hrec (hid_erase hid resting_id) (by rw [hpq.2.1]; exact hnf)]
        · rw [if_neg hrf] at hpq
          simp only [Option.some_inj, Prod.mk.injEq] at hpq
          exfalso
          have hfil : incoming'.is_filled = true := by
            rw [← hpq.2.1]
            exact partial_resting_fills_incoming hrf
          rw [hfil] at hnf
          exact Bool.noConfusion hnf

/-- Makers of a level pass form a prefix of the level's queue. -/
theorem ls_makers {instr : String} {orders : OrdersMap} {incoming : Order}
    {price : ℚ} {opp : HalfBook} {orders' : OrdersMap} {opp' : HalfBook}
    {incoming' : Order} {ts : List Trade}
    (hls : level_step instr orders incoming price opp =
      some (orders', opp', incoming', ts))
    (hid : ∀ id o, omFind orders id = some o → o.order_id = id) :
    ∀ queue, hbFind opp price = some queue →
      ts.map makerOf = queue.take ts.length := by
  rcases ls_spec hls with ⟨hf, hr⟩ | ⟨queue0, o1, i1, q1, ts1, hf, hpq, hr⟩
  · intro queue hfq
    rw [hf] at hfq
    exact Option.noConfusion hfq
  · intro queue hfq
    rw [hf] at hfq
    obtain rfl : queue0 = queue := Option.some.inj hfq
    obtain ⟨-, -, -, hts⟩ : orders' = o1 ∧
        opp' = (if q1.isEmpty then hbErase opp price else hbSet opp price q1) ∧
        incoming' = i1 ∧ ts = ts1 := by
      rw [Prod.mk.injEq, Prod.mk.injEq, Prod.mk.injEq] at hr
      exact ⟨hr.1, hr.2.1, hr.2.2.1, hr.2.2.2⟩
    subst hts
    exact pq_makers hpq hid

/-- A level pass that leaves the incoming order unfilled consumed its whole
queue. -/
theorem ls_consumed {instr : String} {orders : OrdersMap} {incoming : Order}
    {price : ℚ} {opp : HalfBook} {orders' : OrdersMap} {opp' : HalfBook}
    {incoming' : Order} {ts : List Trade}
    (hls : level_step instr orders incoming price opp =
      some (orders', opp', incoming', ts))
    (hid : ∀ id o, omFind orders id = some o → o.order_id = id)
    (hnf : incoming'.is_filled = false) :
    ∀ queue, hbFind opp price = some queue → ts.map makerOf = queue := by
  rcases ls_spec hls with ⟨hf, hr⟩ | ⟨queue0, o1, i1, q1, ts1, hf, hpq, hr⟩
  · intro queue hfq
    rw [hf] at hfq
    exact Option.noConfusion hfq
  · intro queue hfq
    rw [hf] at hfq
    obtain rfl : queue0 = queue := Option.some.inj hfq
    obtain ⟨-, -, hinc, hts⟩ : orders' = o1 ∧
        opp' = (if q1.isEmpty then hbErase opp price else hbSet opp price q1) ∧
        incoming' = i1 ∧ ts = ts1 := by
      rw [Prod.mk.injEq, Prod.mk.injEq, Prod.mk.injEq] at hr
      exact ⟨hr.1, hr.2.1, hr.2.2.1, hr.2.2.2⟩
    subst hts
    refine pq_consume hpq hid ?_
    rw [← hinc]
    exact hnf

/-- Before each trade of a level pass the incoming remainder is non-zero. -/
theorem ls_nonzero {instr : String} {orders : OrdersMap} {incoming : Order}
    {price : ℚ} {opp : HalfBook} {orders' : OrdersMap} {opp' : HalfBook}
    {incoming' : Order} {ts : List Trade}
    (hls : level_step instr orders incoming price opp =
      some (orders', opp', incoming', ts)) :
    ∀ i, i < ts.length →
      incoming.remaining_quantity - ((ts.take i).map (·.quantity)).sum ≠ 0 := by
  rcases ls_spec hls with ⟨hf, hr⟩ | ⟨queue0, o1, i1, q1, ts1, hf, hpq, hr⟩
  · obtain ⟨-, -, -, hts⟩ : orders' = orders ∧ opp' = opp ∧
        incoming' = incoming ∧ ts = [] := by
      rw [Prod.mk.injEq, Prod.mk.injEq, Prod.mk.injEq] at hr
      exact ⟨hr.1, hr.2.1, hr.2.2.1, hr.2.2.2⟩
    subst hts
    intro i hi
    simp at hi
  · obtain ⟨-, -, -, hts⟩ : orders' = o1 ∧
        opp' = (if q1.isEmpty then hbErase opp price else hbSet opp price q1) ∧
        incoming' = i1 ∧ ts = ts1 := by
      rw [Prod.mk.injEq, Prod.mk.injEq, Prod.mk.injEq] at hr
      exact ⟨hr.1, hr.2.1, hr.2.2.1, hr.2.2.2⟩
    subst hts
    exact pq_nonzero hpq

/-- Before each trade of the whole level loop the incoming remainder is
non-zero: matching stops as soon as the order is filled. -/
theorem ml_nonzero {instr : String} :
    ∀ {prices : List ℚ} {orders : OrdersMap} {incoming : Order}
      {opp : HalfBook} {orders' : OrdersMap} {opp' : HalfBook}
      {incoming' : Order} {ts : List Trade},
      match_loop instr orders incoming opp prices =
        some (orders', opp', incoming', ts) →
      ∀ i, i < ts.length →
        incoming.remaining_quantity - ((ts.take i).map (·.quantity)).sum ≠ 0 := by
  intro prices
  induction prices with
  | nil =>
    intro orders incoming opp orders' opp' incoming' ts hml i hi
    obtain hts : ts = [] := by
      simp only [match_loop, Option.some_inj, Prod.mk.injEq] at hml
      exact hml.2.2.2.symm
    rw [hts] at hi
    simp at hi
  | cons price rest ih =>
    intro orders incoming opp orders' opp' incoming' ts hml i hi
    rcases ml_spec hml with ⟨hf, hr⟩ | ⟨hf, o1, opp1, i1, ts1, o2, opp2, i2,
      ts2, hls, hml2, hr⟩
    · obtain hts : ts = [] := by
        rw [Prod.mk.injEq, Prod.mk.injEq, Prod.mk.injEq] at hr
        exact hr.2.2.2
      rw [hts] at hi
      simp at hi
    · obtain ⟨-, -, -, hts⟩ : orders' = o2 ∧ opp' = opp2 ∧
          incoming' = i2 ∧ ts = ts1 ++ ts2 := by
        rw [Prod.mk.injEq, Prod.mk.injEq, Prod.mk.injEq] at hr
        exact ⟨hr.1, hr.2.1, hr.2.2.1, hr.2.2.2⟩
      subst hts
      by_cases hlt : i < ts1.length
      · have htake : (ts1 ++ ts2).take i = ts1.take i := by
          rw [List.take_append_eq_append_take,
            Nat.sub_eq_zero_of_le (le_of_lt hlt), List.take_zero,
            List.append_nil]
        rw [htake]
        exact ls_nonzero hls i hlt
      · have hlen : ts1.length ≤ i := le_of_not_lt hlt
        have hj : i - ts1.length < ts2.length := by
          rw [List.length_append] at hi
          omega
        have k6 := (ls_incoming hls).2.2.2.2.2
        have htake : (ts1 ++ ts2).take i = ts1 ++ ts2.take (i - ts1.length) := by
          rw [List.take_append_eq_append_take, List.take_of_length_le hlen]
        rw [htake, List.map_append, List.sum_append]
        have hih := ih hml2 (i - ts1.length) hj
        intro hc
        apply hih
        rw [k6]
        have harith : i1.remaining_quantity = i1.remaining_quantity := rfl
        have : incoming.remaining_quantity - (ts1.map (·.quantity)).sum -
            ((ts2.take (i - ts1.length)).map (·.quantity)).sum =
            incoming.remaining_quantity - ((ts1.map (·.quantity)).sum +
              ((ts2.take (i - ts1.length)).map (·.quantity)).sum) := by
          ring
        rw [this]
        exact hc

/-- Every trade of the level loop executes at one of the scanned prices. -/
theorem ml_price_mem {instr : String} :
    ∀ {prices : List ℚ} {orders : OrdersMap} {incoming : Order}
      {opp : HalfBook} {orders' : OrdersMap} {opp' : HalfBook}
      {incoming' : Order} {ts : List Trade},
      match_loop instr orders incoming opp prices =
        some (orders', opp', incoming', ts) →
      ∀ t ∈ ts, t.price ∈ prices := by
  intro prices
  induction prices with
  | nil =>
    intro orders incoming opp orders' opp' incoming' ts hml t ht
    obtain hts : ts = [] := by
      simp only [match_loop, Option.some_inj, Prod.mk.injEq] at hml
      exact hml.2.2.2.symm
    rw [hts] at ht
    simp at ht
  | cons price rest ih =>
    intro orders incoming opp orders' opp' incoming' ts hml t ht
    rcases ml_spec hml with ⟨hf, hr⟩ | ⟨hf, o1, opp1, i1, ts1, o2, opp2, i2,
      ts2, hls, hml2, hr⟩
    · obtain hts : ts = [] := by
        rw [Prod.mk.injEq, Prod.mk.injEq, Prod.mk.injEq] at hr
        exact hr.2.2.2
      rw [hts] at ht
      simp at ht
    · obtain ⟨-, -, -, hts⟩ : orders' = o2 ∧ opp' = opp2 ∧
          incoming' = i2 ∧ ts = ts1 ++ ts2 := by
        rw [Prod.mk.injEq, Prod.mk.injEq, Prod.mk.injEq] at hr
        exact ⟨hr.1, hr.2.1, hr.2.2.1, hr.2.2.2⟩
      subst hts
      rcases List.mem_append.mp ht with h | h
      · rw [(ls_fields hls t h).2.1]
        exact List.mem_cons_self _ _
      · exact List.mem_cons_of_mem _ (ih hml2 t h)

/-- Trade prices inherit any reflexive relation holding pairwise along the
scanned price list. -/
theorem ml_chain {instr : String} (R : ℚ → ℚ → Prop) (hR : ∀ p, R p p) :
    ∀ {prices : List ℚ} {orders : OrdersMap} {incoming : Order}
      {opp : HalfBook} {orders' : OrdersMap} {opp' : HalfBook}
      {incoming' : Order} {ts : List Trade},
      match_loop instr orders incoming opp prices =
        some (orders', opp', incoming', ts) →
      prices.Pairwise R →
      ts.Pairwise (fun t t' => R t.price t'.price) := by
  intro prices
  induction prices with
  | nil =>
    intro orders incoming opp orders' opp' incoming' ts hml _
    obtain hts : ts = [] := by
      simp only [match_loop, Option.some_inj, Prod.mk.injEq] at hml
      exact hml.2.2.2.symm
    rw [hts]
    exact List.Pairwise.nil
  | cons price rest ih =>
    intro orders incoming opp orders' opp' incoming' ts hml hpw
    rcases ml_spec hml with ⟨hf, hr⟩ | ⟨hf, o1, opp1, i1, ts1, o2, opp2, i2,
      ts2, hls, hml2, hr⟩
    · obtain hts : ts = [] := by
        rw [Prod.mk.injEq, Prod.mk.injEq, Prod.mk.injEq] at hr
        exact hr.2.2.2
      rw [hts]
      exact List.Pairwise.nil
    · obtain ⟨-, -, -, hts⟩ : orders' = o2 ∧ opp' = opp2 ∧
          incoming' = i2 ∧ ts = ts1 ++ ts2 := by
        rw [Prod.mk.injEq, Prod.mk.injEq, Prod.mk.injEq] at hr
        exact ⟨hr.1, hr.2.1, hr.2.2.1, hr.2.2.2⟩
      subst hts
      rw [List.pairwise_cons] at hpw
      have hts1p : ∀ t ∈ ts1, t.price = price :=
        fun t ht => (ls_fields hls t ht).2.1
      rw [List.pairwise_append]
      refine ⟨?_, ih hml2 hpw.2, ?_⟩
      · refine List.pairwise_of_forall_mem_list ?_
        intro a ha b hb
        rw [hts1p a ha, hts1p b hb]
        exact hR price
      · intro a ha b hb
        rw [hts1p a ha]
        exact hpw.1 _ (ml_price_mem hml2 b hb)

/-- The price scan collects exactly the crossing keys when no queue is
empty and crossing is downward-closed along the key order. -/
theorem matchable_scan_eq_filter (limit : Option ℚ) (cross : ℚ → ℚ → Bool) :
    ∀ (l : List (ℚ × List Nat)), (∀ e ∈ l, e.2 ≠ []) →
      (∀ lp, limit = some lp →
        (l.map (·.1)).Pairwise
          (fun a b => cross b lp = true → cross a lp = true)) →
      matchable_scan limit cross l =
        (l.map (·.1)).filter (fun p =>
          limit.elim true (fun lp => cross p lp)) := by
  intro l
  induction l with
  | nil =>
    intro _ _
    rfl
  | cons e rest ih =>
    intro hne hmono
    obtain ⟨price, queue⟩ := e
    have hq : ¬ (queue.isEmpty = true) := fun hc =>
      hne (price, queue) (List.mem_cons_self _ _) (List.isEmpty_iff.mp hc)
    have hne' : ∀ e ∈ rest, e.2 ≠ [] :=
      fun e he => hne e (List.mem_cons_of_mem _ he)
    unfold matchable_scan
    rw [if_neg hq]
    cases hlim : limit with
    | none =>
      rw [hlim] at ih hmono
      show price :: matchable_scan none cross rest =
        (((price, queue) :: rest).map (·.1)).filter (fun p =>
          (none : Option ℚ).elim true (fun lp => cross p lp))
      rw [List.map_cons, List.filter_cons_of_pos (by rfl)]
      rw [ih hne' (fun lp h => Option.noConfusion h)]
    | some lp =>
      rw [hlim] at ih hmono
      have hmono' := hmono lp rfl
      rw [List.map_cons, List.pairwise_cons] at hmono'
      by_cases hc : cross price lp = true
      · show (if cross price lp = true then
            price :: matchable_scan (some lp) cross rest else []) =
          (((price, queue) :: rest).map (·.1)).filter (fun p =>
            (some lp).elim true (fun lp' => cross p lp'))
        rw [if_pos hc, List.map_cons, List.filter_cons_of_pos (by exact hc)]
        rw [ih hne' (fun lp' h => by
          obtain rfl : lp = lp' := Option.some.inj h
          exact hmono'.2)]
      · show (if cross price lp = true then
            price :: matchable_scan (some lp) cross rest else []) =
          (((price, queue) :: rest).map (·.1)).filter (fun p =>
            (some lp).elim true (fun lp' => cross p lp'))
        rw [if_neg hc, List.map_cons, List.filter_cons_of_neg (by exact hc)]
        rw [eq_comm, List.filter_eq_nil_iff]
        intro a ha hca
        exact hc (hmono'.1 a ha hca)

/-- Claim-C2 core: `get_matchable_prices` of a well-formed book is exactly
the crossing keys of the opposite side, asks in ascending and bids in
descending key order. -/
theorem gmp_spec {b : OrderBook} (o : Order) (hwf : WF b) :
    b.get_matchable_prices o =
      (match o.side with
        | Side.Buy => (b.asks.map (·.1)).filter
            (fun p => o.price.elim true (fun lp => decide (p ≤ lp)))
        | Side.Sell => ((b.bids.reverse).map (·.1)).filter
            (fun p => o.price.elim true (fun lp => decide (lp ≤ p)))) := by
  obtain ⟨w1, w2, w3, w4, -, -, -, -, -, -⟩ := hwf
  unfold OrderBook.get_matchable_prices
  cases hside : o.side with
  | Buy =>
    show matchable_scan o.price (fun p lp => p ≤ lp) b.asks =
      (b.asks.map (·.1)).filter (fun p =>
        o.price.elim true (fun lp => decide (p ≤ lp)))
    exact matchable_scan_eq_filter o.price (fun p lp => decide (p ≤ lp)) b.asks
      (fun e he => w4 e he)
      (fun lp hlp => List.Pairwise.imp
        (fun hab hble => by
          rw [decide_eq_true_eq] at hble ⊢
          exact le_of_lt (lt_of_lt_of_le hab hble)) w2)
  | Sell =>
    show matchable_scan o.price (fun p lp => lp ≤ p) b.bids.reverse =
      ((b.bids.reverse).map (·.1)).filter (fun p =>
        o.price.elim true (fun lp => decide (lp ≤ p)))
    refine matchable_scan_eq_filter o.price (fun p lp => decide (lp ≤ p))
      b.bids.reverse
      (fun e he => w3 e (List.mem_reverse.mp he)) ?_
    intro lp hlp
    rw [List.map_reverse, List.pairwise_reverse]
    refine List.Pairwise.imp ?_ w1
    intro a b hab hble
    rw [decide_eq_true_eq] at hble ⊢
    exact le_trans hble (le_of_lt hab)

/-- In a list that is pairwise related, a member strictly "better" than a
marked element sits strictly before it. -/
theorem mem_left_of_rel {α : Type} (r : α → α → Prop) (l1 l2 : List α)
    {a q : α} (hasym : ∀ x y, r x y → ¬ r y x)
    (hpw : (l1 ++ a :: l2).Pairwise r) (hq : q ∈ l1 ++ a :: l2)
    (hrq : r q a) : q ∈ l1 := by
  rcases List.mem_append.mp hq with h | h
  · exact h
  · rcases List.mem_cons.mp h with rfl | h
    · exact absurd hrq (hasym q q hrq)
    · exfalso
      have h2 := (List.pairwise_append.mp hpw).2.1
      rw [List.pairwise_cons] at h2
      exact hasym q a hrq (h2.1 q h)

/-- Full per-trade account of one level pass: each trade's maker is read
from the pre-pass index on the opposite side at the level price, its
quantity is the `min` of the incoming remainder at that moment and the
maker's remainder, the maker's entry is erased iff the trade took its
whole remainder (and then it leaves the half-book), and a surviving maker
means the incoming order finished filled. -/
theorem ls_trades {instr : String} {orders : OrdersMap} {incoming : Order}
    {price : ℚ} {opp : HalfBook} {os : Side}
    {orders' : OrdersMap} {opp' : HalfBook} {incoming' : Order}
    {ts : List Trade}
    (hls : level_step instr orders incoming price opp =
      some (orders', opp', incoming', ts))
    (hsorted : hbSorted opp) (hagree : sideAgrees orders os opp)
    (hcons : ordersConsistent orders) (hfnd : (hbIds opp).Nodup) :
    ∀ i (hi : i < ts.length), ∃ maker,
      omFind orders (makerOf (ts.get ⟨i, hi⟩)) = some maker ∧
      maker.side = os ∧
      maker.price = some ((ts.get ⟨i, hi⟩).price) ∧
      (ts.get ⟨i, hi⟩).quantity =
        min (incoming.remaining_quantity - ((ts.take i).map (·.quantity)).sum)
          maker.remaining_quantity ∧
      ((ts.get ⟨i, hi⟩).quantity = maker.remaining_quantity ↔
        omFind orders' (makerOf (ts.get ⟨i, hi⟩)) = none) ∧
      (omFind orders' (makerOf (ts.get ⟨i, hi⟩)) = none →
        makerOf (ts.get ⟨i, hi⟩) ∉ hbIds opp') ∧
      ((omFind orders' (makerOf (ts.get ⟨i, hi⟩))).isSome →
        incoming'.is_filled = true) := by
  rcases ls_spec hls with ⟨hf, hr⟩ | ⟨queue, o1, i1, q1, ts1, hf, hpq, hr⟩
  · obtain ⟨-, -, -, hts⟩ : orders' = orders ∧ opp' = opp ∧
        incoming' = incoming ∧ ts = [] := by
      rw [Prod.mk.injEq, Prod.mk.injEq, Prod.mk.injEq] at hr
      exact ⟨hr.1, hr.2.1, hr.2.2.1, hr.2.2.2⟩
    subst hts
    intro i hi
    simp at hi
  · obtain ⟨ho, hopp, hinc, hts⟩ : orders' = o1 ∧
        opp' = (if q1.isEmpty then hbErase opp price else hbSet opp price q1) ∧
        incoming' = i1 ∧ ts = ts1 := by
      rw [Prod.mk.injEq, Prod.mk.injEq, Prod.mk.injEq] at hr
      exact ⟨hr.1, hr.2.1, hr.2.2.1, hr.2.2.2⟩
    subst ho
    subst hinc
    subst hts
    subst hopp
    have hkeysHB : (opp.map (·.1)).Nodup := hbSorted_keysNodup hsorted
    obtain ⟨L, R, hflat, hset, herase⟩ := hb_decomp hkeysHB hf
    have hqnd : queue.Nodup := nodup_of_mid (hflat ▸ hfnd)
    have hid := consistent_id hcons
    have hentry : (price, queue) ∈ opp := hbFind_mem hf
    have hqsome : ∀ id ∈ queue, (omFind orders id).isSome := by
      intro id hid2
      obtain ⟨o, hfind, -⟩ := agreeAt_elim (hagree (price, queue) hentry id hid2)
      simp [hfind]
    obtain ⟨pre, hsplit, hpre, hsurv, hstop⟩ := pq_state hpq hqnd hqsome
    have hmakers := pq_makers hpq hid
    intro i hi
    obtain ⟨maker, hfind, hqty, hiff⟩ := pq_quantities hpq hqnd hid i hi
    have hmmem : makerOf (ts.get ⟨i, hi⟩) ∈ queue := by
      have h1 : makerOf (ts.get ⟨i, hi⟩) ∈ ts.map makerOf :=
        List.mem_map_of_mem makerOf (List.get_mem ts i hi)
      rw [hmakers] at h1
      exact List.mem_of_mem_take h1
    obtain ⟨omk, hofind, hoside, hoprice⟩ :=
      agreeAt_elim (hagree (price, queue) hentry _ hmmem)
    have hmkeq : omk = maker := by
      have h2 := hofind
      rw [hfind] at h2
      exact (Option.some.inj h2).symm
    have hprice_t : (ts.get ⟨i, hi⟩).price = price :=
      (pq_fields hpq _ (List.get_mem ts i hi)).2.1
    refine ⟨maker, hfind, ?_, ?_, hqty, hiff, ?_, ?_⟩
    · rw [← hmkeq]
      exact hoside
    · rw [hprice_t, ← hmkeq]
      exact hoprice
    · intro hnone
      have hnotq1 : makerOf (ts.get ⟨i, hi⟩) ∉ q1 := by
        intro hc
        obtain ⟨o, o₂, -, h2, -⟩ := hsurv _ hc
        rw [hnone] at h2
        exact Option.noConfusion h2
      have hnotLR : makerOf (ts.get ⟨i, hi⟩) ∉ L ++ R :=
        fun hc => nodup_mid (hflat ▸ hfnd) hc hmmem
      by_cases hq1e : q1.isEmpty
      · rw [if_pos hq1e, herase]
        exact fun hc => hnotLR hc
      · rw [if_neg hq1e, hset q1]
        intro hc
        rcases List.mem_append.mp hc with hc1 | hcR
        · rcases List.mem_append.mp hc1 with hcL | hcq
          · exact hnotLR (List.mem_append_left _ hcL)
          · exact hnotq1 hcq
        · exact hnotLR (List.mem_append_right _ hcR)
    · intro hsome
      have hinq1 : makerOf (ts.get ⟨i, hi⟩) ∈ q1 := by
        by_contra hcq
        have hpmem : makerOf (ts.get ⟨i, hi⟩) ∈ pre := by
          have h2 := hsplit ▸ hmmem
          rcases List.mem_append.mp h2 with h3 | h3
          · exact h3
          · exact absurd h3 hcq
        rw [hpre _ hpmem] at hsome
        exact Bool.noConfusion hsome
      rcases hstop with hfil | hq1nil
      · exact hfil
      · rw [hq1nil] at hinq1
        exact absurd hinq1 (List.not_mem_nil _)

/-- Full per-trade account of the whole level loop: each trade's maker is
read from the pre-match index on the opposite side, its quantity is the
`min` of the incoming remainder at that moment and the maker's remainder,
and the maker's entry is erased by the loop exactly when the trade took
its whole remainder. -/
theorem ml_trades {instr : String} (os : Side) :
    ∀ {prices : List ℚ} {orders : OrdersMap} {incoming : Order}
      {opp : HalfBook} {orders' : OrdersMap} {opp' : HalfBook}
      {incoming' : Order} {ts : List Trade},
      match_loop instr orders incoming opp prices =
        some (orders', opp', incoming', ts) →
      hbSorted opp → hbNoEmpty opp → sideAgrees orders os opp →
      omKeysNodup orders → ordersConsistent orders → (hbIds opp).Nodup →
      ∀ i (hi : i < ts.length), ∃ maker,
        omFind orders (makerOf (ts.get ⟨i, hi⟩)) = some maker ∧
        maker.side = os ∧
        maker.price = some ((ts.get ⟨i, hi⟩).price) ∧
        (ts.get ⟨i, hi⟩).quantity =
          min (incoming.remaining_quantity -
              ((ts.take i).map (·.quantity)).sum)
            maker.remaining_quantity ∧
        ((ts.get ⟨i, hi⟩).quantity = maker.remaining_quantity ↔
          omFind orders' (makerOf (ts.get ⟨i, hi⟩)) = none) := by
  intro prices
  induction prices with
  | nil =>
    intro orders incoming opp orders' opp' incoming' ts hml
    intro _ _ _ _ _ _ i hi
    obtain hts : ts = [] := by
      simp only [match_loop, Option.some_inj, Prod.mk.injEq] at hml
      exact hml.2.2.2.symm
    rw [hts] at hi
    simp at hi
  | cons price rest ih =>
    intro orders incoming opp orders' opp' incoming' ts hml
    intro hsorted hne hagree hkeys hcons hfnd i hi
    rcases ml_spec hml with ⟨hf, hr⟩ | ⟨hf, o1, opp1, i1, ts1, o2, opp2, i2,
      ts2, hls, hml2, hr⟩
    · obtain hts : ts = [] := by
        rw [Prod.mk.injEq, Prod.mk.injEq, Prod.mk.injEq] at hr
        exact hr.2.2.2
      rw [hts] at hi
      simp at hi
    · obtain ⟨ho, -, hinc, hts⟩ : orders' = o2 ∧ opp' = opp2 ∧
          incoming' = i2 ∧ ts = ts1 ++ ts2 := by
        rw [Prod.mk.injEq, Prod.mk.injEq, Prod.mk.injEq] at hr
        exact ⟨hr.1, hr.2.1, hr.2.2.1, hr.2.2.2⟩
      subst ho
      subst hinc
      subst hts
      obtain ⟨l1, l2, l3, l4, l5, l6, l7, l8, l9, l10, l11⟩ :=
        ls_master hls hsorted hne hagree hkeys hcons hfnd
      have hfnd1 : (hbIds opp1).Nodup := List.Nodup.sublist l6 hfnd
      by_cases hlt : i < ts1.length
      · obtain ⟨maker, hfind, hside, hprice, hqty, hiff, hgone, hsur⟩ :=
          ls_trades hls hsorted hagree hcons hfnd i hlt
        have hget : (ts1 ++ ts2).get ⟨i, hi⟩ = ts1.get ⟨i, hlt⟩ :=
          List.get_append i hlt
        have htake : (ts1 ++ ts2).take i = ts1.take i := by
          rw [List.take_append_eq_append_take,
            Nat.sub_eq_zero_of_le (le_of_lt hlt), List.take_zero,
            List.append_nil]
        rw [hget, htake]
        obtain ⟨m1, m2, m3, m4, m5, m6, m7, m8, m9, m10, m11⟩ :=
          ml_master os hml2 l1 l2 l3 l4 l5 hfnd1
        refine ⟨maker, hfind, hside, hprice, hqty, ?_⟩
        by_cases hE : omFind o1 (makerOf (ts1.get ⟨i, hlt⟩)) = none
        · have h2 : omFind orders' (makerOf (ts1.get ⟨i, hlt⟩)) = none := by
            rw [m7 _ (hgone hE)]
            exact hE
          exact ⟨fun _ => h2, fun _ => hiff.mpr hE⟩
        · have hsome : (omFind o1 (makerOf (ts1.get ⟨i, hlt⟩))).isSome :=
            Option.ne_none_iff_isSome.mp hE
          have hfil := hsur hsome
          obtain ⟨ho2, -, -, -⟩ := ml_filled hml2 hfil
          rw [ho2]
          exact hiff
      · have hlen : ts1.length ≤ i := le_of_not_lt hlt
        have hj : i - ts1.length < ts2.length := by
          rw [List.length_append] at hi
          omega
        by_cases hfil : i1.is_filled = true
        · obtain ⟨-, -, -, hts2⟩ := ml_filled hml2 hfil
          rw [hts2] at hj
          simp at hj
        · have hfil' : i1.is_filled = false := by
            cases hb : i1.is_filled
            · rfl
            · exact absurd hb hfil
          rcases ls_orders_cases hls with hsame | hfil2
          · obtain ⟨maker, hfind2, hside, hprice, hqty, hiff⟩ :=
              ih hml2 l1 l2 l3 l4 l5 hfnd1 (i - ts1.length) hj
            have hget : (ts1 ++ ts2).get ⟨i, hi⟩ =
                ts2.get ⟨i - ts1.length, hj⟩ :=
              List.get_append_right' hlen hi
            rw [hget]
            rcases hsame (makerOf (ts2.get ⟨i - ts1.length, hj⟩)) with heq | hnone
            · refine ⟨maker, ?_, hside, hprice, ?_, hiff⟩
              · rw [← heq]
                exact hfind2
              · have k6 := (ls_incoming hls).2.2.2.2.2
                have htake : (ts1 ++ ts2).take i =
                    ts1 ++ ts2.take (i - ts1.length) := by
                  rw [List.take_append_eq_append_take,
                    List.take_of_length_le hlen]
                rw [htake, List.map_append, List.sum_append, hqty, k6]
                have harith : incoming.remaining_quantity -
                    (ts1.map (·.quantity)).sum -
                    ((ts2.take (i - ts1.length)).map (·.quantity)).sum =
                    incoming.remaining_quantity -
                    ((ts1.map (·.quantity)).sum +
                      ((ts2.take (i - ts1.length)).map (·.quantity)).sum) := by
                  ring
                rw [harith]
            · rw [hnone] at hfind2
              exact Option.noConfusion hfind2
          · exact absurd hfil2 hfil

/-- Best-price-first consumption: each trade's price splits the scanned
price list, and every queue resting at an earlier (better) scanned price
was already fully consumed by earlier trades. -/
theorem ml_consume {instr : String} (os : Side) :
    ∀ {prices : List ℚ} {orders : OrdersMap} {incoming : Order}
      {opp : HalfBook} {orders' : OrdersMap} {opp' : HalfBook}
      {incoming' : Order} {ts : List Trade},
      match_loop instr orders incoming opp prices =
        some (orders', opp', incoming', ts) →
      hbSorted opp → hbNoEmpty opp → sideAgrees orders os opp →
      omKeysNodup orders → ordersConsistent orders → (hbIds opp).Nodup →
      prices.Pairwise (· ≠ ·) →
      ∀ i (hi : i < ts.length), ∃ pfx sfx,
        prices = pfx ++ (ts.get ⟨i, hi⟩).price :: sfx ∧
        ∀ q ∈ pfx, ∀ queue, hbFind opp q = some queue →
          ∀ id ∈ queue, id ∈ (ts.take i).map makerOf := by
  intro prices
  induction prices with
  | nil =>
    intro orders incoming opp orders' opp' incoming' ts hml
    intro _ _ _ _ _ _ _ i hi
    obtain hts : ts = [] := by
      simp only [match_loop, Option.some_inj, Prod.mk.injEq] at hml
      exact hml.2.2.2.symm
    rw [hts] at hi
    simp at hi
  | cons price rest ih =>
    intro orders incoming opp orders' opp' incoming' ts hml
    intro hsorted hne hagree hkeys hcons hfnd hpw i hi
    rcases ml_spec hml with ⟨hf, hr⟩ | ⟨hf, o1, opp1, i1, ts1, o2, opp2, i2,
      ts2, hls, hml2, hr⟩
    · obtain hts : ts = [] := by
        rw [Prod.mk.injEq, Prod.mk.injEq, Prod.mk.injEq] at hr
        exact hr.2.2.2
      rw [hts] at hi
      simp at hi
    · obtain ⟨-, -, -, hts⟩ : orders' = o2 ∧ opp' = opp2 ∧
          incoming' = i2 ∧ ts = ts1 ++ ts2 := by
        rw [Prod.mk.injEq, Prod.mk.injEq, Prod.mk.injEq] at hr
        exact ⟨hr.1, hr.2.1, hr.2.2.1, hr.2.2.2⟩
      subst hts
      obtain ⟨l1, l2, l3, l4, l5, l6, l7, l8, l9, l10, l11⟩ :=
        ls_master hls hsorted hne hagree hkeys hcons hfnd
      have hfnd1 : (hbIds opp1).Nodup := List.Nodup.sublist l6 hfnd
      rw [List.pairwise_cons] at hpw
      by_cases hlt : i < ts1.length
      · have hget : (ts1 ++ ts2).get ⟨i, hi⟩ = ts1.get ⟨i, hlt⟩ :=
          List.get_append i hlt
        have hpr : (ts1.get ⟨i, hlt⟩).price = price :=
          (ls_fields hls _ (List.get_mem ts1 i hlt)).2.1
        refine ⟨[], rest, ?_, ?_⟩
        · rw [hget, hpr]
          rfl
        · intro q hq
          exact absurd hq (List.not_mem_nil q)
      · have hlen : ts1.length ≤ i := le_of_not_lt hlt
        have hj : i - ts1.length < ts2.length := by
          rw [List.length_append] at hi
          omega
        by_cases hfil : i1.is_filled = true
        · obtain ⟨-, -, -, hts2⟩ := ml_filled hml2 hfil
          rw [hts2] at hj
          simp at hj
        · have hfil' : i1.is_filled = false := by
            cases hb : i1.is_filled
            · rfl
            · exact absurd hb hfil
          obtain ⟨pfx', sfx', hdec, hcons'⟩ :=
            ih hml2 l1 l2 l3 l4 l5 hfnd1 hpw.2 (i - ts1.length) hj
          have hget : (ts1 ++ ts2).get ⟨i, hi⟩ =
              ts2.get ⟨i - ts1.length, hj⟩ :=
            List.get_append_right' hlen hi
          have htake : (ts1 ++ ts2).take i =
              ts1 ++ ts2.take (i - ts1.length) := by
            rw [List.take_append_eq_append_take, List.take_of_length_le hlen]
          refine ⟨price :: pfx', sfx', ?_, ?_⟩
          · rw [hget, hdec]
            rfl
          · intro q hq queue hfq id hidq
            rcases List.mem_cons.mp hq with rfl | hq'
            · have hcons1 := ls_consumed hls (consistent_id hcons) hfil'
                queue hfq
              rw [← hcons1] at hidq
              rw [htake, List.map_append]
              exact List.mem_append_left _ hidq
            · have hqrest : q ∈ rest := by
                rw [hdec]
                exact List.mem_append_left _ hq'
              have hqne : q ≠ price := fun hc => hpw.1 q hqrest hc.symm
              have hfq1 : hbFind opp1 q = some queue := by
                rw [l10 q hqne]
                exact hfq
              have h3 := hcons' q hq' queue hfq1 id hidq
              rw [htake, List.map_append]
              exact List.mem_append_right _ h3

/-- FIFO at each price: the makers of the trades executed at any resting
price form a prefix (head-first) of that price's queue. -/
theorem ml_fifo {instr : String} (os : Side) :
    ∀ {prices : List ℚ} {orders : OrdersMap} {incoming : Order}
      {opp : HalfBook} {orders' : OrdersMap} {opp' : HalfBook}
      {incoming' : Order} {ts : List Trade},
      match_loop instr orders incoming opp prices =
        some (orders', opp', incoming', ts) →
      hbSorted opp → hbNoEmpty opp → sideAgrees orders os opp →
      omKeysNodup orders → ordersConsistent orders → (hbIds opp).Nodup →
      prices.Pairwise (· ≠ ·) →
      ∀ p queue, hbFind opp p = some queue →
        (ts.filter (fun t => t.price = p)).map makerOf =
          queue.take ((ts.filter (fun t => t.price = p)).length) := by
  intro prices
  induction prices with
  | nil =>
    intro orders incoming opp orders' opp' incoming' ts hml
    intro _ _ _ _ _ _ _ p queue hfq
    obtain hts : ts = [] := by
      simp only [match_loop, Option.some_inj, Prod.mk.injEq] at hml
      exact hml.2.2.2.symm
    rw [hts]
    rfl
  | cons price rest ih =>
    intro orders incoming opp orders' opp' incoming' ts hml
    intro hsorted hne hagree hkeys hcons hfnd hpw p queue hfq
    rcases ml_spec hml with ⟨hf, hr⟩ | ⟨hf, o1, opp1, i1, ts1, o2, opp2, i2,
      ts2, hls, hml2, hr⟩
    · obtain hts : ts = [] := by
        rw [Prod.mk.injEq, Prod.mk.injEq, Prod.mk.injEq] at hr
        exact hr.2.2.2
      rw [hts]
      rfl
    · obtain ⟨-, -, -, hts⟩ : orders' = o2 ∧ opp' = opp2 ∧
          incoming' = i2 ∧ ts = ts1 ++ ts2 := by
        rw [Prod.mk.injEq, Prod.mk.injEq, Prod.mk.injEq] at hr
        exact ⟨hr.1, hr.2.1, hr.2.2.1, hr.2.2.2⟩
      subst hts
      obtain ⟨l1, l2, l3, l4, l5, l6, l7, l8, l9, l10, l11⟩ :=
        ls_master hls hsorted hne hagree hkeys hcons hfnd
      have hfnd1 : (hbIds opp1).Nodup := List.Nodup.sublist l6 hfnd
      rw [List.pairwise_cons] at hpw
      have hts1p : ∀ t ∈ ts1, t.price = price :=
        fun t ht => (ls_fields hls t ht).2.1
      have hmem2 : ∀ t ∈ ts2, t.price ∈ rest := ml_price_mem hml2
      rw [List.filter_append]
      by_cases hp : p = price
      · subst hp
        have hf1 : ts1.filter (fun t => t.price = p) = ts1 := by
          rw [List.filter_eq_self]
          intro t ht
          simp [hts1p t ht]
        have hf2 : ts2.filter (fun t => t.price = p) = [] := by
          rw [List.filter_eq_nil_iff]
          intro t ht
          simp only [decide_eq_true_eq]
          intro hc
          have hmem := hmem2 t ht
          rw [hc] at hmem
          exact hpw.1 p hmem rfl
        rw [hf1, hf2, List.append_nil]
        exact ls_makers hls (consistent_id hcons) queue hfq
      · have hf1 : ts1.filter (fun t => t.price = p) = [] := by
          rw [List.filter_eq_nil_iff]
          intro t ht
          simp only [decide_eq_true_eq]
          intro hc
          rw [hts1p t ht] at hc
          exact hp hc.symm
        rw [hf1, List.nil_append]
        have hfq1 : hbFind opp1 p = some queue := by
          rw [l10 p hp]
          exact hfq
        exact ih hml2 l1 l2 l3 l4 l5 hfnd1 hpw.2 p queue hfq1

/-- Claim C1: every trade produced by `add_order` executes at the resting
(maker) order's own limit price — the maker being the opposite-side order
popped from the level queue, read off the pre-match id index — and its
quantity is the `min` of the incoming remainder at that moment (the
original remainder less the quantities of the earlier trades) and the
maker's remaining quantity. -/
theorem spec_C1 (b : OrderBook) (o : Order) (b' : OrderBook) (ts : List Trade)
    (hwf : WF b) (h : b.add_order o = some (b', ts)) :
    ∀ i (hi : i < ts.length), ∃ maker,
      omFind b.orders (makerOf (ts.get ⟨i, hi⟩)) = some maker ∧
      maker.side ≠ o.side ∧
      maker.price = some ((ts.get ⟨i, hi⟩).price) ∧
      (ts.get ⟨i, hi⟩).quantity =
        min (o.remaining_quantity - ((ts.take i).map (·.quantity)).sum)
          maker.remaining_quantity := by
  obtain ⟨w1, w2, w3, w4, w5, w6, w7, w8, w9, w10⟩ := hwf
  rw [queueIds_eq] at w9
  obtain ⟨b₁, o', hmo, -⟩ := ao_spec h
  rcases mo_spec hmo with ⟨hside, orders', opp', hml, -⟩ |
    ⟨hside, orders', opp', hml, -⟩
  · have hnd : (hbIds b.asks).Nodup :=
      List.Nodup.sublist (List.sublist_append_right _ _) w9
    intro i hi
    obtain ⟨maker, hfind, hmside, hmprice, hqty, -⟩ :=
      ml_trades Side.Sell hml w2 w4 w6 w7 w8 hnd i hi
    refine ⟨maker, hfind, ?_, hmprice, hqty⟩
    rw [hmside, hside]
    simp
  · have hnd : (hbIds b.bids).Nodup :=
      List.Nodup.sublist (List.sublist_append_left _ _) w9
    intro i hi
    obtain ⟨maker, hfind, hmside, hmprice, hqty, -⟩ :=
      ml_trades Side.Buy hml w1 w3 w5 w7 w8 hnd i hi
    refine ⟨maker, hfind, ?_, hmprice, hqty⟩
    rw [hmside, hside]
    simp

theorem spec_C1_witness :
    WF exBook ∧
    exBook.add_order exBuy = some (exBookAfterBuy, exTrades) ∧
    (∃ maker,
      omFind exBook.orders (makerOf (exTrades.get ⟨1, by decide⟩)) =
        some maker ∧
      maker.side ≠ exBuy.side ∧
      maker.price = some ((exTrades.get ⟨1, by decide⟩).price) ∧
      (exTrades.get ⟨1, by decide⟩).quantity =
        min (exBuy.remaining_quantity -
            ((exTrades.take 1).map (·.quantity)).sum)
          maker.remaining_quantity) := by
  have hwf : WF exBook := by decide
  have hadd : exBook.add_order exBuy = some (exBookAfterBuy, exTrades) := by
    norm_num [OrderBook.add_order, OrderBook.match_order, match_loop,
      level_step, process_queue, OrderBook.get_matchable_prices,
      matchable_scan, hbFind, omFind, Order.fill, Order.is_filled, omErase,
      omInsert, hbErase, hbSet, hbPush, exBook, exBuy, exSell1, exSell2,
      exBookAfterBuy, exSell2Filled, exTrades, List.find?, List.filter]
  exact ⟨hwf, hadd,
    spec_C1 exBook exBuy exBookAfterBuy exTrades hwf hadd 1 (by decide)⟩

/-- Claim C2: price traversal of a single `add_order`.  The matchable
prices are exactly the crossing keys of the opposite side — ask keys in
ascending order for a BUY, bid keys in descending order for a SELL, a
LIMIT order crossing `p` iff `p ≤ limit` (buy) / `limit ≤ p` (sell), a
MARKET order crossing every key.  Every trade executes at a matchable
price, trade prices are monotone along the list (best price first), and no
trade executes at a price while a strictly better opposite-side level
still holds an id that was not already consumed as the maker of an earlier
trade. -/
theorem spec_C2 (b : OrderBook) (o : Order) (b' : OrderBook) (ts : List Trade)
    (hwf : WF b) (h : b.add_order o = some (b', ts)) :
    b.get_matchable_prices o =
      (match o.side with
        | Side.Buy => (b.asks.map (·.1)).filter
            (fun p => o.price.elim true (fun lp => decide (p ≤ lp)))
        | Side.Sell => ((b.bids.reverse).map (·.1)).filter
            (fun p => o.price.elim true (fun lp => decide (lp ≤ p)))) ∧
    (∀ t ∈ ts, t.price ∈ b.get_matchable_prices o) ∧
    ts.Pairwise (fun t t' =>
      match o.side with
      | Side.Buy => t.price ≤ t'.price
      | Side.Sell => t'.price ≤ t.price) ∧
    (∀ i (hi : i < ts.length), ∀ q queue,
      (match o.side with
        | Side.Buy => hbFind b.asks q
        | Side.Sell => hbFind b.bids q) = some queue →
      (match o.side with
        | Side.Buy => q < (ts.get ⟨i, hi⟩).price
        | Side.Sell => (ts.get ⟨i, hi⟩).price < q) →
      ∀ id ∈ queue, id ∈ (ts.take i).map makerOf) := by
  have hwf0 := hwf
  have hgmp := gmp_spec o hwf0
  obtain ⟨w1, w2, w3, w4, w5, w6, w7, w8, w9, w10⟩ := hwf
  rw [queueIds_eq] at w9
  obtain ⟨b₁, o', hmo, -⟩ := ao_spec h
  rcases mo_spec hmo with ⟨hside, orders', opp', hml, -⟩ |
    ⟨hside, orders', opp', hml, -⟩
  · simp only [hside] at hgmp ⊢
    have hnd : (hbIds b.asks).Nodup :=
      List.Nodup.sublist (List.sublist_append_right _ _) w9
    have hplt : (b.get_matchable_prices o).Pairwise (· < ·) := by
      rw [hgmp]
      exact List.Pairwise.filter _ w2
    have hpne : (b.get_matchable_prices o).Pairwise (· ≠ ·) :=
      hplt.imp ne_of_lt
    refine ⟨hgmp, ml_price_mem hml, ?_, ?_⟩
    · exact ml_chain (· ≤ ·) (fun p => le_refl p) hml
        (hplt.imp le_of_lt)
    · intro i hi q queue hfq hlt id hidq
      obtain ⟨pfx, sfx, hdec, hcons'⟩ :=
        ml_consume Side.Sell hml w2 w4 w6 w7 w8 hnd hpne i hi
      have hqkeys : q ∈ b.asks.map (·.1) :=
        List.mem_map_of_mem _ (hbFind_mem hfq)
      have htp_mem : (ts.get ⟨i, hi⟩).price ∈ b.get_matchable_prices o :=
        ml_price_mem hml _ (List.get_mem ts i hi)
      have hqmem : q ∈ b.get_matchable_prices o := by
        rw [hgmp] at htp_mem ⊢
        rw [List.mem_filter] at htp_mem ⊢
        refine ⟨hqkeys, ?_⟩
        cases hop : o.price with
        | none => rfl
        | some lp =>
          rw [hop] at htp_mem
          have h2 : (ts.get ⟨i, hi⟩).price ≤ lp := by
            have h3 := htp_mem.2
            simp only [Option.elim] at h3
            exact of_decide_eq_true h3
          show (some lp).elim true (fun lp' => decide (q ≤ lp')) = true
          simp only [Option.elim]
          exact decide_eq_true (le_of_lt (lt_of_lt_of_le hlt h2))
      have hqpfx : q ∈ pfx := by
        refine mem_left_of_rel (· < ·) pfx sfx
          (fun x y hxy => lt_asymm hxy) ?_ ?_ hlt
        · rw [← hdec]
          exact hplt
        · rw [← hdec]
          exact hqmem
      exact hcons' q hqpfx queue hfq id hidq
  · simp only [hside] at hgmp ⊢
    have hnd : (hbIds b.bids).Nodup :=
      List.Nodup.sublist (List.sublist_append_left _ _) w9
    have hpgt : (b.get_matchable_prices o).Pairwise (· > ·) := by
      rw [hgmp]
      refine List.Pairwise.filter _ ?_
      rw [List.map_reverse, List.pairwise_reverse]
      exact w1
    have hpne : (b.get_matchable_prices o).Pairwise (· ≠ ·) :=
      hpgt.imp ne_of_gt
    refine ⟨hgmp, ml_price_mem hml, ?_, ?_⟩
    · exact ml_chain (· ≥ ·) (fun p => le_refl p) hml
        (hpgt.imp le_of_lt)
    · intro i hi q queue hfq hlt id hidq
      obtain ⟨pfx, sfx, hdec, hcons'⟩ :=
        ml_consume Side.Buy hml w1 w3 w5 w7 w8 hnd hpne i hi
      have hqkeys : q ∈ (b.bids.reverse).map (·.1) :=
        List.mem_map_of_mem _ (List.mem_reverse.mpr (hbFind_mem hfq))
      have htp_mem : (ts.get ⟨i, hi⟩).price ∈ b.get_matchable_prices o :=
        ml_price_mem hml _ (List.get_mem ts i hi)
      have hqmem : q ∈ b.get_matchable_prices o := by
        rw [hgmp] at htp_mem ⊢
        rw [List.mem_filter] at htp_mem ⊢
        refine ⟨hqkeys, ?_⟩
        cases hop : o.price with
        | none => rfl
        | some lp =>
          rw [hop] at htp_mem
          have h2 : lp ≤ (ts.get ⟨i, hi⟩).price := by
            have h3 := htp_mem.2
            simp only [Option.elim] at h3
            exact of_decide_eq_true h3
          show (some lp).elim true (fun lp' => decide (lp' ≤ q)) = true
          simp only [Option.elim]
          exact decide_eq_true (le_of_lt (lt_of_le_of_lt h2 hlt))
      have hqpfx : q ∈ pfx := by
        refine mem_left_of_rel (· > ·) pfx sfx
          (fun x y hxy => lt_asymm hxy) ?_ ?_ hlt
        · rw [← hdec]
          exact hpgt
        · rw [← hdec]
          exact hqmem
      exact hcons' q hqpfx queue hfq id hidq

theorem spec_C2_witness :
    WF exBook ∧
    exBook.add_order exBuy = some (exBookAfterBuy, exTrades) ∧
    exBook.get_matchable_prices exBuy =
      ((exBook.asks.map (·.1)).filter
        (fun p => exBuy.price.elim true (fun lp => decide (p ≤ lp)))) ∧
    exTrades.Pairwise (fun t t' =>
      match exBuy.side with
      | Side.Buy => t.price ≤ t'.price
      | Side.Sell => t'.price ≤ t.price) ∧
    (∀ id ∈ ([1] : List Nat), id ∈ (exTrades.take 1).map makerOf) := by
  have hwf : WF exBook := by decide
  have hadd : exBook.add_order exBuy = some (exBookAfterBuy, exTrades) := by
    norm_num [OrderBook.add_order, OrderBook.match_order, match_loop,
      level_step, process_queue, OrderBook.get_matchable_prices,
      matchable_scan, hbFind, omFind, Order.fill, Order.is_filled, omErase,
      omInsert, hbErase, hbSet, hbPush, exBook, exBuy, exSell1, exSell2,
      exBookAfterBuy, exSell2Filled, exTrades, List.find?, List.filter]
  obtain ⟨h1, h2, h3, h4⟩ := spec_C2 exBook exBuy exBookAfterBuy exTrades
    hwf hadd
  exact ⟨hwf, hadd, h1, h3, h4 1 (by decide) 101 [1] rfl
    (show (101 : ℚ) < (exTrades.get ⟨1, by decide⟩).price by decide)⟩

/-- Claim C3: FIFO within a price level under `add_order` with a fresh id.
The makers of the trades executed at any resting price form a head-first
prefix of that price's queue (so an order resting behind another at the
same side and price is never filled before it); a maker's id-index entry
is erased by the submission exactly when its trade takes its whole
remaining quantity; and before every trade the incoming remainder is
non-zero — matching stops as soon as the incoming order is filled. -/
theorem spec_C3 (b : OrderBook) (o : Order) (b' : OrderBook) (ts : List Trade)
    (hwf : WF b) (hfresh : omFind b.orders o.order_id = none)
    (h : b.add_order o = some (b', ts)) :
    (∀ p queue,
      (match o.side with
        | Side.Buy => hbFind b.asks p
        | Side.Sell => hbFind b.bids p) = some queue →
      (ts.filter (fun t => t.price = p)).map makerOf =
        queue.take ((ts.filter (fun t => t.price = p)).length)) ∧
    (∀ i (hi : i < ts.length), ∃ maker,
      omFind b.orders (makerOf (ts.get ⟨i, hi⟩)) = some maker ∧
      ((ts.get ⟨i, hi⟩).quantity = maker.remaining_quantity ↔
        omFind b'.orders (makerOf (ts.get ⟨i, hi⟩)) = none)) ∧
    (∀ i, i < ts.length →
      o.remaining_quantity - ((ts.take i).map (·.quantity)).sum ≠ 0) := by
  have hwf0 := hwf
  have hgmp := gmp_spec o hwf0
  obtain ⟨w1, w2, w3, w4, w5, w6, w7, w8, w9, w10⟩ := hwf
  rw [queueIds_eq] at w9
  obtain ⟨b₁, o', hmo, hrest⟩ := ao_spec h
  obtain ⟨hwf₁, hinstr, hunch, hsub, hown, hoid, hoside, hoprice, hotype,
    hoqty, horem⟩ := match_order_WF hmo hwf0
  have hORD : ∀ id', id' ≠ o.order_id →
      omFind b'.orders id' = omFind b₁.orders id' := by
    rcases hrest with ⟨-, -, p, -, hcase⟩ | ⟨-, rfl⟩ | ⟨-, -, -, rfl⟩
    · rcases hcase with ⟨-, rfl⟩ | ⟨-, rfl⟩
      · intro id' hne
        exact omFind_insert_ne b₁.orders o'
          (by rw [hoid]; exact fun hc => hne hc.symm)
      · intro id' hne
        exact omFind_insert_ne b₁.orders o'
          (by rw [hoid]; exact fun hc => hne hc.symm)
    · intro id' hne
      rfl
    · intro id' hne
      rfl
  rcases mo_spec hmo with ⟨hside, orders', opp', hml, hb⟩ |
    ⟨hside, orders', opp', hml, hb⟩
  · simp only [hside] at hgmp ⊢
    have hnd : (hbIds b.asks).Nodup :=
      List.Nodup.sublist (List.sublist_append_right _ _) w9
    have hpne : (b.get_matchable_prices o).Pairwise (· ≠ ·) := by
      rw [hgmp]
      exact (List.Pairwise.filter _ w2).imp ne_of_lt
    refine ⟨?_, ?_, ?_⟩
    · intro p queue hfq
      exact ml_fifo Side.Sell hml w2 w4 w6 w7 w8 hnd hpne p queue hfq
    · intro i hi
      obtain ⟨maker, hfind, -, -, -, hiff⟩ :=
        ml_trades Side.Sell hml w2 w4 w6 w7 w8 hnd i hi
      refine ⟨maker, hfind, ?_⟩
      have hmne : makerOf (ts.get ⟨i, hi⟩) ≠ o.order_id := by
        intro hc
        rw [hc, hfresh] at hfind
        exact Option.noConfusion hfind
      rw [hORD _ hmne, hb]
      exact hiff
    · exact ml_nonzero hml
  · simp only [hside] at hgmp ⊢
    have hnd : (hbIds b.bids).Nodup :=
      List.Nodup.sublist (List.sublist_append_left _ _) w9
    have hpne : (b.get_matchable_prices o).Pairwise (· ≠ ·) := by
      rw [hgmp]
      refine ((List.Pairwise.filter _ ?_).imp ne_of_gt)
      rw [List.map_reverse, List.pairwise_reverse]
      exact w1
    refine ⟨?_, ?_, ?_⟩
    · intro p queue hfq
      exact ml_fifo Side.Buy hml w1 w3 w5 w7 w8 hnd hpne p queue hfq
    · intro i hi
      obtain ⟨maker, hfind, -, -, -, hiff⟩ :=
        ml_trades Side.Buy hml w1 w3 w5 w7 w8 hnd i hi
      refine ⟨maker, hfind, ?_⟩
      have hmne : makerOf (ts.get ⟨i, hi⟩) ≠ o.order_id := by
        intro hc
        rw [hc, hfresh] at hfind
        exact Option.noConfusion hfind
      rw [hORD _ hmne, hb]
      exact hiff
    · exact ml_nonzero hml

theorem spec_C3_witness :
    WF exBook ∧ omFind exBook.orders 4 = none ∧
    exBook.add_order exMarketBuy = some (exBookAfterBuy, exTradesM) ∧
    ((exTradesM.filter (fun t => t.price = 101)).map makerOf =
      ([1] : List Nat).take
        ((exTradesM.filter (fun t => t.price = 101)).length)) ∧
    (∃ maker,
      omFind exBook.orders (makerOf (exTradesM.get ⟨1, by decide⟩)) =
        some maker ∧
      ((exTradesM.get ⟨1, by decide⟩).quantity = maker.remaining_quantity ↔
        omFind exBookAfterBuy.orders
          (makerOf (exTradesM.get ⟨1, by decide⟩)) = none)) ∧
    exMarketBuy.remaining_quantity -
      ((exTradesM.take 1).map (·.quantity)).sum ≠ 0 := by
  have hwf : WF exBook := by decide
  have hadd : exBook.add_order exMarketBuy =
      some (exBookAfterBuy, exTradesM) := by
    norm_num [OrderBook.add_order, OrderBook.match_order, match_loop,
      level_step, process_queue, OrderBook.get_matchable_prices,
      matchable_scan, hbFind, omFind, Order.fill, Order.is_filled, omErase,
      omInsert, hbErase, hbSet, hbPush, exBook, exMarketBuy, exSell1,
      exSell2, exBookAfterBuy, exSell2Filled, exTradesM, List.find?,
      List.filter]
  obtain ⟨h1, h2, h3⟩ := spec_C3 exBook exMarketBuy exBookAfterBuy exTradesM
    hwf rfl hadd
  exact ⟨hwf, rfl, hadd, h1 101 [1] rfl, h2 1 (by decide), h3 1 (by decide)⟩

end Exchange
